import Mathlib

/-!
Verification development for the `search-navigate` client-side navigation
engine (`src/index.ts`).  The source is shallowly embedded: the reactive
`Store` class, the history queue built by `createHistory`, the query-string
codec (`encode`/`decode`/`toValue`, `parseSearchWith(JSON.parse)`,
`stringifySearchWith(JSON.stringify)`), the structural merge `d`/`R`, the
`parseLocation` helper, and the `Router.load` transition are all translated
into executable Lean definitions, and the specification's claims about them
are proved or refuted.

Modelling conventions, used throughout:
* JavaScript runs single-threaded; every operation is a pure function on an
  explicit state record.
* Listener sets are not enumerated: a "notification round" (one run of the
  queued closure `() => listeners.forEach(l => l(this.state, previous))`)
  is recorded as one `(next, previous)` entry in a notification log, meaning
  "every registered listener was invoked with these two arguments".
  Listeners and hooks are modelled as passive observers (they do not mutate
  the store re-entrantly), which is how the router under verification uses
  them.
* JavaScript numbers are modelled by `Int`, the integral fragment in which
  all the numeric behaviour exercised here (decimal printing, `+str`
  coercion of decimal integer strings, JSON integer literals) coincides
  with IEEE-754 doubles.  Non-integral numerics are outside the modelled
  fragment.
-/

/-! ## Reactive Store (`class Store`, src/index.ts lines 17-60)

The class fields `state`, `batching`, `queue` are modelled directly.  The
queued notification closure captures `previous` by value and reads
`this.state` at *run* time, so a queue entry is just the captured previous
state; the flush step pairs it with the state current at flush time.
`listeners.forEach` is recorded in `notifLog`, the `options?.onUpdate` hook
invocation in `onUpdateLog`.  The optional `options?.updateFn` transform is
passed explicitly to `setState` (the router constructs its store without
one). -/

structure Store (σ : Type) where
  state : σ
  batching : Bool
  /-- Queued notification tasks: the `previous` captured by each queued
  closure, in enqueue order. -/
  queue : List σ
  /-- `(next, previous)` pairs delivered to every registered listener, in
  delivery order. -/
  notifLog : List (σ × σ)
  /-- `(next, previous)` pairs the `onUpdate` hook was invoked with. -/
  onUpdateLog : List (σ × σ)
deriving Repr

/-- `#flush`: if batching, do nothing; otherwise run every queued
notification closure (each delivers `(this.state, previous)` with
`this.state` read now) and empty the queue. -/
def Store.flush {σ : Type} (s : Store σ) : Store σ :=
  if s.batching then s
  else { s with
          queue := [],
          notifLog := s.notifLog ++ s.queue.map (fun p => (s.state, p)) }

/-- `setState(updater)`: compute the candidate next state (through
`options.updateFn` when configured), return unchanged when it is
reference-identical to the previous state, otherwise run the `onUpdate`
hook, enqueue a notification task capturing `previous`, and flush. -/
def Store.setState {σ : Type} [DecidableEq σ]
    (updateFn : Option (σ → (σ → σ) → σ)) (updater : σ → σ)
    (s : Store σ) : Store σ :=
  let previous := s.state
  let next := match updateFn with
    | some f => f previous updater
    | none => updater previous
  if next = previous then { s with state := next }
  else
    Store.flush { s with
      state := next,
      onUpdateLog := s.onUpdateLog ++ [(next, previous)],
      queue := s.queue ++ [previous] }

/-- `batch(cb)`: set the batching flag, run the callback, clear the flag,
flush once. -/
def Store.batch {σ : Type} (cb : Store σ → Store σ) (s : Store σ) :
    Store σ :=
  Store.flush { cb { s with batching := true } with batching := false }

/-- A sequence of plain `setState` calls (no `updateFn`), in order. -/
def Store.runSets {σ : Type} [DecidableEq σ] :
    List (σ → σ) → Store σ → Store σ
  | [], s => s
  | u :: us, s => Store.runSets us (Store.setState none u s)

/-- A store that is not inside a batch and has an empty task queue: the
resting state between top-level operations (every flush outside a batch
empties the queue). -/
def Store.Resting {σ : Type} (s : Store σ) : Prop :=
  s.batching = false ∧ s.queue = []

theorem Store.eta_batching {σ : Type} (s : Store σ) (b : Bool)
    (h : s.batching = b) : ({ s with batching := b } : Store σ) = s := by
  cases s
  simp_all

theorem Store.flush_not_batching {σ : Type} (s : Store σ)
    (h : s.batching = false) :
    Store.flush s =
      { s with queue := [],
               notifLog := s.notifLog ++ s.queue.map (fun p => (s.state, p)) } := by
  simp [Store.flush, h]

theorem Store.flush_resting_id {σ : Type} (s : Store σ)
    (h : Store.Resting s) : Store.flush s = s := by
  obtain ⟨hb, hq⟩ := h
  cases s
  simp_all [Store.flush]

/-- During a batch, `setState` only (possibly) appends one queued task and
one hook record and changes the state; it never delivers a notification. -/
theorem Store.setState_batched {σ : Type} [DecidableEq σ]
    (uf : Option (σ → (σ → σ) → σ)) (u : σ → σ) (s : Store σ)
    (hb : s.batching = true) :
    (Store.setState uf u s).batching = true ∧
    (Store.setState uf u s).notifLog = s.notifLog ∧
    ∃ extra : List σ, (Store.setState uf u s).queue = s.queue ++ extra ∧
      extra.length ≤ 1 := by
  unfold Store.setState Store.flush
  dsimp only
  split
  · exact ⟨hb, rfl, [], by simp, by simp⟩
  · simp only [hb, if_true]
    exact ⟨trivial, trivial, [s.state], rfl, by simp⟩

/-- Running any list of `setState` calls inside a batch keeps the flag set,
delivers nothing, and appends at most one queued task per call. -/
theorem Store.runSets_batched {σ : Type} [DecidableEq σ]
    (us : List (σ → σ)) (s : Store σ) (hb : s.batching = true) :
    (Store.runSets us s).batching = true ∧
    (Store.runSets us s).notifLog = s.notifLog ∧
    ∃ extra : List σ, (Store.runSets us s).queue = s.queue ++ extra ∧
      extra.length ≤ us.length := by
  induction us generalizing s with
  | nil => exact ⟨hb, rfl, [], by simp [Store.runSets], by simp⟩
  | cons u us ih =>
    obtain ⟨h1, h2, e1, he1, hl1⟩ := Store.setState_batched none u s hb
    obtain ⟨g1, g2, e2, he2, hl2⟩ := ih (Store.setState none u s) h1
    refine ⟨g1, ?_, e1 ++ e2, ?_, ?_⟩
    · show (Store.runSets us (Store.setState none u s)).notifLog = s.notifLog
      rw [g2, h2]
    · show (Store.runSets us (Store.setState none u s)).queue = _
      rw [he2, he1, List.append_assoc]
    · have := Nat.add_le_add hl1 hl2
      simpa [Nat.add_comm] using this

/-- Outside a batch with an empty queue, any sequence of `setState` calls
leaves the store outside a batch with an empty queue (each call flushes
itself). -/
theorem Store.runSets_resting {σ : Type} [DecidableEq σ]
    (us : List (σ → σ)) (s : Store σ) (h : Store.Resting s) :
    Store.Resting (Store.runSets us s) := by
  induction us generalizing s with
  | nil => exact h
  | cons u us ih =>
    refine ih _ ?_
    obtain ⟨hb, hq⟩ := h
    unfold Store.setState Store.flush
    dsimp only
    constructor
    · split
      · exact hb
      · simp [hb]
    · split
      · exact hq
      · simp [hb]

/-! ## Claims C6, C7, C8 about the Store -/

/-- C6: for every state and every updater whose result (through the
configured transform hook, when present) is reference-identical to the
current state, `setState` is a complete no-op for observers: the store is
returned entirely unchanged — no listener notification is delivered, no
notification task is enqueued, and the `onUpdate` hook is not invoked. -/
theorem c6_setState_noop {σ : Type} [DecidableEq σ]
    (uf : Option (σ → (σ → σ) → σ)) (u : σ → σ) (s : Store σ)
    (h : (match uf with
          | some f => f s.state u
          | none => u s.state) = s.state) :
    Store.setState uf u s = s := by
  unfold Store.setState
  dsimp only
  rw [h]
  simp

/-- Witness for C6 at a concrete input: the identity updater on a resting
`Nat` store changes nothing. -/
theorem c6_setState_noop_witness :
    Store.setState none (fun n => n)
      ({ state := 5, batching := false, queue := [], notifLog := [],
         onUpdateLog := [] } : Store Nat) =
      { state := 5, batching := false, queue := [], notifLog := [],
        onUpdateLog := [] } :=
  c6_setState_noop none (fun n => n) _ rfl

/-- C7: for every sequence of `setState` calls run inside one `batch` from a
resting store, at most one notification task per call is enqueued, none of
them is delivered before the batch closes (the notification log while the
callback runs is still the original one), and every notification the closing
flush then delivers carries as `next` the final state computed by the whole
batch — listeners never observe an intermediate state as `next`. -/
theorem c7_batch_atomic {σ : Type} [DecidableEq σ]
    (us : List (σ → σ)) (s₀ : Store σ) (h : Store.Resting s₀) :
    (Store.runSets us { s₀ with batching := true }).notifLog = s₀.notifLog ∧
    (Store.runSets us { s₀ with batching := true }).queue.length ≤ us.length ∧
    (Store.batch (Store.runSets us) s₀).state =
      (Store.runSets us { s₀ with batching := true }).state ∧
    (Store.batch (Store.runSets us) s₀).notifLog =
      s₀.notifLog ++
        (Store.runSets us { s₀ with batching := true }).queue.map
          (fun p => ((Store.runSets us { s₀ with batching := true }).state, p)) := by
  obtain ⟨hb, hq⟩ := h
  obtain ⟨h1, h2, extra, he, hl⟩ :=
    Store.runSets_batched us { s₀ with batching := true } rfl
  dsimp only at h2 he
  refine ⟨h2, ?_, ?_, ?_⟩
  · rw [he, hq]
    simpa using hl
  · unfold Store.batch
    rw [Store.flush_not_batching _ (by simp)]
  · unfold Store.batch
    rw [Store.flush_not_batching _ (by simp)]
    dsimp only
    rw [h2]

/-- Witness for C7 at a concrete input: two state changes inside one batch
on a resting `Nat` store deliver both notifications only at the close, each
carrying the final state `2` as `next`. -/
theorem c7_batch_atomic_witness :
    (Store.runSets [fun _ => 1, fun _ => 2]
        { state := 0, batching := true, queue := [], notifLog := [],
          onUpdateLog := [] } : Store Nat).notifLog = [] ∧
    (Store.runSets [fun _ => 1, fun _ => 2]
        { state := 0, batching := true, queue := [], notifLog := [],
          onUpdateLog := [] } : Store Nat).queue.length ≤ 2 ∧
    (Store.batch (Store.runSets [fun _ => 1, fun _ => 2])
        { state := 0, batching := false, queue := [], notifLog := [],
          onUpdateLog := [] } : Store Nat).state =
      (Store.runSets [fun _ => 1, fun _ => 2]
        { state := 0, batching := true, queue := [], notifLog := [],
          onUpdateLog := [] } : Store Nat).state ∧
    (Store.batch (Store.runSets [fun _ => 1, fun _ => 2])
        { state := 0, batching := false, queue := [], notifLog := [],
          onUpdateLog := [] } : Store Nat).notifLog =
      [] ++ (Store.runSets [fun _ => 1, fun _ => 2]
        { state := 0, batching := true, queue := [], notifLog := [],
          onUpdateLog := [] } : Store Nat).queue.map
        (fun p => ((Store.runSets [fun _ => 1, fun _ => 2]
          { state := 0, batching := true, queue := [], notifLog := [],
            onUpdateLog := [] } : Store Nat).state, p)) :=
  c7_batch_atomic [fun _ => 1, fun _ => 2]
    { state := 0, batching := false, queue := [], notifLog := [],
      onUpdateLog := [] } ⟨rfl, rfl⟩

/-- C8 counterexample: the claim "notifications enqueued anywhere inside the
nesting are delivered only when the outermost batch completes" is false at a
concrete input.  On a resting `Nat` store holding `0`, run an outer batch
whose callback first runs an inner `batch` setting the state to `1` and then
a plain `setState` setting it to `2`.  The inner batch's close *clears* the
on/off batching flag and flushes, so the `(1, 0)` notification is delivered
before the outer batch completes (it is already delivered in the store the
inner batch returns, second conjunct), the subsequent `setState` delivers
`(2, 1)` immediately, and the first delivered notification carries
`next = 1`, not the final state `2` that delivery-at-outer-close would
show. -/
theorem c8_nested_batch_counterexample :
    (Store.batch
        (fun s => Store.runSets [fun _ => 2]
          (Store.batch (Store.runSets [fun _ => 1]) s))
        ({ state := 0, batching := false, queue := [], notifLog := [],
           onUpdateLog := [] } : Store Nat)).notifLog = [(1, 0), (2, 1)] ∧
    (Store.batch (Store.runSets [fun _ => 1])
        ({ state := 0, batching := true, queue := [], notifLog := [],
           onUpdateLog := [] } : Store Nat)).notifLog = [(1, 0)] ∧
    (Store.batch
        (fun s => Store.runSets [fun _ => 2]
          (Store.batch (Store.runSets [fun _ => 1]) s))
        ({ state := 0, batching := false, queue := [], notifLog := [],
           onUpdateLog := [] } : Store Nat)).state = 2 := by
  decide

/-- C8 amended: in a nested use of `Store.batch`, the batching flag is a
simple on/off latch, so it is the *inner* batch's completion that clears the
flag and flushes: every notification enqueued up to the inner batch's close
is delivered at that moment (with `next` the state at the inner close), the
inner batch leaves the store un-batched with an empty queue, and the rest of
the outer callback runs exactly as it would outside any batch — the outer
batch's own closing flush delivers nothing. -/
theorem c8_nested_batch_inner_flush {σ : Type} [DecidableEq σ]
    (us vs ws : List (σ → σ)) (s₀ : Store σ) (h : Store.Resting s₀) :
    (Store.batch (Store.runSets vs)
        (Store.runSets us { s₀ with batching := true })).notifLog =
      s₀.notifLog ++
        (Store.runSets vs { Store.runSets us { s₀ with batching := true } with
            batching := true }).queue.map
          (fun p =>
            ((Store.runSets vs { Store.runSets us { s₀ with batching := true } with
                batching := true }).state, p)) ∧
    Store.Resting
      (Store.batch (Store.runSets vs)
        (Store.runSets us { s₀ with batching := true })) ∧
    Store.batch
        (fun s => Store.runSets ws (Store.batch (Store.runSets vs)
          (Store.runSets us s))) s₀ =
      Store.runSets ws
        (Store.batch (Store.runSets vs)
          (Store.runSets us { s₀ with batching := true })) := by
  obtain ⟨hb, hq⟩ := h
  obtain ⟨h1, h2, e1, he1, -⟩ :=
    Store.runSets_batched us { s₀ with batching := true } rfl
  dsimp only at h2 he1
  obtain ⟨g1, g2, e2, he2, -⟩ :=
    Store.runSets_batched vs
      { Store.runSets us { s₀ with batching := true } with batching := true } rfl
  dsimp only at g2 he2
  have hinner :
      Store.Resting
        (Store.batch (Store.runSets vs)
          (Store.runSets us { s₀ with batching := true })) := by
    unfold Store.batch
    rw [Store.flush_not_batching _ (by simp)]
    exact ⟨rfl, rfl⟩
  have houter :
      Store.Resting
        (Store.runSets ws
          (Store.batch (Store.runSets vs)
            (Store.runSets us { s₀ with batching := true }))) :=
    Store.runSets_resting ws _ hinner
  refine ⟨?_, hinner, ?_⟩
  · unfold Store.batch
    rw [Store.flush_not_batching _ (by simp)]
    dsimp only
    rw [g2, h2]
  · show Store.flush _ = _
    rw [Store.eta_batching _ _ (by simpa using houter.1)]
    exact Store.flush_resting_id _ houter

/-- Witness for C8's amended theorem at a concrete input (empty prefix,
inner batch sets `1`, outer continues with `2`, on a resting `Nat` store
holding `0`). -/
theorem c8_nested_batch_inner_flush_witness :
    (Store.batch (Store.runSets [fun _ => 1])
        (Store.runSets ([] : List (Nat → Nat))
          { state := 0, batching := true, queue := [], notifLog := [],
            onUpdateLog := [] })).notifLog =
      [] ++
        (Store.runSets [fun _ => 1]
          { Store.runSets ([] : List (Nat → Nat))
              { state := 0, batching := true, queue := [], notifLog := [],
                onUpdateLog := [] } with batching := true }).queue.map
          (fun p =>
            ((Store.runSets [fun _ => 1]
              { Store.runSets ([] : List (Nat → Nat))
                  { state := 0, batching := true, queue := [], notifLog := [],
                    onUpdateLog := [] } with batching := true }).state, p)) ∧
    Store.Resting
      (Store.batch (Store.runSets [fun _ => 1])
        (Store.runSets ([] : List (Nat → Nat))
          { state := 0, batching := true, queue := [], notifLog := [],
            onUpdateLog := [] })) ∧
    Store.batch
        (fun s => Store.runSets [fun _ => 2] (Store.batch (Store.runSets [fun _ => 1])
          (Store.runSets ([] : List (Nat → Nat)) s)))
        { state := 0, batching := false, queue := [], notifLog := [],
          onUpdateLog := [] } =
      Store.runSets [fun _ => 2]
        (Store.batch (Store.runSets [fun _ => 1])
          (Store.runSets ([] : List (Nat → Nat))
            { state := 0, batching := true, queue := [], notifLog := [],
              onUpdateLog := [] })) :=
  c8_nested_batch_inner_flush [] [fun _ => 1] [fun _ => 2]
    { state := 0, batching := false, queue := [], notifLog := [],
      onUpdateLog := [] } ⟨rfl, rfl⟩

/-! ## Navigation orchestrator: `Router.load` (src/index.ts lines 427-436)

The router's store holds `{ latestLocation, currentLocation }`.  In the
source, `load` is the expression

  `this.__store.batch(() => { t?.next && this.__store.setState(...) }),
   this.__store.setState((n) => ({ ...n, currentLocation:
     this.state.latestLocation }))`

— a comma expression: the batch wraps *only* the `latestLocation` update,
and the `currentLocation` assignment is a separate `setState` issued after
the batch has returned (and flushed).  `this.state` is the router's mirror
of the store state, kept in sync by the store's `onUpdate` hook, so at the
time the second updater runs it equals the store state left by the batch. -/

structure RouterStore (L : Type) where
  latestLocation : L
  currentLocation : L
deriving DecidableEq, Repr

def Router.load {L : Type} [DecidableEq L] (next? : Option L)
    (s : Store (RouterStore L)) : Store (RouterStore L) :=
  let s1 := Store.batch
    (fun st => match next? with
      | some nx =>
          Store.setState none (fun n => { n with latestLocation := nx }) st
      | none => st) s
  Store.setState none
    (fun n => { n with currentLocation := s1.state.latestLocation }) s1

/-- C1 counterexample: the claim "both updates are performed inside one
single Store batch, so no subscriber notification is delivered between the
two updates" is false at a concrete input.  On a resting store holding
`latestLocation = 0, currentLocation = 0` (locations modelled as `Nat`),
`load` with explicit next location `1` delivers *two* notification rounds:
the first fires when the batch (which contains only the `latestLocation`
update) closes, before `currentLocation` is assigned, so its `next` state
has `latestLocation = 1` but `currentLocation = 0` — a listener observes
`currentLocation` lagging behind the `latestLocation` set earlier in the
same load. -/
theorem c1_load_counterexample :
    (Router.load (some 1)
        ({ state := ⟨0, 0⟩, batching := false, queue := [], notifLog := [],
           onUpdateLog := [] } : Store (RouterStore Nat))).notifLog =
      [(⟨1, 0⟩, ⟨0, 0⟩), (⟨1, 1⟩, ⟨1, 0⟩)] ∧
    ((Router.load (some 1)
        ({ state := ⟨0, 0⟩, batching := false, queue := [], notifLog := [],
           onUpdateLog := [] } : Store (RouterStore Nat))).notifLog.head? =
      some (⟨1, 0⟩, ⟨0, 0⟩)) ∧
    (1 : Nat) ≠ 0 ∧
    (Router.load (some 1)
        ({ state := ⟨0, 0⟩, batching := false, queue := [], notifLog := [],
           onUpdateLog := [] } : Store (RouterStore Nat))).state = ⟨1, 1⟩ := by
  decide

/-- C1 amended: during `load` with an explicit next location, only the
`latestLocation` update runs inside the batch; the assignment
`currentLocation := latestLocation` is a separate `setState` after the
batch closes.  Consequently (when the next location is new) a notification
round is delivered between the two updates, whose `next` state pairs the
fresh `latestLocation` with the *stale* `currentLocation`; a second round
(delivered immediately, unless `currentLocation` already equalled the next
location) then reports the consistent pair, and `load` does leave the store
with `currentLocation = latestLocation = next`. -/
theorem c1_load_gap {L : Type} [DecidableEq L] (nx : L)
    (s₀ : Store (RouterStore L)) (h : Store.Resting s₀)
    (hne : nx ≠ s₀.state.latestLocation) :
    (Router.load (some nx) s₀).state = ⟨nx, nx⟩ ∧
    (Router.load (some nx) s₀).notifLog =
      s₀.notifLog ++ [(⟨nx, s₀.state.currentLocation⟩, s₀.state)] ++
        (if s₀.state.currentLocation = nx then []
         else [(⟨nx, nx⟩, ⟨nx, s₀.state.currentLocation⟩)]) := by
  obtain ⟨hb, hq⟩ := h
  cases s₀ with
  | mk st bt qu nl ul =>
    cases st with
    | mk l₀ c₀ =>
      dsimp only at hb hq hne ⊢
      subst hb hq
      by_cases hc : c₀ = nx
      · subst hc
        simp [Router.load, Store.batch, Store.setState, Store.flush,
          RouterStore.mk.injEq, hne]
      · simp [Router.load, Store.batch, Store.setState, Store.flush,
          RouterStore.mk.injEq, hne, hc, Ne.symm hc]

/-- Witness for C1's amended theorem at a concrete input. -/
theorem c1_load_gap_witness :
    (Router.load (some 1)
        ({ state := ⟨0, 5⟩, batching := false, queue := [], notifLog := [],
           onUpdateLog := [] } : Store (RouterStore Nat))).state = ⟨1, 1⟩ ∧
    (Router.load (some 1)
        ({ state := ⟨0, 5⟩, batching := false, queue := [], notifLog := [],
           onUpdateLog := [] } : Store (RouterStore Nat))).notifLog =
      [] ++ [(⟨1, 5⟩, ⟨0, 5⟩)] ++
        (if (5 : Nat) = 1 then [] else [(⟨1, 1⟩, ⟨1, 5⟩)]) :=
  c1_load_gap 1
    { state := ⟨0, 5⟩, batching := false, queue := [], notifLog := [],
      onUpdateLog := [] } ⟨rfl, rfl⟩ (by decide)

/-! ## History queue (`createHistory`, src/index.ts lines 85-162)

Mutating calls (`push`, `replace`, `go`, `back`, `forward`) enqueue a task
and immediately run `tryFlush`, which drains the FIFO queue
(`while (queue.length) queue.shift()?.()`) and then calls `onUpdate`, which
re-reads the host location and invokes every registered listener once.
A queued task is a closure over one host-adapter call; it is modelled as
data (`HTask`), with `tthrow` standing for a task whose host call throws
(the host carries the opaque `state` bag, modelled as `Int`).  `notifs`
counts the notification rounds (`onUpdate` runs); the cached location that
`onUpdate` re-reads is not given a value here because no claim concerns it.
Note the drain loop has no try/finally: a throw aborts the `while` loop
after `shift()` has already removed the throwing task, so the tasks still
queued *stay* in the queue and `onUpdate` is skipped. -/

inductive HTask where
  | tpush (path : String) (st : Int)
  | treplace (path : String) (st : Int)
  | tgo (n : Int)
  | tback
  | tforward
  | tthrow (e : Nat)
deriving DecidableEq, Repr

inductive HostOp where
  | pushState (path : String) (st : Int)
  | replaceState (path : String) (st : Int)
  | go (n : Int)
  | back
  | forward
deriving DecidableEq, Repr

/-- Run one queued task: perform its host-adapter call (recorded as a
`HostOp`) or throw. -/
def runTask : HTask → Except Nat HostOp
  | .tpush p st => .ok (.pushState p st)
  | .treplace p st => .ok (.replaceState p st)
  | .tgo n => .ok (.go n)
  | .tback => .ok .back
  | .tforward => .ok .forward
  | .tthrow e => .error e

structure HistoryState where
  queue : List HTask
  /-- Host-adapter calls observed so far, in call order. -/
  hostLog : List HostOp
  /-- Number of notification rounds (`onUpdate` runs: location re-read plus
  one invocation of every registered listener). -/
  notifs : Nat
deriving DecidableEq, Repr

/-- The `while (queue.length) { queue.shift()?.(); }` loop: run tasks in
FIFO order; a throw ends the loop with the thrown error, the already-shifted
throwing task gone, and the not-yet-run tasks still queued. -/
def drainQ : List HTask → List HostOp →
    Except (Nat × List HTask × List HostOp) (List HostOp)
  | [], log => .ok log
  | t :: rest, log =>
    match runTask t with
    | .ok op => drainQ rest (log ++ [op])
    | .error e => .error (e, rest, log)

/-- `tryFlush`: drain the queue, then (if nothing threw) run `onUpdate`.
The returned `Option Nat` is the exception propagated to the caller. -/
def tryFlush (s : HistoryState) : HistoryState × Option Nat :=
  match drainQ s.queue s.hostLog with
  | .ok log => ({ queue := [], hostLog := log, notifs := s.notifs + 1 }, none)
  | .error (e, rest, log) =>
      ({ queue := rest, hostLog := log, notifs := s.notifs }, some e)

/-- `queueTask`: append the task and immediately flush. -/
def queueTask (t : HTask) (s : HistoryState) : HistoryState × Option Nat :=
  tryFlush { s with queue := s.queue ++ [t] }

def History.push (p : String) (st : Int) (s : HistoryState) :
    HistoryState × Option Nat :=
  queueTask (.tpush p st) s

def History.replace (p : String) (st : Int) (s : HistoryState) :
    HistoryState × Option Nat :=
  queueTask (.treplace p st) s

/-- C2 counterexample: the claim "exactly one change notification fires
after both tasks have run" is false at a concrete input.  From the empty
history state, `push("/a")` followed synchronously by `replace("/b")` does
give the host adapter `pushState("/a")` then `replaceState("/b")` in FIFO
order, but each call drains its own queue immediately and runs `onUpdate`,
so a notification round has already fired after the `push` alone
(`notifs = 1` before the `replace` runs) and two rounds — not one — have
fired after both. -/
theorem c2_history_counterexample :
    (History.push "/a" 1 ⟨[], [], 0⟩).2 = none ∧
    (History.push "/a" 1 ⟨[], [], 0⟩).1.notifs = 1 ∧
    (History.replace "/b" 2 (History.push "/a" 1 ⟨[], [], 0⟩).1).1.hostLog =
      [.pushState "/a" 1, .replaceState "/b" 2] ∧
    (History.replace "/b" 2 (History.push "/a" 1 ⟨[], [], 0⟩).1).1.notifs = 2 ∧
    (History.replace "/b" 2 (History.push "/a" 1 ⟨[], [], 0⟩).1).1.notifs ≠ 1 := by
  decide

/-- C2 amended: `push(A)` then `replace(B)` issued synchronously
back-to-back reach the host adapter as `pushState(A)` then
`replaceState(B)` in FIFO submission order, but each mutating call drains
its own (single-task) queue synchronously and fires its own notification
round: exactly one notification fires after *each* call — two in total —
rather than one after both. -/
theorem c2_history_order (s₀ : HistoryState) (hq : s₀.queue = [])
    (p₁ p₂ : String) (st₁ st₂ : Int) :
    (History.push p₁ st₁ s₀).2 = none ∧
    (History.push p₁ st₁ s₀).1.notifs = s₀.notifs + 1 ∧
    (History.replace p₂ st₂ (History.push p₁ st₁ s₀).1).2 = none ∧
    (History.replace p₂ st₂ (History.push p₁ st₁ s₀).1).1.hostLog =
      s₀.hostLog ++ [.pushState p₁ st₁, .replaceState p₂ st₂] ∧
    (History.replace p₂ st₂ (History.push p₁ st₁ s₀).1).1.notifs =
      s₀.notifs + 2 ∧
    (History.replace p₂ st₂ (History.push p₁ st₁ s₀).1).1.queue = [] := by
  simp [History.push, History.replace, queueTask, tryFlush, drainQ, runTask, hq]

/-- Witness for C2's amended theorem at a concrete input. -/
theorem c2_history_order_witness :
    (History.push "/a" 1 (⟨[], [], 0⟩ : HistoryState)).2 = none ∧
    (History.push "/a" 1 (⟨[], [], 0⟩ : HistoryState)).1.notifs = 0 + 1 ∧
    (History.replace "/b" 2
      (History.push "/a" 1 (⟨[], [], 0⟩ : HistoryState)).1).2 = none ∧
    (History.replace "/b" 2
      (History.push "/a" 1 (⟨[], [], 0⟩ : HistoryState)).1).1.hostLog =
      [] ++ [.pushState "/a" 1, .replaceState "/b" 2] ∧
    (History.replace "/b" 2
      (History.push "/a" 1 (⟨[], [], 0⟩ : HistoryState)).1).1.notifs = 0 + 2 ∧
    (History.replace "/b" 2
      (History.push "/a" 1 (⟨[], [], 0⟩ : HistoryState)).1).1.queue = [] :=
  c2_history_order ⟨[], [], 0⟩ rfl "/a" "/b" 1 2

/-- C9 counterexample: the claim "the internal task queue is left empty
afterward (no abandoned task is silently retried on a later drain)" is
false at a concrete input.  Start from a state with one throwing task
already queued (such a backlog arises when a host-change listener
re-enters a mutating call during a drain) and call `push("/c")`: the drain
shifts and runs the throwing task, the error propagates to the caller of
`push`, and the remaining `pushState("/c")` task is abandoned for that
drain — but it is left *in* the queue, and the very next mutating call
(`push("/d")`) drains it first, so the host observes the stale
`pushState("/c")` after all. -/
theorem c9_throw_counterexample :
    (History.push "/c" 3 ⟨[.tthrow 7], [], 0⟩).2 = some 7 ∧
    (History.push "/c" 3 ⟨[.tthrow 7], [], 0⟩).1.queue = [.tpush "/c" 3] ∧
    (History.push "/c" 3 ⟨[.tthrow 7], [], 0⟩).1.queue ≠ [] ∧
    (History.push "/c" 3 ⟨[.tthrow 7], [], 0⟩).1.hostLog = [] ∧
    (History.push "/c" 3 ⟨[.tthrow 7], [], 0⟩).1.notifs = 0 ∧
    (History.push "/d" 4 (History.push "/c" 3 ⟨[.tthrow 7], [], 0⟩).1).1.hostLog =
      [.pushState "/c" 3, .pushState "/d" 4] := by
  decide

/-- C9 amended: if a queued task throws during a drain, the drain stops
there: the tasks before it have run (their host calls are logged), the
remaining queued tasks are abandoned *for that drain*, no notification
fires, and the error propagates to the caller of the original mutating
call — but the abandoned tasks are left in the queue (not cleared), so the
next drain silently runs them first. -/
theorem c9_throw_keeps_queue (pre post : List HTask) (log : List HostOp)
    (n e : Nat) (hok : ∀ t ∈ pre, ∃ op, runTask t = .ok op) :
    tryFlush ⟨pre ++ .tthrow e :: post, log, n⟩ =
      (⟨post, log ++ pre.filterMap (fun t => (runTask t).toOption), n⟩,
        some e) := by
  induction pre generalizing log with
  | nil => simp [tryFlush, drainQ, runTask]
  | cons t pre ih =>
    obtain ⟨op, hop⟩ := hok t (List.mem_cons_self t pre)
    have hrest : ∀ t' ∈ pre, ∃ op', runTask t' = .ok op' :=
      fun t' ht' => hok t' (List.mem_cons_of_mem t ht')
    have key := ih (log ++ [op]) hrest
    simp only [tryFlush] at key ⊢
    simp only [List.cons_append, drainQ, hop, List.append_eq]
    rw [key]
    simp [List.filterMap_cons, hop, List.append_assoc, Except.toOption]

/-- Witness for C9's amended theorem at a concrete input. -/
theorem c9_throw_keeps_queue_witness :
    tryFlush ⟨[.tpush "/a" 1] ++ .tthrow 7 :: [.tpush "/c" 3], [], 5⟩ =
      (⟨[.tpush "/c" 3],
        [] ++ [HTask.tpush "/a" 1].filterMap (fun t => (runTask t).toOption),
        5⟩, some 7) :=
  c9_throw_keeps_queue [.tpush "/a" 1] [.tpush "/c" 3] [] 5 7
    (by intro t ht; simp at ht; subst ht; exact ⟨.pushState "/a" 1, rfl⟩)

/-! ## `parseLocation` (src/index.ts lines 198-207)

`parseLocation` computes `searchIndex = href.indexOf("?")` and returns
`{ href, pathname: href.substring(0, searchIndex),
   search: searchIndex > -1 ? href.substring(searchIndex) : "", state }`.
JavaScript `indexOf` yields `-1` when absent, and `substring` clamps
negative indices to `0` (and swaps its bounds when start > end), so these
two host-string primitives are modelled explicitly.  The opaque `state`
bag is a type parameter. -/

def jsIndexOfChar (s : String) (c : Char) : Int :=
  match s.toList.findIdx? (· = c) with
  | some i => (i : Int)
  | none => -1

/-- JavaScript `String.prototype.substring(indexStart, indexEnd)`: both
arguments are clamped into `[0, length]` and swapped if out of order. -/
def jsSubstring (s : String) (a b : Int) : String :=
  let n : Int := (s.length : Int)
  let a' := min (max a 0) n
  let b' := min (max b 0) n
  let lo := min a' b'
  let hi := max a' b'
  (((s.toList.drop lo.toNat).take (hi - lo).toNat)).asString

/-- JavaScript `String.prototype.substring(indexStart)` (one argument). -/
def jsSubstringFrom (s : String) (a : Int) : String :=
  jsSubstring s a (s.length : Int)

structure RouterLocation (α : Type) where
  href : String
  pathname : String
  search : String
  state : α
deriving DecidableEq, Repr

def parseLocation {α : Type} (href : String) (state : α) :
    RouterLocation α :=
  let searchIndex := jsIndexOfChar href '?'
  { href := href,
    pathname := jsSubstring href 0 searchIndex,
    search := if searchIndex > -1 then jsSubstringFrom href searchIndex else "",
    state := state }

/-- C10: for every href string containing no `"?"`, `parseLocation` returns
a location whose `pathname` is the empty string (because
`substring(0, -1)` clamps to `substring(0, 0)`), whose `search` is the
empty string, and whose `href` and `state` are the inputs unchanged — the
full path is recoverable only from `href`. -/
theorem c10_parseLocation_no_query {α : Type} (href : String) (state : α)
    (h : ¬ '?' ∈ href.toList) :
    parseLocation href state =
      { href := href, pathname := "", search := "", state := state } := by
  have hidx : jsIndexOfChar href '?' = -1 := by
    unfold jsIndexOfChar
    have : href.toList.findIdx? (· = '?') = none := by
      rw [List.findIdx?_eq_none_iff]
      intro x hx
      by_contra hc
      simp at hc
      exact h (hc ▸ hx)
    rw [this]
  have hpath : jsSubstring href 0 (-1) = "" := by
    unfold jsSubstring
    simp
    rfl
  unfold parseLocation
  rw [hidx]
  dsimp only
  rw [hpath]
  simp

/-- Witness for C10 at a concrete input. -/
theorem c10_parseLocation_no_query_witness :
    parseLocation "/items" (0 : Int) =
      { href := "/items", pathname := "", search := "", state := 0 } :=
  c10_parseLocation_no_query "/items" 0 (by decide)

/-! ## Structural merge (`d`, `R`, `T`, src/index.ts lines 343-370)

The merge works on JavaScript runtime values compared with `===`, so the
model must distinguish *references*: every array/object node carries the
identity (`id`) of its allocation, and `===` is value equality on
primitives but identity equality on containers.  The value space is the
plain-data space the router actually merges (primitives, arrays, plain
objects); class instances, `Map`s, `Date`s etc. are outside it, so the
plain-object test `R` holds for every object of the model.  Containers
freshly allocated by the merge (`c = n ? [] : {}`) are given id `0`; no
theorem relies on the fresh id.  JavaScript object key sets are duplicate
free by construction, which is assumed where it matters (`StructEq`
requires it). -/

inductive JPrim where
  | pstr (s : String)
  | pnum (n : Int)
  | pbool (b : Bool)
  | pnull
  | pundefined
deriving DecidableEq, Repr

inductive RVal where
  | prim (p : JPrim)
  | arrN (id : Nat) (xs : List RVal)
  | objN (id : Nat) (fields : List (String × RVal))
deriving Repr

/-- JavaScript `===`: value equality on primitives (`undefined === undefined`
is true; `NaN` does not arise in the integral fragment), reference (id)
equality on arrays and objects. -/
def jsEq : RVal → RVal → Bool
  | .prim p, .prim q => decide (p = q)
  | .arrN i _, .arrN j _ => decide (i = j)
  | .objN i _, .objN j _ => decide (i = j)
  | _, _ => false

/-- `T(e)`: the `Object.prototype.toString.call(e) === "[object Object]"`
test — true exactly for (plain) objects in the modelled value space. -/
def T : RVal → Bool
  | .objN _ _ => true
  | _ => false

/-- `R(e)`: the plain-object test.  Every object of the modelled value
space is a plain data object (no constructor trickery), so `R` coincides
with `T` here. -/
def R (e : RVal) : Bool := T e

/-- `e[i]` on an array value (`undefined` when out of range or not an
array). -/
def getIdx (e : RVal) (i : Nat) : RVal :=
  match e with
  | .arrN _ xs => (xs.get? i).getD (.prim .pundefined)
  | _ => .prim .pundefined

/-- `e[k]` object property read (`undefined` when absent). -/
def lookupD (fields : List (String × RVal)) (k : String) : RVal :=
  match fields.find? (fun kv => decide (kv.1 = k)) with
  | some kv => kv.2
  | none => .prim .pundefined

def objKeys (fields : List (String × RVal)) : List String :=
  fields.map Prod.fst

mutual
/-- The structural merge `d(e, t)`.  `if (e === t) return e`; when both are
arrays or both plain objects (`n || (R(e) && R(r))` — within the modelled
value space the object case is exactly both-`objN`), merge every key/index
of `t` recursively, count in `h` how many merged entries are `===` to the
corresponding entry of `e`, and return `e` itself when the key counts match
(`o === s`) and every entry was reused (`h === o`); otherwise return the
freshly built container.  In all other cases return `t` verbatim. -/
def d (e t : RVal) : RVal :=
  if jsEq e t then e
  else
    match e, t with
    | .arrN eid es, .arrN _ ts =>
        let o := es.length
        let s := ts.length
        let c := dArr (.arrN eid es) ts 0
        let h := (List.range s).countP
          (fun i => jsEq ((c.get? i).getD (.prim .pundefined))
            (getIdx (.arrN eid es) i))
        if o = s ∧ h = o then .arrN eid es else .arrN 0 c
    | .objN eid efs, .objN _ tfs =>
        let o := efs.length
        let s := tfs.length
        let c := dObj efs tfs
        let h := c.countP (fun kv => jsEq kv.2 (lookupD efs kv.1))
        if o = s ∧ h = o then .objN eid efs else .objN 0 c
    | _, _ => t

/-- The array loop of `d`: `c[i] = d(e[i], r[i])` over the indices of `r`,
with `i` the running index. -/
def dArr (e : RVal) (ts : List RVal) (i : Nat) : List RVal :=
  match ts with
  | [] => []
  | tv :: rest => d (getIdx e i) tv :: dArr e rest (i + 1)

/-- The object loop of `d`: `c[u] = d(e[u], r[u])` over the keys `u` of
`r` in insertion order (object keys are duplicate-free, so `r[u]` is the
entry's own value). -/
def dObj (efs tfs : List (String × RVal)) : List (String × RVal) :=
  match tfs with
  | [] => []
  | (k, tv) :: rest => (k, d (lookupD efs k) tv) :: dObj efs rest
end

theorem jsEq_refl (x : RVal) : jsEq x x = true := by
  cases x <;> simp [jsEq]

theorem dArr_get? (e : RVal) (ts : List RVal) (n k : Nat) :
    (dArr e ts n).get? k =
      (ts.get? k).map (fun tv => d (getIdx e (n + k)) tv) := by
  induction ts generalizing n k with
  | nil => simp [dArr]
  | cons tv rest ih =>
    cases k with
    | zero => simp [dArr]
    | succ k =>
      simp only [dArr, List.get?_cons_succ, ih rest.length.succ]
      rw [ih (n + 1) k]
      have : n + 1 + k = n + (k + 1) := by omega
      rw [this]

theorem dObj_eq_map (efs tfs : List (String × RVal)) :
    dObj efs tfs = tfs.map (fun kv => (kv.1, d (lookupD efs kv.1) kv.2)) := by
  induction tfs with
  | nil => simp [dObj]
  | cons kv rest ih =>
    cases kv with
    | mk k tv => simp [dObj, ih]

theorem lookupD_nodup (tfs : List (String × RVal)) (k : String) (v : RVal)
    (hnd : (objKeys tfs).Nodup) (hmem : (k, v) ∈ tfs) :
    lookupD tfs k = v := by
  induction tfs with
  | nil => cases hmem
  | cons kv rest ih =>
    cases kv with
    | mk k' v' =>
      simp only [objKeys, List.map_cons, List.nodup_cons] at hnd
      obtain ⟨hk', hndr⟩ := hnd
      rcases List.mem_cons.1 hmem with heq | hrest
      · injection heq with h1 h2
        subst h1; subst h2
        simp [lookupD, List.find?]
      · have hkne : k' ≠ k := by
          intro hcontra
          subst hcontra
          exact hk' (List.mem_map.2 ⟨(k', v), hrest, rfl⟩)
        have hstep : lookupD ((k', v') :: rest) k = lookupD rest k := by
          simp [lookupD, List.find?, hkne]
        rw [hstep]
        exact ih hndr hrest

/-- Deep structural equality of JavaScript values: equal primitives; arrays
of equal length with pointwise structurally equal entries; plain objects
with (duplicate-free) key sets that are permutations of each other and
structurally equal values at every key.  Container ids are unconstrained:
the two sides may be the same reference or distinct allocations. -/
inductive StructEq : RVal → RVal → Prop where
  | prim (p : JPrim) : StructEq (.prim p) (.prim p)
  | arr (i j : Nat) (es ts : List RVal) (hlen : es.length = ts.length)
      (helts : ∀ k, k < ts.length →
        StructEq (getIdx (.arrN i es) k) (getIdx (.arrN j ts) k)) :
      StructEq (.arrN i es) (.arrN j ts)
  | obj (i j : Nat) (efs tfs : List (String × RVal))
      (hed : (objKeys efs).Nodup) (htd : (objKeys tfs).Nodup)
      (hperm : List.Perm (objKeys tfs) (objKeys efs))
      (hvals : ∀ k ∈ objKeys tfs, StructEq (lookupD efs k) (lookupD tfs k)) :
      StructEq (.objN i efs) (.objN j tfs)

/-- C5: the structural merge returns the original `previous` reference
itself whenever `next` is structurally equal to `previous` — whether built
as a distinct object or not — and in particular `merge(x, x) === x` for
every value `x`. -/
theorem c5_merge_identity :
    (∀ e t : RVal, StructEq e t → d e t = e) ∧ (∀ x : RVal, d x x = x) := by
  constructor
  · intro e t h
    induction h with
    | prim p => simp [d, jsEq_refl]
    | arr i j es ts hlen helts ih =>
      rw [d]
      by_cases heq : jsEq (.arrN i es) (.arrN j ts) = true
      · rw [if_pos heq]
      · rw [if_neg heq]
        dsimp only
        rw [if_pos ?_]
        constructor
        · exact hlen
        · rw [hlen]
          conv_rhs => rw [← List.length_range ts.length]
          apply List.countP_eq_length.2
          intro a ha
          have hk : a < ts.length := by simpa [List.mem_range] using ha
          obtain ⟨tv, htv⟩ : ∃ tv, ts.get? a = some tv := by
            cases hget : ts.get? a with
            | none =>
              rw [List.get?_eq_none] at hget
              omega
            | some tv => exact ⟨tv, rfl⟩
          have hgt : getIdx (.arrN j ts) a = tv := by
            simp only [getIdx]
            rw [htv]
            rfl
          have hc : (dArr (.arrN i es) ts 0).get? a =
              some (d (getIdx (.arrN i es) a) tv) := by
            rw [dArr_get?, htv]
            simp
          have hrec : d (getIdx (.arrN i es) a) (getIdx (.arrN j ts) a) =
              getIdx (.arrN i es) a := ih a hk
          rw [hgt] at hrec
          simp only [hc, Option.getD_some, hrec]
          exact jsEq_refl _
    | obj i j efs tfs hed htd hperm hvals ih =>
      rw [d]
      by_cases heq : jsEq (.objN i efs) (.objN j tfs) = true
      · rw [if_pos heq]
      · rw [if_neg heq]
        dsimp only
        rw [if_pos ?_]
        have hlen : efs.length = tfs.length := by
          have := hperm.length_eq
          simpa [objKeys] using this.symm
        constructor
        · exact hlen
        · rw [hlen, dObj_eq_map]
          rw [show tfs.length = (tfs.map
            (fun kv => (kv.1, d (lookupD efs kv.1) kv.2))).length by simp]
          apply List.countP_eq_length.2
          intro kv hkv
          obtain ⟨⟨k, tv⟩, hmem, hkveq⟩ := List.mem_map.1 hkv
          subst hkveq
          have hkmem : k ∈ objKeys tfs :=
            List.mem_map.2 ⟨(k, tv), hmem, rfl⟩
          have hlk : lookupD tfs k = tv := lookupD_nodup tfs k tv htd hmem
          have hrec := ih k hkmem
          rw [hlk] at hrec
          dsimp only
          rw [hrec]
          exact jsEq_refl _
  · intro x
    rw [d.eq_def]
    rw [if_pos (jsEq_refl x)]

/-- Witness for C5 at a concrete input: two structurally equal but
distinctly allocated objects (ids 1 and 2); the merge returns the first
(the `previous` reference). -/
theorem c5_merge_identity_witness :
    d (.objN 1 [("a", .prim (.pnum 1))]) (.objN 2 [("a", .prim (.pnum 1))]) =
      .objN 1 [("a", .prim (.pnum 1))] :=
  c5_merge_identity.1 _ _
    (StructEq.obj 1 2 _ _ (by simp [objKeys]) (by simp [objKeys])
      (by simp [objKeys])
      (by
        intro k hk
        simp [objKeys] at hk
        subst hk
        have : lookupD [("a", RVal.prim (.pnum 1))] "a" = .prim (.pnum 1) := by
          simp [lookupD]
        rw [this]
        exact StructEq.prim _))

/-! ## Search codec (src/index.ts lines 214-313)

The codec pipeline the router wires up is
`stringifySearchWith(JSON.stringify)` on the way out and
`parseSearchWith(JSON.parse)` on the way in, over the query-string
primitives `encode`, `decode`, `toValue`.  JavaScript strings are modelled
as `List Char` in the codec internals, with `String` kept at the API
surface (a `String` is definitionally its list of characters here).
`decodeURIComponent` and `encodeURIComponent` are host primitives and are
modelled down to percent-escape/UTF-8 framing; `+str` numeric coercion and
JSON numbers are modelled on the integral fragment (see the file header):
a decimal integer string coerces to its `Int` value, and non-integral
numeric forms (fractions, exponents, hex, `Infinity`) are outside the
modelled fragment and behave as non-numeric. -/

def isHexDigit (c : Char) : Bool :=
  (decide ('0' ≤ c) && decide (c ≤ '9')) ||
  (decide ('a' ≤ c) && decide (c ≤ 'f')) ||
  (decide ('A' ≤ c) && decide (c ≤ 'F'))

def hexVal (c : Char) : Nat :=
  if c ≤ '9' then c.toNat - 48
  else if c ≤ 'F' then c.toNat - 55
  else c.toNat - 87

def hexDigitUpper (n : Nat) : Char :=
  if n < 10 then Char.ofNat (48 + n) else Char.ofNat (55 + n)

/-- `String.prototype.split` with a one-character separator, on char
lists: always returns at least one (possibly empty) part. -/
def splitOnCharCore (sep : Char) : List Char → List Char × List (List Char)
  | [] => ([], [])
  | x :: xs =>
    let ht := splitOnCharCore sep xs
    if x = sep then ([], ht.1 :: ht.2) else (x :: ht.1, ht.2)

def splitOnChar (sep : Char) (cs : List Char) : List (List Char) :=
  (splitOnCharCore sep cs).1 :: (splitOnCharCore sep cs).2

/-- UTF-8 bytes of one code point. -/
def utf8Bytes (c : Char) : List Nat :=
  let n := c.toNat
  if n < 128 then [n]
  else if n < 2048 then [192 + n / 64, 128 + n % 64]
  else if n < 65536 then
    [224 + n / 4096, 128 + (n / 64) % 64, 128 + n % 64]
  else
    [240 + n / 262144, 128 + (n / 4096) % 64, 128 + (n / 64) % 64,
      128 + n % 64]

/-- `encodeURIComponent`'s unreserved set: `A-Z a-z 0-9 - _ . ! ~ * ' ( )`. -/
def isUnreservedURI (c : Char) : Bool :=
  c.isAlpha || c.isDigit || c = '-' || c = '_' || c = '.' || c = '!' ||
  c = '~' || c = '*' || c = Char.ofNat 39 || c = '(' || c = ')'

def pctEncodeByte (b : Nat) : List Char :=
  ['%', hexDigitUpper (b / 16), hexDigitUpper (b % 16)]

/-- `encodeURIComponent`: unreserved characters pass through, everything
else is percent-encoded byte-by-byte (uppercase hex) from its UTF-8
form. -/
def encodeURIComponentL (cs : List Char) : List Char :=
  (cs.map (fun ch =>
    if isUnreservedURI ch then [ch]
    else ((utf8Bytes ch).map pctEncodeByte).flatten)).flatten

/-! `decodeURIComponent`: percent-escapes must be two hex digits and the
decoded bytes must form valid UTF-8 (continuation bytes themselves
percent-escaped); anything else raises `URIError`, modelled as
`Except.error`.  ASCII bytes decode directly; lead bytes `C2-F4` consume
the required number of escaped continuation bytes (with overlong and
surrogate encodings rejected). -/
mutual
/-- Top level: plain characters pass through, `%` starts an escape. -/
def decodeURIComponentL : List Char → Except Unit (List Char)
  | [] => .ok []
  | c :: rest =>
    if c = '%' then decodePctEsc rest
    else (decodeURIComponentL rest).map (fun tail => c :: tail)

/-- The input after a `%`: two hex digits, then (for non-ASCII lead bytes)
the required continuation escapes — two-, three- or four-byte sequences by
lead-byte range; other lead bytes (`80`-`C1`, `F5`-`FF`) are invalid
UTF-8. -/
def decodePctEsc : List Char → Except Unit (List Char)
  | a :: b :: rest1 =>
    if isHexDigit a && isHexDigit b then
      let b1 := hexVal a * 16 + hexVal b
      if b1 < 128 then
        (decodeURIComponentL rest1).map (fun tail => Char.ofNat b1 :: tail)
      else if 194 ≤ b1 ∧ b1 ≤ 223 then decodeMB2 b1 rest1
      else if 224 ≤ b1 ∧ b1 ≤ 239 then decodeMB3 b1 rest1
      else if 240 ≤ b1 ∧ b1 ≤ 244 then decodeMB4 b1 rest1
      else .error ()
    else .error ()
  | _ => .error ()

def decodeMB2 (b1 : Nat) : List Char → Except Unit (List Char)
  | '%' :: a2 :: b2 :: rest2 =>
    if isHexDigit a2 && isHexDigit b2 then
      let v2 := hexVal a2 * 16 + hexVal b2
      if 128 ≤ v2 ∧ v2 ≤ 191 then
        (decodeURIComponentL rest2).map
          (fun tail => Char.ofNat ((b1 - 192) * 64 + (v2 - 128)) :: tail)
      else .error ()
    else .error ()
  | _ => .error ()

def decodeMB3 (b1 : Nat) : List Char → Except Unit (List Char)
  | '%' :: a2 :: b2 :: '%' :: a3 :: b3 :: rest2 =>
    if isHexDigit a2 && isHexDigit b2 && isHexDigit a3 && isHexDigit b3 then
      let v2 := hexVal a2 * 16 + hexVal b2
      let v3 := hexVal a3 * 16 + hexVal b3
      let cp := (b1 - 224) * 4096 + (v2 - 128) * 64 + (v3 - 128)
      if (128 ≤ v2 ∧ v2 ≤ 191) ∧ (128 ≤ v3 ∧ v3 ≤ 191) ∧
          2048 ≤ cp ∧ ¬ (55296 ≤ cp ∧ cp ≤ 57343) then
        (decodeURIComponentL rest2).map (fun tail => Char.ofNat cp :: tail)
      else .error ()
    else .error ()
  | _ => .error ()

def decodeMB4 (b1 : Nat) : List Char → Except Unit (List Char)
  | '%' :: a2 :: b2 :: '%' :: a3 :: b3 :: '%' :: a4 :: b4 :: rest2 =>
    if isHexDigit a2 && isHexDigit b2 && isHexDigit a3 && isHexDigit b3 &&
        isHexDigit a4 && isHexDigit b4 then
      let v2 := hexVal a2 * 16 + hexVal b2
      let v3 := hexVal a3 * 16 + hexVal b3
      let v4 := hexVal a4 * 16 + hexVal b4
      let cp := (b1 - 240) * 262144 + (v2 - 128) * 4096 +
        (v3 - 128) * 64 + (v4 - 128)
      if (128 ≤ v2 ∧ v2 ≤ 191) ∧ (128 ≤ v3 ∧ v3 ≤ 191) ∧
          (128 ≤ v4 ∧ v4 ≤ 191) ∧ 65536 ≤ cp ∧ cp ≤ 1114111 then
        (decodeURIComponentL rest2).map (fun tail => Char.ofNat cp :: tail)
      else .error ()
    else .error ()
  | _ => .error ()
end

inductive JSVal where
  | vstr (s : String)
  | vnum (n : Int)
  | vbool (b : Bool)
  | vnull
  | vundef
  | varr (xs : List JSVal)
  | vobj (fields : List (String × JSVal))
deriving Repr

/-- Canonical decimal digits of a natural number (the base-10 case of
JavaScript `Number.prototype.toString` on the integral fragment); the
structural fuel bounds the digit count and is ample at `n + 1`. -/
def natDigitsF : Nat → Nat → List Char
  | 0, _ => []
  | fuel + 1, n =>
    if n < 10 then [Char.ofNat (48 + n)]
    else natDigitsF fuel (n / 10) ++ [Char.ofNat (48 + n % 10)]

def natDigits (n : Nat) : List Char := natDigitsF (n + 1) n

def intReprL (n : Int) : List Char :=
  if n < 0 then '-' :: natDigits n.natAbs else natDigits n.toNat

/-- JavaScript string coercion of non-array values (as applied by
`encodeURIComponent(tmp)`): primitives print canonically, plain objects
print as `[object Object]`. -/
def jsToStringScalar : JSVal → List Char
  | .vstr s => s.toList
  | .vnum n => intReprL n
  | .vbool true => ['t', 'r', 'u', 'e']
  | .vbool false => ['f', 'a', 'l', 's', 'e']
  | .vnull => ['n', 'u', 'l', 'l']
  | .vundef => ['u', 'n', 'd', 'e', 'f', 'i', 'n', 'e', 'd']
  | .varr _ => []
  | .vobj _ =>
      ['[', 'o', 'b', 'j', 'e', 'c', 't', ' ', 'O', 'b', 'j', 'e', 'c',
        't', ']']

mutual
/-- `Array.prototype.toString`: comma-join the elements, with `null` and
`undefined` as the empty string and nested arrays flattened recursively. -/
def jsArrToString : List JSVal → List Char
  | [] => []
  | [x] => jsArrElem x
  | x :: xs => jsArrElem x ++ ',' :: jsArrToString xs

def jsArrElem : JSVal → List Char
  | .vnull => []
  | .vundef => []
  | .varr ys => jsArrToString ys
  | v => jsToStringScalar v
end

/-- JavaScript string coercion. -/
def jsToStringL : JSVal → List Char
  | .varr xs => jsArrToString xs
  | v => jsToStringScalar v

/-- `encode(obj)` (lines 214-235; the unused `pfx` parameter is empty at
the only call site and omitted): fold over the entries, skipping
`undefined`, expanding array values into repeated `k=item` pairs, and
URI-encoding both sides; `&` separates pairs once the accumulator is
nonempty. -/
def encode (fields : List (String × JSVal)) : List Char :=
  fields.foldl
    (fun str kv =>
      match kv.2 with
      | .vundef => str
      | .varr xs =>
          xs.foldl
            (fun str item =>
              (if str = [] then str else str ++ ['&']) ++
                encodeURIComponentL kv.1.toList ++
                '=' :: encodeURIComponentL (jsToStringL item)) str
      | v =>
          (if str = [] then str else str ++ ['&']) ++
            encodeURIComponentL kv.1.toList ++
            '=' :: encodeURIComponentL (jsToStringL v))
    []

/-- JavaScript whitespace for trimming in numeric coercion. -/
def jsWhitespace (c : Char) : Bool :=
  c = ' ' || c = '\t' || c = '\n' || c = '\r' || c.toNat = 11 || c.toNat = 12

def jsTrim (cs : List Char) : List Char :=
  ((cs.dropWhile jsWhitespace).reverse.dropWhile jsWhitespace).reverse

def parseDigitsNat (cs : List Char) : Option Nat :=
  if cs ≠ [] ∧ cs.all Char.isDigit then
    some (cs.foldl (fun a c => a * 10 + (c.toNat - 48)) 0)
  else none

/-- JavaScript unary `+str` on the integral fragment: trim, empty → `0`,
optional sign, decimal digits; everything else is `NaN` (`none`).
(Fractional, exponent, hex and `Infinity` forms are outside the modelled
fragment and also map to `none`.) -/
def jsPlus (cs : List Char) : Option Int :=
  match jsTrim cs with
  | [] => some 0
  | c :: rest =>
    if c = '-' then (parseDigitsNat rest).map (fun m => -(m : Int))
    else if c = '+' then (parseDigitsNat rest).map (fun m => (m : Int))
    else (parseDigitsNat (c :: rest)).map (fun m => (m : Int))

/-- `toValue(mix)` (lines 237-244): falsy (`undefined` or `""`) → `""`;
otherwise `decodeURIComponent`, then the literal `"false"`/`"true"`
booleans, then keep strings whose first character is `"0"`, then numeric
coercion (`+str * 0 === 0`) with string fallback. -/
def toValue (mix : Option (List Char)) : Except Unit JSVal :=
  match mix with
  | none => .ok (.vstr "")
  | some m =>
    if m = [] then .ok (.vstr "")
    else
      match decodeURIComponentL m with
      | .error e => .error e
      | .ok strL =>
        if strL = ['f', 'a', 'l', 's', 'e'] then .ok (.vbool false)
        else if strL = ['t', 'r', 'u', 'e'] then .ok (.vbool true)
        else if strL.head? = some '0' then .ok (.vstr strL.asString)
        else
          match jsPlus strL with
          | some n => .ok (.vnum n)
          | none => .ok (.vstr strL.asString)

/-- `[].concat(out[k], toValue(...))`: an existing array value is
flattened, the new scalar appended. -/
def concatVals (old v : JSVal) : JSVal :=
  match old with
  | .varr xs => .varr (xs ++ [v])
  | o => .varr [o, v]

/-- `out[k] !== void 0 ? out[k] = [].concat(out[k], v) : out[k] = v` —
repeated keys collapse into the slot of the first occurrence, fresh keys
append in insertion order. -/
def insertOrConcat (out : List (String × JSVal)) (k : String) (v : JSVal) :
    List (String × JSVal) :=
  match out with
  | [] => [(k, v)]
  | (k', v') :: rest =>
      if k' = k then (k', concatVals v' v) :: rest
      else (k', v') :: insertOrConcat rest k v

/-- The `while ((tmp = arr.shift()))` loop of `decode`: stops at the first
empty component (falsy string) or when the list is exhausted; each
component is split on `=`, the first part is the (raw, not URI-decoded)
key, `toValue` of the second part the value. -/
def decodeQGo : List (List Char) → List (String × JSVal) →
    Except Unit (List (String × JSVal))
  | [], out => .ok out
  | comp :: rest, out =>
    if comp = [] then .ok out
    else
      match toValue (((splitOnChar '=' comp).get? 1)) with
      | .error e => .error e
      | .ok v =>
          decodeQGo rest
            (insertOrConcat out
              (((splitOnChar '=' comp).head?.getD []).asString) v)

/-- `decode(str)` (lines 246-264). -/
def decode (str : List Char) : Except Unit (List (String × JSVal)) :=
  decodeQGo (splitOnChar '&' str) []

/-! ### JSON (the `JSON.stringify` / `JSON.parse` the router passes to
`stringifySearchWith` / `parseSearchWith`) -/

def hexDigitLower (n : Nat) : Char :=
  if n < 10 then Char.ofNat (48 + n) else Char.ofNat (87 + n)

def jsonEscapeChar (c : Char) : List Char :=
  if c = '"' then ['\\', '"']
  else if c = '\\' then ['\\', '\\']
  else if c = '\n' then ['\\', 'n']
  else if c = '\r' then ['\\', 'r']
  else if c = '\t' then ['\\', 't']
  else if c.toNat = 8 then ['\\', 'b']
  else if c.toNat = 12 then ['\\', 'f']
  else if c.toNat < 32 then
    ['\\', 'u', '0', '0', hexDigitLower (c.toNat / 16),
      hexDigitLower (c.toNat % 16)]
  else [c]

def jsonQuote (s : List Char) : List Char :=
  '"' :: (s.map jsonEscapeChar).flatten ++ ['"']

mutual
/-- `JSON.stringify` restricted to the modelled value space (no cycles, no
`BigInt`, numbers integral, so it is total — the `try`/`catch` around it in
`stringifySearchWith` never fires).  `undefined` is only reachable as an
array element, where `JSON.stringify` emits `null`; `undefined`-valued
object properties are dropped. -/
def jsonStringifyL : JSVal → List Char
  | .vstr s => jsonQuote s.toList
  | .vnum n => intReprL n
  | .vbool true => ['t', 'r', 'u', 'e']
  | .vbool false => ['f', 'a', 'l', 's', 'e']
  | .vnull => ['n', 'u', 'l', 'l']
  | .vundef => ['n', 'u', 'l', 'l']
  | .varr xs => '[' :: List.intercalate [','] (jsonStringifyArr xs) ++ [']']
  | .vobj fs => '{' :: List.intercalate [','] (jsonStringifyObj fs) ++ ['}']

def jsonStringifyArr : List JSVal → List (List Char)
  | [] => []
  | x :: xs => jsonStringifyL x :: jsonStringifyArr xs

def jsonStringifyObj : List (String × JSVal) → List (List Char)
  | [] => []
  | (k, v) :: fs =>
      match v with
      | .vundef => jsonStringifyObj fs
      | v =>
          (jsonQuote k.toList ++ ':' :: jsonStringifyL v) ::
            jsonStringifyObj fs
end

def jsonWs (c : Char) : Bool :=
  c = ' ' || c = '\t' || c = '\n' || c = '\r'

def skipWs (cs : List Char) : List Char := cs.dropWhile jsonWs

/-- Match a fixed word at the head of the input, returning the rest. -/
def stripWord : List Char → List Char → Option (List Char)
  | [], cs => some cs
  | _ :: _, [] => none
  | w :: ws, c :: cs => if c = w then stripWord ws cs else none

def jpLit (cs : List Char) : Option (JSVal × List Char) :=
  match stripWord ['t', 'r', 'u', 'e'] cs with
  | some rest => some (.vbool true, rest)
  | none =>
    match stripWord ['f', 'a', 'l', 's', 'e'] cs with
    | some rest => some (.vbool false, rest)
    | none =>
      match stripWord ['n', 'u', 'l', 'l'] cs with
      | some rest => some (.vnull, rest)
      | none => none

def takeDigits : List Char → List Char × List Char
  | [] => ([], [])
  | c :: cs =>
    if c.isDigit then
      ((takeDigits cs).1.cons c, (takeDigits cs).2)
    else ([], c :: cs)

def digitsVal (ds : List Char) : Nat :=
  ds.foldl (fun a c => a * 10 + (c.toNat - 48)) 0

/-- A following `.` or exponent marker means a non-integral number. -/
def numTailStops : List Char → Bool
  | c :: _ => c = '.' || c = 'e' || c = 'E'
  | [] => false

/-- JSON number literal, integral fragment: `-?(0|[1-9][0-9]*)`; a
following `.` or exponent marker means a non-integral number, outside the
modelled fragment (treated as a parse failure, which `parseSearchWith`
catches). -/
def jpNumber (cs : List Char) : Option (JSVal × List Char) :=
  let sgn : Bool × List Char :=
    match cs with
    | c :: r => if c = '-' then (true, r) else (false, cs)
    | [] => (false, cs)
  match takeDigits sgn.2 with
  | ([], _) => none
  | (ds, rest) =>
    if 1 < ds.length ∧ ds.head? = some '0' then none
    else if numTailStops rest then none
    else
      some (.vnum (if sgn.1 then -(digitsVal ds : Int)
        else (digitsVal ds : Int)), rest)

/-- JSON string body after the opening quote: plain characters (controls
forbidden), the standard escapes, and `\uXXXX` for non-surrogate code
units (surrogate pairs are outside the modelled fragment). -/
def jpStringChars : List Char → Option (List Char × List Char)
  | [] => none
  | c :: rest =>
    if c = '"' then some ([], rest)
    else if c = '\\' then
      match rest with
      | [] => none
      | e :: rest1 =>
        if e = '"' then
          (jpStringChars rest1).map (fun p => ('"' :: p.1, p.2))
        else if e = '\\' then
          (jpStringChars rest1).map (fun p => ('\\' :: p.1, p.2))
        else if e = '/' then
          (jpStringChars rest1).map (fun p => ('/' :: p.1, p.2))
        else if e = 'n' then
          (jpStringChars rest1).map (fun p => ('\n' :: p.1, p.2))
        else if e = 'r' then
          (jpStringChars rest1).map (fun p => ('\r' :: p.1, p.2))
        else if e = 't' then
          (jpStringChars rest1).map (fun p => ('\t' :: p.1, p.2))
        else if e = 'b' then
          (jpStringChars rest1).map (fun p => (Char.ofNat 8 :: p.1, p.2))
        else if e = 'f' then
          (jpStringChars rest1).map (fun p => (Char.ofNat 12 :: p.1, p.2))
        else if e = 'u' then
          match rest1 with
          | h1 :: h2 :: h3 :: h4 :: rest2 =>
            if isHexDigit h1 && isHexDigit h2 && isHexDigit h3 &&
                isHexDigit h4 then
              let cp := ((hexVal h1 * 16 + hexVal h2) * 16 + hexVal h3) * 16 +
                hexVal h4
              if 55296 ≤ cp ∧ cp ≤ 57343 then none
              else (jpStringChars rest2).map
                (fun p => (Char.ofNat cp :: p.1, p.2))
            else none
          | _ => none
        else none
    else if c.toNat < 32 then none
    else (jpStringChars rest).map (fun p => (c :: p.1, p.2))

mutual
/-- One JSON value (leading whitespace already skipped); `fuel` bounds the
nesting/element recursion and is ample at `input length + 1`. -/
def jpValue : Nat → List Char → Option (JSVal × List Char)
  | 0, _ => none
  | fuel + 1, cs =>
    match cs with
    | [] => none
    | c :: rest =>
      if c = '"' then
        (jpStringChars rest).map (fun p => (.vstr p.1.asString, p.2))
      else if c = '[' then
        (if (skipWs rest).head? = some ']' then
          some (.varr [], (skipWs rest).tail)
        else jpElems fuel (skipWs rest) [])
      else if c = '{' then
        (if (skipWs rest).head? = some '}' then
          some (.vobj [], (skipWs rest).tail)
        else jpMembers fuel (skipWs rest) [])
      else if c = '-' || c.isDigit then jpNumber (c :: rest)
      else jpLit (c :: rest)

def jpElems : Nat → List Char → List JSVal → Option (JSVal × List Char)
  | 0, _, _ => none
  | fuel + 1, cs, acc =>
    match jpValue fuel (skipWs cs) with
    | none => none
    | some (v, rest) =>
      if (skipWs rest).head? = some ',' then
        jpElems fuel (skipWs rest).tail (acc ++ [v])
      else if (skipWs rest).head? = some ']' then
        some (.varr (acc ++ [v]), (skipWs rest).tail)
      else none

def jpMembers : Nat → List Char → List (String × JSVal) →
    Option (JSVal × List Char)
  | 0, _, _ => none
  | fuel + 1, cs, acc =>
    if (skipWs cs).head? = some '"' then
      match jpStringChars (skipWs cs).tail with
      | none => none
      | some (kChars, rest1) =>
        if (skipWs rest1).head? = some ':' then
          match jpValue fuel (skipWs ((skipWs rest1).tail)) with
          | none => none
          | some (v, rest3) =>
            if (skipWs rest3).head? = some ',' then
              jpMembers fuel (skipWs rest3).tail
                (acc ++ [(kChars.asString, v)])
            else if (skipWs rest3).head? = some '}' then
              some (.vobj (acc ++ [(kChars.asString, v)]),
                (skipWs rest3).tail)
            else none
        else none
    else none
end

/-- `JSON.parse`: one value surrounded by optional whitespace. -/
def jsonParse (s : String) : Except Unit JSVal :=
  match jpValue (s.length + 1) (skipWs s.toList) with
  | some (v, rest) => if skipWs rest = [] then .ok v else .error ()
  | none => .error ()

/-- `stringifySearchWith(JSON.stringify)` (lines 290-313) as the router
instantiates it: drop `undefined` values, JSON-stringify truthy object
values (arrays and plain objects; `null` is falsy and passes through to
`encode`, which coerces it to the text `null`), `encode` the result, and
prefix `?` when nonempty. -/
def stringifySearch (search : List (String × JSVal)) : String :=
  let processed := search.filterMap
    (fun kv =>
      match kv.2 with
      | .vundef => none
      | .varr xs => some (kv.1, .vstr (jsonStringifyL (.varr xs)).asString)
      | .vobj fs => some (kv.1, .vstr (jsonStringifyL (.vobj fs)).asString)
      | v => some (kv.1, v))
  let searchStr := encode processed
  if searchStr = [] then "" else ('?' :: searchStr).asString

/-- `parseSearchWith(JSON.parse)` (lines 266-288) as the router
instantiates it: strip one leading `?`, `decode`, then try to JSON-parse
every string-typed value, a parse failure leaving the raw string in
place. -/
def parseSearch (searchStr : String) : Except Unit (List (String × JSVal)) :=
  let s := match searchStr.toList with
    | '?' :: rest => rest
    | cs => cs
  match decode s with
  | .error e => .error e
  | .ok query =>
      .ok (query.map
        (fun kv =>
          match kv.2 with
          | .vstr str =>
              (match jsonParse str with
                | .ok parsed => (kv.1, parsed)
                | .error _ => (kv.1, .vstr str))
          | v => (kv.1, v)))

/-- C3 counterexample: the codec round-trip claim is false at a concrete
input.  For `o = {a: "0"}` (a SearchObject with a string value), the
encoded form is `?a=0`; on decode, `toValue` keeps `"0"` as a string (the
leading-zero heuristic), but `parseSearchWith` then runs every string
value through `JSON.parse`, which turns `"0"` into the *number* `0`:
`decode(encode(o))` is `{a: 0}`, not deep-equal to `o`. -/
theorem c3_roundtrip_counterexample :
    stringifySearch [("a", JSVal.vstr "0")] = "?a=0" ∧
    parseSearch (stringifySearch [("a", JSVal.vstr "0")]) =
      .ok [("a", JSVal.vnum 0)] ∧
    JSVal.vnum 0 ≠ JSVal.vstr "0" :=
  ⟨rfl, rfl, fun h => nomatch h⟩

/-- C4 counterexample: the claim that the decode path never throws "for
every input query string, including malformed fragments (bad
percent-escapes …)" is false at a concrete input: `toValue` calls
`decodeURIComponent` with no `try`/`catch`, so the lone `%` in `a=%`
raises `URIError` out of the codec.  (The *JSON* leg of the claim does
hold: in `?a=%7Bbad` the decoded value `{bad` fails `JSON.parse` and the
raw string is kept, returning normally.) -/
theorem c4_decode_throws_counterexample :
    parseSearch "a=%" = .error () ∧
    parseSearch "?a=%7Bbad" =
      .ok [("a", JSVal.vstr (String.mk ('{' :: ['b', 'a', 'd'])))] :=
  ⟨rfl, rfl⟩

/-- Query strings whose percent-escapes are well formed: each `%` is
followed by two hex digits, and a non-ASCII lead byte (`C2`-`F4`) is
followed by its required number of well-formed continuation escapes
(continuation bytes in `80`-`BF`, with overlong and surrogate encodings
excluded) — exactly the escape sequences `decodeURIComponent` accepts,
whether they encode an ASCII byte or a multibyte UTF-8 character. -/
inductive EscOk : List Char → Prop where
  | nil : EscOk []
  | esc (a b : Char) (rest : List Char) (ha : isHexDigit a = true)
      (hb : isHexDigit b = true) (hlt : hexVal a * 16 + hexVal b < 128)
      (h : EscOk rest) : EscOk ('%' :: a :: b :: rest)
  | esc2 (a b a2 b2 : Char) (rest : List Char) (ha : isHexDigit a = true)
      (hb : isHexDigit b = true) (ha2 : isHexDigit a2 = true)
      (hb2 : isHexDigit b2 = true)
      (h1 : 194 ≤ hexVal a * 16 + hexVal b ∧ hexVal a * 16 + hexVal b ≤ 223)
      (h2 : 128 ≤ hexVal a2 * 16 + hexVal b2 ∧
        hexVal a2 * 16 + hexVal b2 ≤ 191)
      (h : EscOk rest) : EscOk ('%' :: a :: b :: '%' :: a2 :: b2 :: rest)
  | esc3 (a b a2 b2 a3 b3 : Char) (rest : List Char)
      (ha : isHexDigit a = true) (hb : isHexDigit b = true)
      (ha2 : isHexDigit a2 = true) (hb2 : isHexDigit b2 = true)
      (ha3 : isHexDigit a3 = true) (hb3 : isHexDigit b3 = true)
      (h1 : 224 ≤ hexVal a * 16 + hexVal b ∧ hexVal a * 16 + hexVal b ≤ 239)
      (h2 : 128 ≤ hexVal a2 * 16 + hexVal b2 ∧
        hexVal a2 * 16 + hexVal b2 ≤ 191)
      (h3 : 128 ≤ hexVal a3 * 16 + hexVal b3 ∧
        hexVal a3 * 16 + hexVal b3 ≤ 191)
      (hcp : 2048 ≤ (hexVal a * 16 + hexVal b - 224) * 4096 +
          (hexVal a2 * 16 + hexVal b2 - 128) * 64 +
          (hexVal a3 * 16 + hexVal b3 - 128) ∧
        ¬ (55296 ≤ (hexVal a * 16 + hexVal b - 224) * 4096 +
            (hexVal a2 * 16 + hexVal b2 - 128) * 64 +
            (hexVal a3 * 16 + hexVal b3 - 128) ∧
          (hexVal a * 16 + hexVal b - 224) * 4096 +
            (hexVal a2 * 16 + hexVal b2 - 128) * 64 +
            (hexVal a3 * 16 + hexVal b3 - 128) ≤ 57343))
      (h : EscOk rest) :
      EscOk ('%' :: a :: b :: '%' :: a2 :: b2 :: '%' :: a3 :: b3 :: rest)
  | esc4 (a b a2 b2 a3 b3 a4 b4 : Char) (rest : List Char)
      (ha : isHexDigit a = true) (hb : isHexDigit b = true)
      (ha2 : isHexDigit a2 = true) (hb2 : isHexDigit b2 = true)
      (ha3 : isHexDigit a3 = true) (hb3 : isHexDigit b3 = true)
      (ha4 : isHexDigit a4 = true) (hb4 : isHexDigit b4 = true)
      (h1 : 240 ≤ hexVal a * 16 + hexVal b ∧ hexVal a * 16 + hexVal b ≤ 244)
      (h2 : 128 ≤ hexVal a2 * 16 + hexVal b2 ∧
        hexVal a2 * 16 + hexVal b2 ≤ 191)
      (h3 : 128 ≤ hexVal a3 * 16 + hexVal b3 ∧
        hexVal a3 * 16 + hexVal b3 ≤ 191)
      (h4 : 128 ≤ hexVal a4 * 16 + hexVal b4 ∧
        hexVal a4 * 16 + hexVal b4 ≤ 191)
      (hcp : 65536 ≤ (hexVal a * 16 + hexVal b - 240) * 262144 +
          (hexVal a2 * 16 + hexVal b2 - 128) * 4096 +
          (hexVal a3 * 16 + hexVal b3 - 128) * 64 +
          (hexVal a4 * 16 + hexVal b4 - 128) ∧
        (hexVal a * 16 + hexVal b - 240) * 262144 +
          (hexVal a2 * 16 + hexVal b2 - 128) * 4096 +
          (hexVal a3 * 16 + hexVal b3 - 128) * 64 +
          (hexVal a4 * 16 + hexVal b4 - 128) ≤ 1114111)
      (h : EscOk rest) :
      EscOk ('%' :: a :: b :: '%' :: a2 :: b2 :: '%' :: a3 :: b3 ::
        '%' :: a4 :: b4 :: rest)
  | chr (c : Char) (rest : List Char) (hc : c ≠ '%') (h : EscOk rest) :
      EscOk (c :: rest)

theorem EscOk.tail {c : Char} {rest : List Char} (h : EscOk (c :: rest))
    (hc : c ≠ '%') : EscOk rest := by
  cases h with
  | esc a b r ha hb hlt h => exact absurd rfl hc
  | esc2 a b a2 b2 r ha hb ha2 hb2 h1 h2 h => exact absurd rfl hc
  | esc3 a b a2 b2 a3 b3 r ha hb ha2 hb2 ha3 hb3 h1 h2 h3 hcp h =>
      exact absurd rfl hc
  | esc4 a b a2 b2 a3 b3 a4 b4 r ha hb ha2 hb2 ha3 hb3 ha4 hb4 h1 h2 h3 h4
      hcp h => exact absurd rfl hc
  | chr c r hcc h => exact h

set_option maxHeartbeats 1600000 in
theorem decodeURIComponentL_ok {cs : List Char} (h : EscOk cs) :
    ∃ out, decodeURIComponentL cs = .ok out := by
  induction h with
  | nil => exact ⟨[], rfl⟩
  | esc a b rest ha hb hlt h ih =>
    obtain ⟨out, hout⟩ := ih
    refine ⟨Char.ofNat (hexVal a * 16 + hexVal b) :: out, ?_⟩
    rw [decodeURIComponentL]
    rw [if_pos rfl]
    rw [decodePctEsc]
    rw [ha, hb]
    rw [if_pos (show (true && true) = true from rfl)]
    dsimp only
    rw [if_pos hlt]
    rw [hout]
    rfl
  | esc2 a b a2 b2 rest ha hb ha2 hb2 h1 h2 h ih =>
    obtain ⟨out, hout⟩ := ih
    refine ⟨Char.ofNat ((hexVal a * 16 + hexVal b - 192) * 64 +
      (hexVal a2 * 16 + hexVal b2 - 128)) :: out, ?_⟩
    rw [decodeURIComponentL, if_pos rfl, decodePctEsc, ha, hb,
      if_pos (show (true && true) = true from rfl)]
    dsimp only
    rw [if_neg (show ¬ hexVal a * 16 + hexVal b < 128 by omega),
      if_pos h1, decodeMB2]
    dsimp only
    rw [ha2, hb2, if_pos (show (true && true) = true from rfl)]
    rw [if_pos h2, hout]
    rfl
  | esc3 a b a2 b2 a3 b3 rest ha hb ha2 hb2 ha3 hb3 h1 h2 h3 hcp h ih =>
    obtain ⟨out, hout⟩ := ih
    refine ⟨Char.ofNat ((hexVal a * 16 + hexVal b - 224) * 4096 +
      (hexVal a2 * 16 + hexVal b2 - 128) * 64 +
      (hexVal a3 * 16 + hexVal b3 - 128)) :: out, ?_⟩
    rw [decodeURIComponentL, if_pos rfl, decodePctEsc, ha, hb,
      if_pos (show (true && true) = true from rfl)]
    dsimp only
    rw [if_neg (show ¬ hexVal a * 16 + hexVal b < 128 by omega),
      if_neg (show ¬ (194 ≤ hexVal a * 16 + hexVal b ∧
        hexVal a * 16 + hexVal b ≤ 223) by omega), if_pos h1, decodeMB3]
    dsimp only
    rw [ha2, hb2, ha3, hb3,
      if_pos (show (true && true && true && true) = true from rfl)]
    have hcond := And.intro h2 (And.intro h3 (And.intro hcp.1 hcp.2))
    rw [if_pos hcond, hout]
    rfl
  | esc4 a b a2 b2 a3 b3 a4 b4 rest ha hb ha2 hb2 ha3 hb3 ha4 hb4 h1 h2 h3
      h4 hcp h ih =>
    obtain ⟨out, hout⟩ := ih
    refine ⟨Char.ofNat ((hexVal a * 16 + hexVal b - 240) * 262144 +
      (hexVal a2 * 16 + hexVal b2 - 128) * 4096 +
      (hexVal a3 * 16 + hexVal b3 - 128) * 64 +
      (hexVal a4 * 16 + hexVal b4 - 128)) :: out, ?_⟩
    rw [decodeURIComponentL, if_pos rfl, decodePctEsc, ha, hb,
      if_pos (show (true && true) = true from rfl)]
    dsimp only
    rw [if_neg (show ¬ hexVal a * 16 + hexVal b < 128 by omega),
      if_neg (show ¬ (194 ≤ hexVal a * 16 + hexVal b ∧
        hexVal a * 16 + hexVal b ≤ 223) by omega),
      if_neg (show ¬ (224 ≤ hexVal a * 16 + hexVal b ∧
        hexVal a * 16 + hexVal b ≤ 239) by omega), if_pos h1, decodeMB4]
    dsimp only
    rw [ha2, hb2, ha3, hb3, ha4, hb4,
      if_pos (show (true && true && true && true && true && true) = true
        from rfl)]
    have hcond := And.intro h2 (And.intro h3 (And.intro h4
      (And.intro hcp.1 hcp.2)))
    rw [if_pos hcond, hout]
    rfl
  | chr c rest hc h ih =>
    obtain ⟨out, hout⟩ := ih
    refine ⟨c :: out, ?_⟩
    rw [decodeURIComponentL]
    rw [if_neg hc]
    rw [hout]
    rfl

theorem splitOnCharCore_cons_ne (sep x : Char) (xs : List Char)
    (hx : x ≠ sep) :
    splitOnCharCore sep (x :: xs) =
      (x :: (splitOnCharCore sep xs).1, (splitOnCharCore sep xs).2) := by
  simp [splitOnCharCore, hx]

theorem splitOnCharCore_cons_eq (sep : Char) (xs : List Char) :
    splitOnCharCore sep (sep :: xs) =
      ([], (splitOnCharCore sep xs).1 :: (splitOnCharCore sep xs).2) := by
  simp [splitOnCharCore]

theorem head_mem_splitOnChar (sep : Char) (cs : List Char) :
    (splitOnCharCore sep cs).1 ∈ splitOnChar sep cs := by
  simp [splitOnChar]

theorem tail_subset_splitOnChar (sep : Char) (cs : List Char) {p : List Char}
    (hp : p ∈ (splitOnCharCore sep cs).2) : p ∈ splitOnChar sep cs := by
  simp [splitOnChar]
  exact Or.inr hp

/-- Splitting on a separator that is neither `%` nor a hex digit cannot cut
a well-formed percent-escape, so every part of the split is itself
well-formed. -/
theorem EscOk.split {sep : Char} (hsep : sep ≠ '%')
    (hhex : isHexDigit sep = false) {cs : List Char} (h : EscOk cs) :
    ∀ p ∈ splitOnChar sep cs, EscOk p := by
  induction h with
  | nil =>
    intro p hp
    simp [splitOnChar, splitOnCharCore] at hp
    subst hp
    exact .nil
  | esc a b rest ha hb hlt h ih =>
    intro p hp
    have hpc : ('%' : Char) ≠ sep := fun hco => hsep hco.symm
    have hpa : a ≠ sep := by
      intro hco; subst hco; rw [ha] at hhex; exact Bool.noConfusion hhex
    have hpb : b ≠ sep := by
      intro hco; subst hco; rw [hb] at hhex; exact Bool.noConfusion hhex
    rw [splitOnChar, splitOnCharCore_cons_ne sep _ _ hpc,
      splitOnCharCore_cons_ne sep _ _ hpa,
      splitOnCharCore_cons_ne sep _ _ hpb] at hp
    dsimp only at hp
    rcases List.mem_cons.1 hp with hhead | htail
    · subst hhead
      exact .esc a b _ ha hb hlt (ih _ (head_mem_splitOnChar sep rest))
    · exact ih p (tail_subset_splitOnChar sep rest htail)
  | esc2 a b a2 b2 rest ha hb ha2 hb2 h1 h2 h ih =>
    intro p hp
    have hpc : ('%' : Char) ≠ sep := fun hco => hsep hco.symm
    have hpa : a ≠ sep := by
      intro hco; subst hco; rw [ha] at hhex; exact Bool.noConfusion hhex
    have hpb : b ≠ sep := by
      intro hco; subst hco; rw [hb] at hhex; exact Bool.noConfusion hhex
    have hpa2 : a2 ≠ sep := by
      intro hco; subst hco; rw [ha2] at hhex; exact Bool.noConfusion hhex
    have hpb2 : b2 ≠ sep := by
      intro hco; subst hco; rw [hb2] at hhex; exact Bool.noConfusion hhex
    rw [splitOnChar, splitOnCharCore_cons_ne sep _ _ hpc,
      splitOnCharCore_cons_ne sep _ _ hpa,
      splitOnCharCore_cons_ne sep _ _ hpb,
      splitOnCharCore_cons_ne sep _ _ hpc,
      splitOnCharCore_cons_ne sep _ _ hpa2,
      splitOnCharCore_cons_ne sep _ _ hpb2] at hp
    dsimp only at hp
    rcases List.mem_cons.1 hp with hhead | htail
    · subst hhead
      exact .esc2 a b a2 b2 _ ha hb ha2 hb2 h1 h2
        (ih _ (head_mem_splitOnChar sep rest))
    · exact ih p (tail_subset_splitOnChar sep rest htail)
  | esc3 a b a2 b2 a3 b3 rest ha hb ha2 hb2 ha3 hb3 h1 h2 h3 hcp h ih =>
    intro p hp
    have hpc : ('%' : Char) ≠ sep := fun hco => hsep hco.symm
    have hpa : a ≠ sep := by
      intro hco; subst hco; rw [ha] at hhex; exact Bool.noConfusion hhex
    have hpb : b ≠ sep := by
      intro hco; subst hco; rw [hb] at hhex; exact Bool.noConfusion hhex
    have hpa2 : a2 ≠ sep := by
      intro hco; subst hco; rw [ha2] at hhex; exact Bool.noConfusion hhex
    have hpb2 : b2 ≠ sep := by
      intro hco; subst hco; rw [hb2] at hhex; exact Bool.noConfusion hhex
    have hpa3 : a3 ≠ sep := by
      intro hco; subst hco; rw [ha3] at hhex; exact Bool.noConfusion hhex
    have hpb3 : b3 ≠ sep := by
      intro hco; subst hco; rw [hb3] at hhex; exact Bool.noConfusion hhex
    rw [splitOnChar, splitOnCharCore_cons_ne sep _ _ hpc,
      splitOnCharCore_cons_ne sep _ _ hpa,
      splitOnCharCore_cons_ne sep _ _ hpb,
      splitOnCharCore_cons_ne sep _ _ hpc,
      splitOnCharCore_cons_ne sep _ _ hpa2,
      splitOnCharCore_cons_ne sep _ _ hpb2,
      splitOnCharCore_cons_ne sep _ _ hpc,
      splitOnCharCore_cons_ne sep _ _ hpa3,
      splitOnCharCore_cons_ne sep _ _ hpb3] at hp
    dsimp only at hp
    rcases List.mem_cons.1 hp with hhead | htail
    · subst hhead
      exact .esc3 a b a2 b2 a3 b3 _ ha hb ha2 hb2 ha3 hb3 h1 h2 h3 hcp
        (ih _ (head_mem_splitOnChar sep rest))
    · exact ih p (tail_subset_splitOnChar sep rest htail)
  | esc4 a b a2 b2 a3 b3 a4 b4 rest ha hb ha2 hb2 ha3 hb3 ha4 hb4 h1 h2 h3
      h4 hcp h ih =>
    intro p hp
    have hpc : ('%' : Char) ≠ sep := fun hco => hsep hco.symm
    have hpa : a ≠ sep := by
      intro hco; subst hco; rw [ha] at hhex; exact Bool.noConfusion hhex
    have hpb : b ≠ sep := by
      intro hco; subst hco; rw [hb] at hhex; exact Bool.noConfusion hhex
    have hpa2 : a2 ≠ sep := by
      intro hco; subst hco; rw [ha2] at hhex; exact Bool.noConfusion hhex
    have hpb2 : b2 ≠ sep := by
      intro hco; subst hco; rw [hb2] at hhex; exact Bool.noConfusion hhex
    have hpa3 : a3 ≠ sep := by
      intro hco; subst hco; rw [ha3] at hhex; exact Bool.noConfusion hhex
    have hpb3 : b3 ≠ sep := by
      intro hco; subst hco; rw [hb3] at hhex; exact Bool.noConfusion hhex
    have hpa4 : a4 ≠ sep := by
      intro hco; subst hco; rw [ha4] at hhex; exact Bool.noConfusion hhex
    have hpb4 : b4 ≠ sep := by
      intro hco; subst hco; rw [hb4] at hhex; exact Bool.noConfusion hhex
    rw [splitOnChar, splitOnCharCore_cons_ne sep _ _ hpc,
      splitOnCharCore_cons_ne sep _ _ hpa,
      splitOnCharCore_cons_ne sep _ _ hpb,
      splitOnCharCore_cons_ne sep _ _ hpc,
      splitOnCharCore_cons_ne sep _ _ hpa2,
      splitOnCharCore_cons_ne sep _ _ hpb2,
      splitOnCharCore_cons_ne sep _ _ hpc,
      splitOnCharCore_cons_ne sep _ _ hpa3,
      splitOnCharCore_cons_ne sep _ _ hpb3,
      splitOnCharCore_cons_ne sep _ _ hpc,
      splitOnCharCore_cons_ne sep _ _ hpa4,
      splitOnCharCore_cons_ne sep _ _ hpb4] at hp
    dsimp only at hp
    rcases List.mem_cons.1 hp with hhead | htail
    · subst hhead
      exact .esc4 a b a2 b2 a3 b3 a4 b4 _ ha hb ha2 hb2 ha3 hb3 ha4 hb4
        h1 h2 h3 h4 hcp (ih _ (head_mem_splitOnChar sep rest))
    · exact ih p (tail_subset_splitOnChar sep rest htail)
  | chr c rest hc h ih =>
    intro p hp
    by_cases hcs : c = sep
    · subst hcs
      rw [splitOnChar, splitOnCharCore_cons_eq] at hp
      dsimp only at hp
      rcases List.mem_cons.1 hp with hhead | htail
      · subst hhead; exact .nil
      · exact ih p (by simpa [splitOnChar] using htail)
    · rw [splitOnChar, splitOnCharCore_cons_ne sep _ _ hcs] at hp
      dsimp only at hp
      rcases List.mem_cons.1 hp with hhead | htail
      · subst hhead
        exact .chr c _ hc (ih _ (head_mem_splitOnChar sep rest))
      · exact ih p (tail_subset_splitOnChar sep rest htail)

theorem toValue_ok (mix : Option (List Char))
    (h : ∀ m, mix = some m → EscOk m) : ∃ v, toValue mix = .ok v := by
  match mix with
  | none => exact ⟨.vstr "", rfl⟩
  | some m =>
    by_cases hm : m = []
    · subst hm; exact ⟨.vstr "", rfl⟩
    · obtain ⟨out, hout⟩ := decodeURIComponentL_ok (h m rfl)
      rw [toValue]
      rw [if_neg hm, hout]
      dsimp only
      split
      · exact ⟨_, rfl⟩
      · split
        · exact ⟨_, rfl⟩
        · split
          · exact ⟨_, rfl⟩
          · split
            · exact ⟨_, rfl⟩
            · exact ⟨_, rfl⟩

theorem decodeQGo_ok (comps : List (List Char)) :
    ∀ out, (∀ p ∈ comps, EscOk p) →
      ∃ res, decodeQGo comps out = .ok res := by
  induction comps with
  | nil => exact fun out _ => ⟨out, rfl⟩
  | cons comp rest ih =>
    intro out hall
    by_cases hc : comp = []
    · subst hc
      exact ⟨out, by simp [decodeQGo]⟩
    · have hcomp : EscOk comp := hall comp (List.mem_cons_self comp rest)
      have hval : ∀ m, (splitOnChar '=' comp).get? 1 = some m → EscOk m := by
        intro m hm
        exact EscOk.split (by decide) (by decide) hcomp m (List.get?_mem hm)
      obtain ⟨v, hv⟩ := toValue_ok _ hval
      obtain ⟨res, hres⟩ :=
        ih (insertOrConcat out
          (((splitOnChar '=' comp).head?.getD []).asString) v)
          (fun p hp => hall p (List.mem_cons_of_mem comp hp))
      refine ⟨res, ?_⟩
      rw [decodeQGo]
      rw [if_neg hc, hv]
      exact hres

/-- C4 amended: `toValue` passes raw values straight into
`decodeURIComponent` with no `try`/`catch`, so a malformed percent-escape
*does* throw out of the codec (see the counterexample); but for every
query string whose percent-escapes are well formed, the decode path
returns normally — in particular a structured-value (`JSON.parse`)
failure is caught and leaves the raw string value in place. -/
theorem c4_decode_no_throw (searchStr : String)
    (h : EscOk searchStr.toList) :
    ∃ out, parseSearch searchStr = .ok out := by
  have hs : EscOk (match searchStr.toList with
      | '?' :: rest => rest
      | cs => cs) := by
    split
    · next rest heq =>
      rw [heq] at h
      exact h.tail (by decide)
    · exact h
  obtain ⟨res, hres⟩ :=
    decodeQGo_ok
      (splitOnChar '&' (match searchStr.toList with
        | '?' :: rest => rest
        | cs => cs)) []
      (EscOk.split (by decide) (by decide) hs)
  have hdec : decode (match searchStr.toList with
      | '?' :: rest => rest
      | cs => cs) = .ok res := hres
  rw [parseSearch, hdec]
  exact ⟨_, rfl⟩

/-- Witness for C4's amended theorem at a concrete input containing both a
well-formed ASCII escape (`%20`) and a well-formed multibyte escape
(`%C3%A9`, the UTF-8 form of `é`). -/
theorem c4_decode_no_throw_witness :
    EscOk "a=%20%C3%A9".toList ∧
      ∃ out, parseSearch "a=%20%C3%A9" = .ok out := by
  have hesc : EscOk "a=%20%C3%A9".toList :=
    EscOk.chr 'a' _ (by decide)
      (EscOk.chr '=' _ (by decide)
        (EscOk.esc '2' '0' ['%', 'C', '3', '%', 'A', '9'] (by decide)
          (by decide) (by decide)
          (EscOk.esc2 'C' '3' 'A' '9' [] (by decide) (by decide) (by decide)
            (by decide) (by decide) (by decide) EscOk.nil)))
  exact ⟨hesc, c4_decode_no_throw _ hesc⟩

/-! ### Round-trip infrastructure for the codec claims -/

theorem toNat_ofNat_small (n : Nat) (h : n < 256) :
    (Char.ofNat n).toNat = n := by
  have hv : n.isValidChar := Or.inl (by omega)
  simp [Char.ofNat, hv, Char.toNat, Char.ofNatAux, UInt32.toNat, UInt32.ofNatCore]

/-- Lowercase ASCII letter. -/
def lowerAlpha (c : Char) : Bool :=
  decide ('a' ≤ c) && decide (c ≤ 'z')

theorem lowerAlpha_toNat {c : Char} (h : lowerAlpha c = true) :
    97 ≤ c.toNat ∧ c.toNat ≤ 122 := by
  simp only [lowerAlpha, Bool.and_eq_true, decide_eq_true_eq] at h
  obtain ⟨h1, h2⟩ := h
  exact ⟨h1, h2⟩

theorem lowerAlpha_unreserved {c : Char} (h : lowerAlpha c = true) :
    isUnreservedURI c = true := by
  obtain ⟨h1, h2⟩ := lowerAlpha_toNat h
  have : c.isAlpha = true := by
    simp only [Char.isAlpha, Char.isLower, Char.isUpper, Bool.or_eq_true,
      Bool.and_eq_true, decide_eq_true_eq]
    right
    exact ⟨h1, h2⟩
  simp [isUnreservedURI, this]

theorem digit_unreserved {c : Char} (h : c.isDigit = true) :
    isUnreservedURI c = true := by
  simp [isUnreservedURI, h]

theorem encodeURIComponentL_id {cs : List Char}
    (h : ∀ c ∈ cs, isUnreservedURI c = true) :
    encodeURIComponentL cs = cs := by
  induction cs with
  | nil => rfl
  | cons c rest ih =>
    have hc := h c (List.mem_cons_self c rest)
    have hr := ih (fun x hx => h x (List.mem_cons_of_mem c hx))
    simp only [encodeURIComponentL, List.map_cons, List.flatten_cons, hc,
      if_true]
    simpa [encodeURIComponentL] using hr

theorem decodeURIComponentL_id {cs : List Char}
    (h : ∀ c ∈ cs, c ≠ '%') : decodeURIComponentL cs = .ok cs := by
  induction cs with
  | nil => rfl
  | cons c rest ih =>
    have hc := h c (List.mem_cons_self c rest)
    have hr := ih (fun x hx => h x (List.mem_cons_of_mem c hx))
    rw [decodeURIComponentL, if_neg hc, hr]
    rfl

theorem jsTrim_id {cs : List Char}
    (h : ∀ c ∈ cs, jsWhitespace c = false) : jsTrim cs = cs := by
  have h1 : cs.dropWhile jsWhitespace = cs := by
    cases cs with
    | nil => rfl
    | cons c rest =>
      rw [List.dropWhile_cons_of_neg]
      simp [h c (List.mem_cons_self c rest)]
  rw [jsTrim, h1]
  have h2 : cs.reverse.dropWhile jsWhitespace = cs.reverse := by
    cases hr : cs.reverse with
    | nil => rfl
    | cons c rest =>
      rw [List.dropWhile_cons_of_neg]
      have : c ∈ cs := by
        rw [← List.mem_reverse, hr]
        exact List.mem_cons_self c rest
      simp [h c this]
  rw [h2, List.reverse_reverse]

theorem lowerAlpha_not_ws {c : Char} (h : lowerAlpha c = true) :
    jsWhitespace c = false := by
  obtain ⟨h1, h2⟩ := lowerAlpha_toNat h
  cases hws : jsWhitespace c
  · rfl
  · exfalso
    simp only [jsWhitespace, Bool.or_eq_true, decide_eq_true_eq] at hws
    casesm* _ ∨ _ <;>
      first
        | omega
        | (subst_vars; exact absurd h1 (by decide))

theorem digit_toNat {c : Char} (h : c.isDigit = true) :
    48 ≤ c.toNat ∧ c.toNat ≤ 57 := by
  simp only [Char.isDigit, Bool.and_eq_true, decide_eq_true_eq] at h
  exact ⟨h.1, h.2⟩

theorem digit_not_ws {c : Char} (h : c.isDigit = true) :
    jsWhitespace c = false := by
  obtain ⟨h1, h2⟩ := digit_toNat h
  cases hws : jsWhitespace c
  · rfl
  · exfalso
    simp only [jsWhitespace, Bool.or_eq_true, decide_eq_true_eq] at hws
    casesm* _ ∨ _ <;>
      first
        | omega
        | (subst_vars; exact absurd h1 (by decide))

theorem natDigitsF_ne_nil {fuel n : Nat} (h : n < fuel) :
    natDigitsF fuel n ≠ [] := by
  cases fuel with
  | zero => omega
  | succ fuel =>
    rw [natDigitsF]
    split
    · simp
    · simp

theorem isDigit_of_toNat {c : Char} (h1 : 48 ≤ c.toNat)
    (h2 : c.toNat ≤ 57) : c.isDigit = true := by
  simp only [Char.isDigit, Bool.and_eq_true, decide_eq_true_eq]
  exact ⟨h1, h2⟩

theorem natDigitsF_digits {fuel n : Nat} (h : n < fuel) :
    ∀ c ∈ natDigitsF fuel n, c.isDigit = true := by
  induction fuel generalizing n with
  | zero => omega
  | succ fuel ih =>
    intro c hc
    rw [natDigitsF] at hc
    split at hc
    · next hn =>
      simp at hc
      subst hc
      have ht : (Char.ofNat (48 + n)).toNat = 48 + n :=
        toNat_ofNat_small _ (by omega)
      refine isDigit_of_toNat ?_ ?_ <;> rw [ht] <;> omega
    · next hn =>
      rcases List.mem_append.1 hc with hpre | hlast
      · exact ih (by omega) c hpre
      · simp at hlast
        subst hlast
        have ht : (Char.ofNat (48 + n % 10)).toNat = 48 + n % 10 :=
          toNat_ofNat_small _ (by omega)
        have : n % 10 < 10 := Nat.mod_lt _ (by omega)
        refine isDigit_of_toNat ?_ ?_ <;> rw [ht] <;> omega

theorem natDigitsF_foldl {fuel n : Nat} (h : n < fuel) :
    (natDigitsF fuel n).foldl (fun a c => a * 10 + (c.toNat - 48)) 0 = n := by
  induction fuel generalizing n with
  | zero => omega
  | succ fuel ih =>
    rw [natDigitsF]
    split
    · next hn =>
      simp [toNat_ofNat_small (48 + n) (by omega)]
    · next hn =>
      rw [List.foldl_append]
      rw [ih (by omega)]
      simp [toNat_ofNat_small (48 + n % 10) (by omega)]
      omega

theorem natDigitsF_parse {fuel n : Nat} (h : n < fuel) :
    parseDigitsNat (natDigitsF fuel n) = some n := by
  rw [parseDigitsNat, if_pos, natDigitsF_foldl h]
  refine ⟨natDigitsF_ne_nil h, ?_⟩
  rw [List.all_eq_true]
  exact natDigitsF_digits h

theorem natDigitsF_head {fuel n : Nat} (h1 : 1 ≤ n) (h : n < fuel) :
    ∀ c, (natDigitsF fuel n).head? = some c → 49 ≤ c.toNat ∧ c.toNat ≤ 57 := by
  induction fuel generalizing n with
  | zero => omega
  | succ fuel ih =>
    intro c hc
    rw [natDigitsF] at hc
    split at hc
    · next hn =>
      simp at hc
      subst hc
      rw [toNat_ofNat_small _ (by omega)]
      omega
    · next hn =>
      rw [List.head?_append_of_ne_nil _ (natDigitsF_ne_nil (by omega))] at hc
      exact ih (by omega) (by omega) c hc

theorem stripWord_some {w cs rest : List Char}
    (h : stripWord w cs = some rest) : cs = w ++ rest := by
  induction w generalizing cs with
  | nil =>
    simp [stripWord] at h
    simp [h]
  | cons a ws ih =>
    cases cs with
    | nil => simp [stripWord] at h
    | cons c cs' =>
      rw [stripWord] at h
      split at h
      · next heq => rw [heq, List.cons_append, ih h]
      · exact absurd h (by simp)

theorem splitOnCharCore_append_no_sep {sep : Char} {p : List Char}
    (h : ∀ c ∈ p, c ≠ sep) (cs : List Char) :
    splitOnCharCore sep (p ++ cs) =
      (p ++ (splitOnCharCore sep cs).1, (splitOnCharCore sep cs).2) := by
  induction p with
  | nil => simp
  | cons x xs ih =>
    rw [List.cons_append,
      splitOnCharCore_cons_ne sep x _ (h x (List.mem_cons_self x xs)),
      ih (fun c hc => h c (List.mem_cons_of_mem x hc))]
    rfl

theorem splitOnCharCore_no_sep {sep : Char} {p : List Char}
    (h : ∀ c ∈ p, c ≠ sep) : splitOnCharCore sep p = (p, []) := by
  have := splitOnCharCore_append_no_sep h []
  simpa [splitOnCharCore] using this

/-- The query-string pair `k=w` splits back into its two halves. -/
theorem splitOnChar_pair {k w : List Char}
    (hk : ∀ c ∈ k, c ≠ '=') (hw : ∀ c ∈ w, c ≠ '=') :
    splitOnChar '=' (k ++ '=' :: w) = [k, w] := by
  rw [splitOnChar, splitOnCharCore_append_no_sep hk,
    splitOnCharCore_cons_eq, splitOnCharCore_no_sep hw]
  simp

/-- `a&b&…` joining, as `encode` produces it. -/
def joinSep (sep : Char) : List (List Char) → List Char
  | [] => []
  | [p] => p
  | p :: ps => p ++ sep :: joinSep sep ps

theorem splitOnChar_joinSep {sep : Char} :
    ∀ {ps : List (List Char)}, ps ≠ [] →
      (∀ p ∈ ps, ∀ c ∈ p, c ≠ sep) →
      splitOnChar sep (joinSep sep ps) = ps := by
  intro ps
  induction ps with
  | nil => intro h; exact absurd rfl h
  | cons p ps ih =>
    intro _ hall
    cases ps with
    | nil =>
      rw [joinSep, splitOnChar,
        splitOnCharCore_no_sep (hall p (List.mem_cons_self p []))]
    | cons q qs =>
      rw [joinSep,
        splitOnChar,
        splitOnCharCore_append_no_sep (hall p (List.mem_cons_self p _)),
        splitOnCharCore_cons_eq]
      dsimp only
      simp only [List.append_nil]
      have hqs := ih (by simp)
        (fun r hr c hc => hall r (List.mem_cons_of_mem p hr) c hc)
      rw [splitOnChar] at hqs
      rw [hqs]
      simp

/-! ### The safe fragment for the amended round-trip claim -/

/-- Scalars whose query-string round-trip is lossless: booleans, nonzero
integers (canonical decimal has no leading zero), and nonempty lowercase
words other than the JSON literals.  The counterexample shows why each
exclusion is forced: `"0"`/numeric-looking/JSON-looking strings are
re-typed by the `toValue` heuristics or the `JSON.parse` pass, `0` prints
as `"0"` and survives only via JSON, and `undefined`/`null`/containers are
re-encoded. -/
def safeScalar : JSVal → Bool
  | .vbool _ => true
  | .vnum n => decide (n ≠ 0)
  | .vstr s =>
      decide (s ≠ "") && s.toList.all lowerAlpha && decide (s ≠ "true") &&
        decide (s ≠ "false") && decide (s ≠ "null")
  | _ => false

def safeKey (k : String) : Bool :=
  decide (k ≠ "") && k.toList.all lowerAlpha

/-- A SearchObject in the safe fragment: duplicate-free keys, lowercase
word keys, safe scalar values. -/
def SafeObj (o : List (String × JSVal)) : Prop :=
  (o.map Prod.fst).Nodup ∧ ∀ kv ∈ o, safeKey kv.1 = true ∧ safeScalar kv.2 = true

/-- The `k=v` fragment `encode` emits for one (scalar-valued) entry. -/
def pieceOf (kv : String × JSVal) : List Char :=
  encodeURIComponentL kv.1.toList ++ '=' :: encodeURIComponentL (jsToStringL kv.2)

theorem lower_ne_char {c d : Char} (h : lowerAlpha c = true)
    (hd : d.toNat < 97 ∨ 122 < d.toNat) : c ≠ d := by
  intro he
  obtain ⟨h1, h2⟩ := lowerAlpha_toNat h
  subst he
  omega

theorem digit_ne_char {c d : Char} (h : c.isDigit = true)
    (hd : d.toNat < 48 ∨ 57 < d.toNat) : c ≠ d := by
  intro he
  obtain ⟨h1, h2⟩ := digit_toNat h
  subst he
  omega

theorem isDigit_false_of_lower {c : Char} (h : lowerAlpha c = true) :
    c.isDigit = false := by
  obtain ⟨h1, h2⟩ := lowerAlpha_toNat h
  cases hd : c.isDigit
  · rfl
  · obtain ⟨g1, g2⟩ := digit_toNat hd
    omega

theorem lowerAlpha_not_jsonWs {c : Char} (h : lowerAlpha c = true) :
    jsonWs c = false := by
  obtain ⟨h1, h2⟩ := lowerAlpha_toNat h
  cases hws : jsonWs c
  · rfl
  · exfalso
    simp only [jsonWs, Bool.or_eq_true, decide_eq_true_eq] at hws
    casesm* _ ∨ _ <;> (subst_vars; exact absurd h1 (by decide))

theorem skipWs_id {cs : List Char} (h : ∀ c ∈ cs, jsonWs c = false) :
    skipWs cs = cs := by
  cases cs with
  | nil => rfl
  | cons c rest =>
    rw [skipWs, List.dropWhile_cons_of_neg]
    simp [h c (List.mem_cons_self c rest)]

theorem jsPlus_word_none {cs : List Char} (hne : cs ≠ [])
    (h : ∀ c ∈ cs, lowerAlpha c = true) : jsPlus cs = none := by
  have htrim : jsTrim cs = cs :=
    jsTrim_id (fun c hc => lowerAlpha_not_ws (h c hc))
  rw [jsPlus, htrim]
  cases cs with
  | nil => exact absurd rfl hne
  | cons c rest =>
    have hc := h c (List.mem_cons_self c rest)
    dsimp only
    rw [if_neg (show ¬ c = '-' from lower_ne_char hc (by decide)),
      if_neg (show ¬ c = '+' from lower_ne_char hc (by decide))]
    have hpd : parseDigitsNat (c :: rest) = none := by
      rw [parseDigitsNat, if_neg]
      intro hcon
      have := hcon.2
      simp only [List.all_cons, Bool.and_eq_true] at this
      rw [isDigit_false_of_lower hc] at this
      exact Bool.noConfusion this.1
    rw [hpd]
    rfl

/-- `JSON.parse` rejects a nonempty lowercase word other than the three
JSON literals, either immediately or by trailing input after a literal
prefix. -/
theorem jsonParse_word_fails (s : String) (hne : s ≠ "")
    (hlower : ∀ c ∈ s.toList, lowerAlpha c = true)
    (ht : s ≠ "true") (hf : s ≠ "false") (hn : s ≠ "null") :
    jsonParse s = .error () := by
  have hsws : skipWs s.toList = s.toList :=
    skipWs_id (fun c hc => lowerAlpha_not_jsonWs (hlower c hc))
  rw [jsonParse, hsws]
  cases hcs : s.toList with
  | nil =>
    exfalso
    apply hne
    cases s with
    | mk data =>
      simp [String.toList] at hcs
      simp [hcs]
  | cons c rest =>
    have hc : lowerAlpha c = true := by
      apply hlower
      rw [hcs]
      exact List.mem_cons_self c rest
    rw [jpValue]
    rw [if_neg (show ¬ c = '"' from lower_ne_char hc (by decide)),
      if_neg (show ¬ c = '[' from lower_ne_char hc (by decide)),
      if_neg (show ¬ c = '{' from lower_ne_char hc (by decide))]
    rw [if_neg ?hnum]
    case hnum =>
      simp only [Bool.or_eq_true, not_or]
      constructor
      · simp only [decide_eq_true_eq]
        exact lower_ne_char hc (by decide)
      · rw [isDigit_false_of_lower hc]
        simp
    rw [jpLit]
    cases hswt : stripWord ['t', 'r', 'u', 'e'] (c :: rest) with
    | some r1 =>
      dsimp only
      have hshape := stripWord_some hswt
      have hr1 : r1 ≠ [] := by
        intro hr
        apply ht
        rw [hr] at hshape
        cases s with
        | mk data =>
          simp [String.toList] at hcs
          apply String.ext
          simp [hcs, hshape]
      have hr1l : ∀ x ∈ r1, lowerAlpha x = true := by
        intro x hx
        apply hlower
        rw [hcs, hshape]
        exact List.mem_append_right _ hx
      rw [skipWs_id (fun x hx => lowerAlpha_not_jsonWs (hr1l x hx))]
      rw [if_neg hr1]
    | none =>
      dsimp only
      cases hswf : stripWord ['f', 'a', 'l', 's', 'e'] (c :: rest) with
      | some r1 =>
        dsimp only
        have hshape := stripWord_some hswf
        have hr1 : r1 ≠ [] := by
          intro hr
          apply hf
          rw [hr] at hshape
          cases s with
          | mk data =>
            simp [String.toList] at hcs
            apply String.ext
            simp [hcs, hshape]
        have hr1l : ∀ x ∈ r1, lowerAlpha x = true := by
          intro x hx
          apply hlower
          rw [hcs, hshape]
          exact List.mem_append_right _ hx
        rw [skipWs_id (fun x hx => lowerAlpha_not_jsonWs (hr1l x hx))]
        rw [if_neg hr1]
      | none =>
        dsimp only
        cases hswn : stripWord ['n', 'u', 'l', 'l'] (c :: rest) with
        | some r1 =>
          dsimp only
          have hshape := stripWord_some hswn
          have hr1 : r1 ≠ [] := by
            intro hr
            apply hn
            rw [hr] at hshape
            cases s with
            | mk data =>
              simp [String.toList] at hcs
              apply String.ext
              simp [hcs, hshape]
          have hr1l : ∀ x ∈ r1, lowerAlpha x = true := by
            intro x hx
            apply hlower
            rw [hcs, hshape]
            exact List.mem_append_right _ hx
          rw [skipWs_id (fun x hx => lowerAlpha_not_jsonWs (hr1l x hx))]
          rw [if_neg hr1]
        | none => rfl

theorem intReprL_chars {n : Int} :
    ∀ c ∈ intReprL n, c.isDigit = true ∨ c = '-' := by
  intro c hc
  rw [intReprL] at hc
  split at hc
  · rcases List.mem_cons.1 hc with heq | hmem
    · exact Or.inr heq
    · exact Or.inl (natDigitsF_digits (Nat.lt_succ_self _) c hmem)
  · exact Or.inl (natDigitsF_digits (Nat.lt_succ_self _) c hc)

theorem intReprL_ne_nil (n : Int) : intReprL n ≠ [] := by
  rw [intReprL]
  split
  · simp
  · exact natDigitsF_ne_nil (Nat.lt_succ_self _)

theorem intReprL_ne_of_lower {n : Int} {w : List Char} (hw : w ≠ [])
    (hlw : ∀ c ∈ w, lowerAlpha c = true) : intReprL n ≠ w := by
  intro heq
  cases w with
  | nil => exact hw rfl
  | cons c rest =>
    have hcmem : c ∈ intReprL n := by rw [heq]; exact List.mem_cons_self c rest
    have hcl := lowerAlpha_toNat (hlw c (List.mem_cons_self c rest))
    rcases intReprL_chars c hcmem with hd | hd
    · obtain ⟨g1, g2⟩ := digit_toNat hd
      omega
    · subst hd
      revert hcl
      decide

theorem intReprL_head_ne0 {n : Int} (hn : n ≠ 0) :
    ¬ (intReprL n).head? = some '0' := by
  rw [intReprL]
  split
  · next hneg =>
    intro h
    simp only [List.head?_cons, Option.some.injEq] at h
    revert h
    decide
  · next hpos =>
    intro h
    have := natDigitsF_head (n := n.toNat) (by omega) (Nat.lt_succ_self _)
      '0' h
    revert this
    decide

theorem jsPlus_intRepr {n : Int} (_ : n ≠ 0) :
    jsPlus (intReprL n) = some n := by
  have htrim : jsTrim (intReprL n) = intReprL n := by
    apply jsTrim_id
    intro c hc
    rcases intReprL_chars c hc with hd | hd
    · exact digit_not_ws hd
    · subst hd; decide
  by_cases hneg : n < 0
  · have hrep : intReprL n = '-' :: natDigits n.natAbs := by
      rw [intReprL, if_pos hneg]
    rw [jsPlus, htrim, hrep]
    dsimp only
    rw [if_pos rfl]
    rw [show natDigits n.natAbs = natDigitsF (n.natAbs + 1) n.natAbs from rfl,
      natDigitsF_parse (Nat.lt_succ_self _)]
    simp only [Option.bind_eq_bind, Option.some_bind, Option.map_some,
      Option.map_some', Option.some.injEq, pure]
    omega
  · have hrep : intReprL n = natDigits n.toNat := by
      rw [intReprL, if_neg hneg]
    cases hnd : natDigits n.toNat with
    | nil => exact absurd hnd (natDigitsF_ne_nil (Nat.lt_succ_self _))
    | cons c rest =>
      have hcd : c.isDigit = true := by
        apply natDigitsF_digits (Nat.lt_succ_self _)
        rw [show natDigitsF (n.toNat + 1) n.toNat = natDigits n.toNat from rfl,
          hnd]
        exact List.mem_cons_self c rest
      rw [jsPlus, htrim, hrep, hnd]
      dsimp only
      rw [if_neg (show ¬ c = '-' from digit_ne_char hcd (by decide)),
        if_neg (show ¬ c = '+' from digit_ne_char hcd (by decide))]
      rw [← hnd,
        show natDigits n.toNat = natDigitsF (n.toNat + 1) n.toNat from rfl,
        natDigitsF_parse (Nat.lt_succ_self _)]
      simp only [Option.bind_eq_bind, Option.some_bind, Option.map_some,
        Option.map_some', Option.some.injEq, pure]
      omega

theorem toList_ne_nil {s : String} (h : s ≠ "") : s.toList ≠ [] := by
  intro hl
  apply h
  cases s with
  | mk data =>
    simp [String.toList] at hl
    simp [hl]

theorem toList_injective {s t : String} (h : s.toList = t.toList) : s = t := by
  cases s; cases t
  simp [String.toList] at h
  simp [h]

/-- `toValue` recovers a safe scalar exactly from its coerced text. -/
theorem toValue_safe {v : JSVal} (h : safeScalar v = true) :
    toValue (some (jsToStringL v)) = .ok v := by
  match v with
  | .vbool true => rfl
  | .vbool false => rfl
  | .vnum n =>
    have hn : n ≠ 0 := by simpa [safeScalar] using h
    have hrepr : jsToStringL (.vnum n) = intReprL n := rfl
    rw [hrepr, toValue]
    rw [if_neg (intReprL_ne_nil n)]
    rw [decodeURIComponentL_id (fun c hc => by
      rcases intReprL_chars c hc with hd | hd
      · exact digit_ne_char hd (by decide)
      · subst hd; decide)]
    dsimp only
    rw [if_neg (intReprL_ne_of_lower (by simp) (by decide)),
      if_neg (intReprL_ne_of_lower (by simp) (by decide)),
      if_neg (intReprL_head_ne0 hn), jsPlus_intRepr hn]
  | .vstr s =>
    simp only [safeScalar, Bool.and_eq_true, decide_eq_true_eq,
      List.all_eq_true] at h
    obtain ⟨⟨⟨⟨hne, hlow⟩, hnt⟩, hnf⟩, hnn⟩ := h
    have hrepr : jsToStringL (.vstr s) = s.toList := rfl
    rw [hrepr, toValue]
    rw [if_neg (toList_ne_nil hne)]
    rw [decodeURIComponentL_id (fun c hc =>
      lower_ne_char (hlow c hc) (by decide))]
    dsimp only
    rw [if_neg (show ¬ s.toList = ['f', 'a', 'l', 's', 'e'] from fun heq =>
        hnf (toList_injective heq)),
      if_neg (show ¬ s.toList = ['t', 'r', 'u', 'e'] from fun heq =>
        hnt (toList_injective heq))]
    rw [if_neg ?hz]
    case hz =>
      intro hhead
      cases hl : s.toList with
      | nil => rw [hl] at hhead; exact Option.noConfusion hhead
      | cons c rest =>
        rw [hl] at hhead
        simp only [List.head?_cons, Option.some.injEq] at hhead
        have hcl := hlow c (by rw [hl]; exact List.mem_cons_self c rest)
        exact lower_ne_char hcl (by decide) hhead
    rw [jsPlus_word_none (toList_ne_nil hne) hlow]
    have : s.toList.asString = s := by
      cases s with
      | mk data => rfl
    rw [this]

theorem safeVal_chars {v : JSVal} (h : safeScalar v = true) :
    ∀ c ∈ jsToStringL v, lowerAlpha c = true ∨ c.isDigit = true ∨ c = '-' := by
  match v with
  | .vbool true => intro c hc; simp [jsToStringL, jsToStringScalar] at hc; rcases hc with h | h | h | h <;> subst h <;> left <;> decide
  | .vbool false => intro c hc; simp [jsToStringL, jsToStringScalar] at hc; rcases hc with h | h | h | h | h <;> subst h <;> left <;> decide
  | .vnum n =>
    intro c hc
    rcases intReprL_chars c hc with hd | hd
    · exact Or.inr (Or.inl hd)
    · exact Or.inr (Or.inr hd)
  | .vstr s =>
    simp only [safeScalar, Bool.and_eq_true, decide_eq_true_eq,
      List.all_eq_true] at h
    intro c hc
    exact Or.inl (h.1.1.1.2 c hc)

/-- In the safe fragment the URI encoding is the identity and each entry
prints as the plain `k=v` pair. -/
theorem piece_eq {k : String} {v : JSVal} (hk : safeKey k = true)
    (hv : safeScalar v = true) :
    pieceOf (k, v) = k.toList ++ '=' :: jsToStringL v := by
  rw [pieceOf]
  dsimp only
  rw [encodeURIComponentL_id (fun c hc => by
    simp only [safeKey, Bool.and_eq_true, List.all_eq_true] at hk
    exact lowerAlpha_unreserved (hk.2 c hc))]
  rw [encodeURIComponentL_id (fun c hc => by
    rcases safeVal_chars hv c hc with h | h | h
    · exact lowerAlpha_unreserved h
    · exact digit_unreserved h
    · subst h; decide)]

theorem piece_chars {k : String} {v : JSVal} (hk : safeKey k = true)
    (hv : safeScalar v = true) :
    ∀ c ∈ pieceOf (k, v),
      lowerAlpha c = true ∨ c.isDigit = true ∨ c = '-' ∨ c = '=' := by
  intro c hc
  rw [piece_eq hk hv] at hc
  rcases List.mem_append.1 hc with hmem | hmem
  · simp only [safeKey, Bool.and_eq_true, List.all_eq_true] at hk
    exact Or.inl (hk.2 c hmem)
  · rcases List.mem_cons.1 hmem with heq | hmem'
    · exact Or.inr (Or.inr (Or.inr heq))
    · rcases safeVal_chars hv c hmem' with h | h | h
      · exact Or.inl h
      · exact Or.inr (Or.inl h)
      · exact Or.inr (Or.inr (Or.inl h))

theorem piece_no_amp {k : String} {v : JSVal} (hk : safeKey k = true)
    (hv : safeScalar v = true) : ∀ c ∈ pieceOf (k, v), c ≠ '&' := by
  intro c hc
  rcases piece_chars hk hv c hc with h | h | h | h
  · exact lower_ne_char h (by decide)
  · exact digit_ne_char h (by decide)
  · subst h; decide
  · subst h; decide

theorem piece_ne_nil (k : String) (v : JSVal) : pieceOf (k, v) ≠ [] := by
  rw [pieceOf]
  simp

theorem joinSep_cons_flatten (sep : Char) (p : List Char) :
    ∀ ps, joinSep sep (p :: ps) =
      p ++ (ps.map (fun q => sep :: q)).flatten := by
  intro ps
  induction ps generalizing p with
  | nil => simp [joinSep]
  | cons q qs ih =>
    rw [joinSep, ih q] <;> simp

theorem foldl_amp (F : List Char → (String × JSVal) → List Char)
    (P : (String × JSVal) → Prop)
    (hF : ∀ acc kv, P kv →
      F acc kv = (if acc = [] then acc else acc ++ ['&']) ++ pieceOf kv) :
    ∀ (o : List (String × JSVal)) (acc : List Char), (∀ kv ∈ o, P kv) →
      acc ≠ [] →
      List.foldl F acc o = acc ++ (o.map (fun kv => '&' :: pieceOf kv)).flatten := by
  intro o
  induction o with
  | nil => intro acc _ _; simp
  | cons kv rest ih =>
    intro acc hall hacc
    rw [List.foldl_cons, hF acc kv (hall kv (List.mem_cons_self kv rest)),
      if_neg hacc]
    rw [ih _ (fun x hx => hall x (List.mem_cons_of_mem kv hx)) (by simp)]
    simp

/-- `encode` on safe entries is the `&`-joined list of `k=v` pairs. -/
theorem encode_safe (o : List (String × JSVal))
    (h : ∀ kv ∈ o, safeScalar kv.2 = true) :
    encode o = joinSep '&' (o.map pieceOf) := by
  rw [encode]
  set F := (fun (str : List Char) (kv : String × JSVal) =>
      match kv.2 with
      | JSVal.vundef => str
      | JSVal.varr xs =>
          xs.foldl
            (fun str item =>
              (if str = [] then str else str ++ ['&']) ++
                encodeURIComponentL kv.1.toList ++
                '=' :: encodeURIComponentL (jsToStringL item)) str
      | v =>
          (if str = [] then str else str ++ ['&']) ++
            encodeURIComponentL kv.1.toList ++
            '=' :: encodeURIComponentL (jsToStringL v)) with hFdef
  have hF : ∀ (acc : List Char) (kv : String × JSVal),
      safeScalar kv.2 = true →
      F acc kv = (if acc = [] then acc else acc ++ ['&']) ++ pieceOf kv := by
    intro acc kv hkv
    rw [hFdef]
    rcases kv with ⟨k, v⟩
    match v with
    | .vbool b => simp [pieceOf]
    | .vnum n => simp [pieceOf]
    | .vstr s => simp [pieceOf]
    | .vnull => simp [safeScalar] at hkv
    | .vundef => simp [safeScalar] at hkv
    | .varr xs => simp [safeScalar] at hkv
    | .vobj fs => simp [safeScalar] at hkv
  cases o with
  | nil => rfl
  | cons kv rest =>
    rw [List.foldl_cons,
      hF [] kv (h kv (List.mem_cons_self kv rest)), if_pos rfl,
      List.nil_append]
    rw [foldl_amp F (fun kv => safeScalar kv.2 = true) hF rest (pieceOf kv)
      (fun x hx => h x (List.mem_cons_of_mem kv hx))
      (by rcases kv with ⟨k, v⟩; exact piece_ne_nil k v)]
    rw [List.map_cons, joinSep_cons_flatten, List.map_map]
    rfl

theorem asString_toList (s : String) : s.toList.asString = s := by
  cases s
  rfl

theorem insertOrConcat_fresh {out : List (String × JSVal)} {k : String}
    (v : JSVal) (h : k ∉ out.map Prod.fst) :
    insertOrConcat out k v = out ++ [(k, v)] := by
  induction out with
  | nil => rfl
  | cons kv' rest ih =>
    rcases kv' with ⟨k', v'⟩
    simp only [List.map_cons, List.mem_cons, not_or] at h
    rw [insertOrConcat, if_neg (fun he => h.1 he.symm), ih h.2]
    rfl

theorem decodeQGo_pieces :
    ∀ (o acc : List (String × JSVal)),
      (o.map Prod.fst).Nodup →
      (∀ kv ∈ o, safeKey kv.1 = true ∧ safeScalar kv.2 = true) →
      (∀ kv ∈ o, kv.1 ∉ acc.map Prod.fst) →
      decodeQGo (o.map pieceOf) acc = .ok (acc ++ o) := by
  intro o
  induction o with
  | nil => intro acc _ _ _; simp [decodeQGo]
  | cons kv0 rest ih =>
    intro acc hnd hall hdisj
    rcases kv0 with ⟨k, v⟩
    obtain ⟨hk, hv⟩ := hall (k, v) (List.mem_cons_self _ _)
    have hkchars : ∀ c ∈ k.toList, lowerAlpha c = true := by
      intro c hc
      simp only [safeKey, Bool.and_eq_true, List.all_eq_true] at hk
      exact hk.2 c hc
    have hsplit : splitOnChar '=' (pieceOf (k, v)) =
        [k.toList, jsToStringL v] := by
      rw [piece_eq hk hv]
      apply splitOnChar_pair
      · exact fun c hc => lower_ne_char (hkchars c hc) (by decide)
      · intro c hc
        rcases safeVal_chars hv c hc with h | h | h
        · exact lower_ne_char h (by decide)
        · exact digit_ne_char h (by decide)
        · subst h; decide
    rw [List.map_cons, decodeQGo, if_neg (piece_ne_nil k v), hsplit]
    have hval : toValue ([k.toList, jsToStringL v].get? 1) = .ok v := by
      rw [show ([k.toList, jsToStringL v].get? 1) =
        some (jsToStringL v) from rfl]
      exact toValue_safe hv
    rw [hval]
    have hkey : (([k.toList, jsToStringL v].head?.getD []).asString) = k := by
      rw [show ([k.toList, jsToStringL v].head?.getD []) = k.toList from rfl]
      exact asString_toList k
    rw [hkey]
    show decodeQGo (List.map pieceOf rest) (insertOrConcat acc k v) = _
    rw [@insertOrConcat_fresh acc k v (hdisj (k, v) (List.mem_cons_self _ _))]
    simp only [List.map_cons, List.nodup_cons] at hnd
    rw [ih (acc ++ [(k, v)]) hnd.2
      (fun kv hkv => hall kv (List.mem_cons_of_mem _ hkv)) ?fresh]
    · simp
    case fresh =>
      intro kv hkv
      simp only [List.map_append, List.mem_append]
      rintro (hin | hin)
      · exact hdisj kv (List.mem_cons_of_mem _ hkv) hin
      · simp only [List.map_cons, List.map_nil, List.mem_singleton] at hin
        apply hnd.1
        rw [← hin]
        exact List.mem_map.2 ⟨kv, hkv, rfl⟩

theorem filterMap_stringify_id :
    ∀ (o : List (String × JSVal)), (∀ kv ∈ o, safeScalar kv.2 = true) →
      (o.filterMap (fun kv =>
        match kv.2 with
        | JSVal.vundef => none
        | JSVal.varr xs =>
            some (kv.1, JSVal.vstr (jsonStringifyL (.varr xs)).asString)
        | JSVal.vobj fs =>
            some (kv.1, JSVal.vstr (jsonStringifyL (.vobj fs)).asString)
        | v => some (kv.1, v))) = o := by
  intro o
  induction o with
  | nil => intro _; rfl
  | cons kv rest ih =>
    intro hall
    have hv := hall kv (List.mem_cons_self kv rest)
    have hrest := ih (fun x hx => hall x (List.mem_cons_of_mem kv hx))
    rcases kv with ⟨k, v⟩
    match v with
    | .vbool b => simpa [List.filterMap_cons] using hrest
    | .vnum n => simpa [List.filterMap_cons] using hrest
    | .vstr s => simpa [List.filterMap_cons] using hrest
    | .vnull => simp [safeScalar] at hv
    | .vundef => simp [safeScalar] at hv
    | .varr xs => simp [safeScalar] at hv
    | .vobj fs => simp [safeScalar] at hv

theorem jsonPass_id :
    ∀ (o : List (String × JSVal)),
      (∀ kv ∈ o, safeScalar kv.2 = true) →
      (o.map (fun kv =>
        match kv.2 with
        | JSVal.vstr str =>
            (match jsonParse str with
              | .ok parsed => (kv.1, parsed)
              | .error _ => (kv.1, .vstr str))
        | v => (kv.1, v))) = o := by
  intro o
  induction o with
  | nil => intro _; rfl
  | cons kv rest ih =>
    intro hall
    have hv := hall kv (List.mem_cons_self kv rest)
    have hrest := ih (fun x hx => hall x (List.mem_cons_of_mem kv hx))
    rcases kv with ⟨k, v⟩
    match v with
    | .vbool b => simpa [List.map_cons] using hrest
    | .vnum n => simpa [List.map_cons] using hrest
    | .vstr s =>
      simp only [safeScalar, Bool.and_eq_true, decide_eq_true_eq,
        List.all_eq_true] at hv
      obtain ⟨⟨⟨⟨hne, hlow⟩, hnt⟩, hnf⟩, hnn⟩ := hv
      have hparse := jsonParse_word_fails s hne hlow hnt hnf hnn
      simp only [List.map_cons, hparse, hrest]
    | .vnull => simp [safeScalar] at hv
    | .vundef => simp [safeScalar] at hv
    | .varr xs => simp [safeScalar] at hv
    | .vobj fs => simp [safeScalar] at hv

theorem parseSearch_qmark (cs : List Char) :
    parseSearch (('?' :: cs).asString) =
      (match decode cs with
        | .error e => .error e
        | .ok query =>
            .ok (query.map
              (fun kv =>
                match kv.2 with
                | JSVal.vstr str =>
                    (match jsonParse str with
                      | .ok parsed => (kv.1, parsed)
                      | .error _ => (kv.1, JSVal.vstr str))
                | v => (kv.1, v)))) := rfl

/-! ### A wider round-trip fragment for C3

The infrastructure below re-proves the codec round trip on a fragment
covering all the value shapes of the original claim: booleans, all
integers (including `0`, which survives via the `JSON.parse` pass),
`null`, arrays and nested objects (via their embedded-JSON text), and
printable-ASCII strings that none of the decode heuristics can coerce. -/

theorem hexVal_hexDigitUpper {n : Nat} (h : n < 16) :
    hexVal (hexDigitUpper n) = n := by
  have hall : ∀ m < 16, hexVal (hexDigitUpper m) = m := by decide
  exact hall n h

theorem isHexDigit_hexDigitUpper {n : Nat} (h : n < 16) :
    isHexDigit (hexDigitUpper n) = true := by
  have hall : ∀ m < 16, isHexDigit (hexDigitUpper m) = true := by decide
  exact hall n h

theorem encodeURIComponentL_cons (c : Char) (rest : List Char) :
    encodeURIComponentL (c :: rest) =
      (if isUnreservedURI c then [c]
        else ((utf8Bytes c).map pctEncodeByte).flatten) ++
        encodeURIComponentL rest := by
  simp [encodeURIComponentL]

theorem unreserved_ne_of_not {c d : Char} (hc : isUnreservedURI c = true)
    (hd : isUnreservedURI d = false) : c ≠ d := by
  intro he
  subst he
  rw [hc] at hd
  exact Bool.noConfusion hd

theorem utf8Bytes_ascii {c : Char} (h : c.toNat < 128) :
    utf8Bytes c = [c.toNat] := by
  rw [utf8Bytes]
  rw [if_pos h]

/-- `decodeURIComponent` inverts `encodeURIComponent` on ASCII input. -/
theorem decode_encode_ascii {cs : List Char}
    (h : ∀ c ∈ cs, c.toNat < 128) :
    decodeURIComponentL (encodeURIComponentL cs) = .ok cs := by
  induction cs with
  | nil => rfl
  | cons c rest ih =>
    have hc := h c (List.mem_cons_self c rest)
    have hr := ih (fun x hx => h x (List.mem_cons_of_mem c hx))
    rw [encodeURIComponentL_cons]
    by_cases hu : isUnreservedURI c = true
    · rw [if_pos hu]
      rw [List.singleton_append, decodeURIComponentL,
        if_neg (unreserved_ne_of_not hu (by decide)), hr]
      rfl
    · rw [if_neg hu, utf8Bytes_ascii hc]
      rw [show (([c.toNat].map pctEncodeByte).flatten) =
        pctEncodeByte c.toNat from by simp]
      rw [pctEncodeByte]
      rw [show ('%' :: [hexDigitUpper (c.toNat / 16),
          hexDigitUpper (c.toNat % 16)]) ++ encodeURIComponentL rest =
        '%' :: hexDigitUpper (c.toNat / 16) :: hexDigitUpper (c.toNat % 16)
          :: encodeURIComponentL rest from rfl]
      rw [decodeURIComponentL, if_pos rfl, decodePctEsc,
        isHexDigit_hexDigitUpper (by omega),
        isHexDigit_hexDigitUpper (by omega),
        if_pos (show (true && true) = true from rfl)]
      rw [hexVal_hexDigitUpper (by omega), hexVal_hexDigitUpper (by omega)]
      rw [show c.toNat / 16 * 16 + c.toNat % 16 = c.toNat from by omega]
      rw [if_pos hc, hr]
      dsimp only [Except.map]
      rw [Char.ofNat_toNat]

/-- Printable ASCII (space through tilde): one UTF-8 byte, no JSON
control-character escapes. -/
def printableAscii (c : Char) : Bool :=
  decide (32 ≤ c.toNat) && decide (c.toNat ≤ 126)

/-- Values whose embedded-JSON text round-trips through the modelled
`JSON.stringify` / `JSON.parse` pair: booleans, integers, `null`, and
printable-ASCII strings, closed under arrays and objects (with
printable-ASCII keys).  `undefined` is excluded: `JSON.stringify` drops
object members holding it, so such objects do not round-trip. -/
inductive JsonSafe : JSVal → Prop where
  | bool (b : Bool) : JsonSafe (.vbool b)
  | num (n : Int) : JsonSafe (.vnum n)
  | null : JsonSafe .vnull
  | str (s : String) (h : ∀ c ∈ s.toList, printableAscii c = true) :
      JsonSafe (.vstr s)
  | arr (xs : List JSVal) (h : ∀ x ∈ xs, JsonSafe x) : JsonSafe (.varr xs)
  | obj (fs : List (String × JSVal))
      (hk : ∀ kv ∈ fs, ∀ c ∈ kv.1.toList, printableAscii c = true)
      (hv : ∀ kv ∈ fs, JsonSafe kv.2) : JsonSafe (.vobj fs)

/-- A first character on which the decode heuristics could act: digits and
signs start numeric coercion, `.` starts a (non-integral) number in
JavaScript, whitespace is trimmed by coercion, and `"`/`[`/`{` start JSON
values. -/
def coercibleStart (c : Char) : Bool :=
  c.isDigit || c = '-' || c = '+' || c = '.' || jsWhitespace c ||
  c = '"' || c = '[' || c = '{'

/-- A printable-ASCII string that every decode heuristic leaves alone: it
is not empty-coerced (`""` is itself fine), not a boolean literal, its
first character starts neither a number nor a JSON value, and it is not a
JSON keyword (or `Infinity`, which the JavaScript numeric coercion accepts
even though the integral-fragment model maps it to `NaN`) padded with
trailing whitespace. -/
def strInert (s : String) : Bool :=
  s.toList.all printableAscii &&
  (match s.toList with
   | [] => true
   | c :: _ =>
     !(coercibleStart c) &&
     !(decide (jsTrim s.toList = ['t', 'r', 'u', 'e'])) &&
     !(decide (jsTrim s.toList = ['f', 'a', 'l', 's', 'e'])) &&
     !(decide (jsTrim s.toList = ['n', 'u', 'l', 'l'])) &&
     !(decide (jsTrim s.toList = ['I', 'n', 'f', 'i', 'n', 'i', 't', 'y'])))

/-- Top-level SearchObject values covered by the amended round trip:
booleans, all integers (`0` comes back via the `JSON.parse` pass), `null`,
inert strings, and arrays/objects of `JsonSafe` values. -/
inductive SafeVal : JSVal → Prop where
  | bool (b : Bool) : SafeVal (.vbool b)
  | num (n : Int) : SafeVal (.vnum n)
  | null : SafeVal .vnull
  | str (s : String) (h : strInert s = true) : SafeVal (.vstr s)
  | arr (xs : List JSVal) (h : ∀ x ∈ xs, JsonSafe x) : SafeVal (.varr xs)
  | obj (fs : List (String × JSVal))
      (hk : ∀ kv ∈ fs, ∀ c ∈ kv.1.toList, printableAscii c = true)
      (hv : ∀ kv ∈ fs, JsonSafe kv.2) : SafeVal (.vobj fs)

/-- Keys survive the round trip exactly when `encodeURIComponent` leaves
them alone (`decode` never URI-decodes keys): nonempty, unreserved
characters only. -/
def safeKeyU (k : String) : Bool :=
  decide (k ≠ "") && k.toList.all isUnreservedURI

/-- The safe SearchObject fragment: duplicate-free unreserved keys and
`SafeVal` values. -/
def SafeSearch (o : List (String × JSVal)) : Prop :=
  (o.map Prod.fst).Nodup ∧ ∀ kv ∈ o, safeKeyU kv.1 = true ∧ SafeVal kv.2

/-- The `stringifySearchWith` preprocessing of one value: truthy objects
(arrays and plain objects) are replaced by their `JSON.stringify` text. -/
def stage1 : JSVal → JSVal
  | .vstr s => .vstr s
  | .vnum n => .vnum n
  | .vbool b => .vbool b
  | .vnull => .vnull
  | .vundef => .vundef
  | .varr xs => .vstr (jsonStringifyL (.varr xs)).asString
  | .vobj fs => .vstr (jsonStringifyL (.vobj fs)).asString

/-- What `decode`'s `toValue` recovers for an original value `v` (before
the `JSON.parse` pass restores `0`, `null`, arrays and objects). -/
def decodedOf : JSVal → JSVal
  | .vstr s => .vstr s
  | .vnum n => if n = 0 then .vstr "0" else .vnum n
  | .vbool b => .vbool b
  | .vnull => .vstr "null"
  | .vundef => .vundef
  | .varr xs => .vstr (jsonStringifyL (.varr xs)).asString
  | .vobj fs => .vstr (jsonStringifyL (.vobj fs)).asString

/-- Value shapes `encode` serialises through its generic (scalar) branch:
everything except dropped `undefined` and expanded arrays. -/
def scalarShape : JSVal → Bool
  | .vstr _ => true
  | .vnum _ => true
  | .vbool _ => true
  | .vnull => true
  | .vundef => false
  | .varr _ => false
  | .vobj _ => true

theorem printable_lt128 {c : Char} (h : printableAscii c = true) :
    c.toNat < 128 := by
  simp only [printableAscii, Bool.and_eq_true, decide_eq_true_eq] at h
  omega

theorem dropWhile_append_singleton {c : Char} (l : List Char)
    (hc : jsWhitespace c = false) :
    (l ++ [c]).dropWhile jsWhitespace = l.dropWhile jsWhitespace ++ [c] := by
  induction l with
  | nil =>
    simp only [List.nil_append, List.dropWhile_nil]
    rw [List.dropWhile_cons_of_neg]
    simp [hc]
  | cons x l ih =>
    by_cases hx : jsWhitespace x = true
    · rw [List.cons_append, List.dropWhile_cons_of_pos (by simp [hx]),
        List.dropWhile_cons_of_pos (by simp [hx]), ih]
    · rw [List.cons_append, List.dropWhile_cons_of_neg (by simp [hx]),
        List.dropWhile_cons_of_neg (by simp [hx])]
      rfl

theorem jsTrim_cons {c : Char} (rest : List Char)
    (hc : jsWhitespace c = false) :
    jsTrim (c :: rest) =
      c :: (rest.reverse.dropWhile jsWhitespace).reverse := by
  rw [jsTrim, List.dropWhile_cons_of_neg (by simp [hc])]
  rw [List.reverse_cons, dropWhile_append_singleton _ hc]
  rw [List.reverse_append]
  rfl

theorem parseDigitsNat_not_digit {c : Char} (t : List Char)
    (hc : c.isDigit = false) : parseDigitsNat (c :: t) = none := by
  rw [parseDigitsNat, if_neg]
  intro hcon
  have := hcon.2
  simp only [List.all_cons, Bool.and_eq_true] at this
  rw [hc] at this
  exact Bool.noConfusion this.1

theorem jsPlus_inert {c : Char} (rest : List Char) (hd : c.isDigit = false)
    (hm : c ≠ '-') (hp : c ≠ '+') (hw : jsWhitespace c = false) :
    jsPlus (c :: rest) = none := by
  rw [jsPlus, jsTrim_cons rest hw]
  dsimp only
  rw [if_neg hm, if_neg hp, parseDigitsNat_not_digit _ hd]
  rfl

theorem encodeURIComponentL_cons_ne_nil {c : Char} (rest : List Char)
    (hc : c.toNat < 128) : encodeURIComponentL (c :: rest) ≠ [] := by
  rw [encodeURIComponentL_cons]
  by_cases hu : isUnreservedURI c = true
  · rw [if_pos hu]; simp
  · rw [if_neg hu, utf8Bytes_ascii hc]
    simp [pctEncodeByte]

/-- `toValue` keeps a string the decode heuristics cannot act on. -/
theorem toValue_keeps {c : Char} {t : List Char}
    (h128 : ∀ x ∈ c :: t, x.toNat < 128)
    (hf : c :: t ≠ ['f', 'a', 'l', 's', 'e'])
    (ht : c :: t ≠ ['t', 'r', 'u', 'e'])
    (hd : c.isDigit = false) (hm : c ≠ '-') (hp : c ≠ '+')
    (hw : jsWhitespace c = false) :
    toValue (some (encodeURIComponentL (c :: t))) =
      .ok (.vstr (c :: t).asString) := by
  rw [toValue, if_neg (encodeURIComponentL_cons_ne_nil t
    (h128 c (List.mem_cons_self c t))), decode_encode_ascii h128]
  dsimp only
  rw [if_neg hf, if_neg ht]
  rw [if_neg (show ¬ (c :: t).head? = some '0' from by
    simp only [List.head?_cons, Option.some.injEq]
    intro hc0
    subst hc0
    exact Bool.noConfusion hd)]
  rw [jsPlus_inert t hd hm hp hw]

/-- `toValue` on the coerced text of an integer: `0` stays the string
`"0"` (the leading-zero heuristic), everything else is numerically
recovered. -/
theorem toValue_int (n : Int) :
    toValue (some (encodeURIComponentL (intReprL n))) =
      .ok (if n = 0 then .vstr "0" else .vnum n) := by
  have hid : encodeURIComponentL (intReprL n) = intReprL n := by
    apply encodeURIComponentL_id
    intro c hc
    rcases intReprL_chars c hc with hdg | hmn
    · exact digit_unreserved hdg
    · subst hmn; decide
  rw [hid]
  by_cases h0 : n = 0
  · subst h0
    rw [if_pos rfl]
    rfl
  · rw [if_neg h0, toValue, if_neg (intReprL_ne_nil n),
      decodeURIComponentL_id (fun c hc => by
        rcases intReprL_chars c hc with hdg | hmn
        · exact digit_ne_char hdg (by decide)
        · subst hmn; decide)]
    dsimp only
    rw [if_neg (intReprL_ne_of_lower (by decide) (by decide)),
      if_neg (intReprL_ne_of_lower (by decide) (by decide))]
    rw [if_neg (intReprL_head_ne0 h0), jsPlus_intRepr h0]

theorem jsonWs_ws {x : Char} (h : jsonWs x = true) : jsWhitespace x = true := by
  simp only [jsonWs, Bool.or_eq_true, decide_eq_true_eq] at h
  casesm* _ ∨ _ <;> subst_vars <;> decide

theorem dropWhile_all_append (p : Char → Bool) (l1 l2 : List Char)
    (h : ∀ c ∈ l1, p c = true) :
    (l1 ++ l2).dropWhile p = l2.dropWhile p := by
  induction l1 with
  | nil => rfl
  | cons x l1 ih =>
    rw [List.cons_append,
      List.dropWhile_cons_of_pos (by simp [h x (List.mem_cons_self x l1)])]
    exact ih (fun c hc => h c (List.mem_cons_of_mem x hc))

/-- Trimming a non-whitespace-delimited word with trailing whitespace
yields the word. -/
theorem jsTrim_word_ws {a : Char} (w' r : List Char)
    (ha : jsWhitespace a = false)
    (hlast : ((a :: w').reverse).dropWhile jsWhitespace = (a :: w').reverse)
    (hr : ∀ x ∈ r, jsWhitespace x = true) :
    jsTrim ((a :: w') ++ r) = a :: w' := by
  rw [jsTrim, List.cons_append, List.dropWhile_cons_of_neg (by simp [ha])]
  rw [show a :: (w' ++ r) = (a :: w') ++ r from rfl, List.reverse_append]
  rw [dropWhile_all_append _ _ _
    (fun x hx => hr x (List.mem_reverse.1 hx))]
  rw [hlast, List.reverse_reverse]

/-- `JSON.parse` rejects a string whose first character starts no JSON
value and which is not a JSON keyword padded with trailing whitespace. -/
theorem jsonParse_inert (s : String) {c : Char} {t : List Char}
    (hcs : s.toList = c :: t)
    (hco : coercibleStart c = false)
    (htr : jsTrim (c :: t) ≠ ['t', 'r', 'u', 'e'])
    (hfa : jsTrim (c :: t) ≠ ['f', 'a', 'l', 's', 'e'])
    (hnu : jsTrim (c :: t) ≠ ['n', 'u', 'l', 'l']) :
    jsonParse s = .error () := by
  simp only [coercibleStart, Bool.or_eq_false_iff,
    decide_eq_false_iff_not] at hco
  obtain ⟨⟨⟨⟨⟨⟨⟨hdig, hdash⟩, hplus⟩, hdot⟩, hws⟩, hq⟩, hbr⟩, hbc⟩ := hco
  have hjw : jsonWs c = false := by
    cases hjws : jsonWs c
    · rfl
    · rw [jsonWs_ws hjws] at hws
      exact Bool.noConfusion hws
  rw [jsonParse, hcs]
  rw [show skipWs (c :: t) = c :: t from by
    rw [skipWs, List.dropWhile_cons_of_neg (by simp [hjw])]]
  rw [jpValue]
  rw [if_neg hq, if_neg hbr, if_neg hbc]
  rw [if_neg ?hnum]
  case hnum =>
    simp only [Bool.or_eq_true, not_or]
    constructor
    · simp only [decide_eq_true_eq]
      exact hdash
    · simp [hdig]
  rw [jpLit]
  cases hswt : stripWord ['t', 'r', 'u', 'e'] (c :: t) with
  | some r1 =>
    dsimp only
    have hshape := stripWord_some hswt
    by_cases hsw : skipWs r1 = []
    · exfalso
      apply htr
      have hall : ∀ x ∈ r1, jsWhitespace x = true := fun x hx =>
        jsonWs_ws (List.dropWhile_eq_nil_iff.1 hsw x hx)
      rw [hshape]
      exact jsTrim_word_ws _ r1 (by decide) (by decide) hall
    · rw [if_neg hsw]
  | none =>
    dsimp only
    cases hswf : stripWord ['f', 'a', 'l', 's', 'e'] (c :: t) with
    | some r1 =>
      dsimp only
      have hshape := stripWord_some hswf
      by_cases hsw : skipWs r1 = []
      · exfalso
        apply hfa
        have hall : ∀ x ∈ r1, jsWhitespace x = true := fun x hx =>
          jsonWs_ws (List.dropWhile_eq_nil_iff.1 hsw x hx)
        rw [hshape]
        exact jsTrim_word_ws _ r1 (by decide) (by decide) hall
      · rw [if_neg hsw]
    | none =>
      dsimp only
      cases hswn : stripWord ['n', 'u', 'l', 'l'] (c :: t) with
      | some r1 =>
        dsimp only
        have hshape := stripWord_some hswn
        by_cases hsw : skipWs r1 = []
        · exfalso
          apply hnu
          have hall : ∀ x ∈ r1, jsWhitespace x = true := fun x hx =>
            jsonWs_ws (List.dropWhile_eq_nil_iff.1 hsw x hx)
          rw [hshape]
          exact jsTrim_word_ws _ r1 (by decide) (by decide) hall
        · rw [if_neg hsw]
      | none => rfl

/-! ### `JSON.parse` inverts `JSON.stringify` on the safe value space -/

mutual
/-- Fuel needed by `jpValue` to parse the printed form of a value. -/
def jweight : JSVal → Nat
  | .vstr _ => 1
  | .vnum _ => 1
  | .vbool _ => 1
  | .vnull => 1
  | .vundef => 1
  | .varr xs => 1 + jweightList xs
  | .vobj fs => 1 + jweightFields fs

def jweightList : List JSVal → Nat
  | [] => 0
  | x :: xs => 1 + jweight x + jweightList xs

def jweightFields : List (String × JSVal) → Nat
  | [] => 0
  | kv :: fs => 1 + jweight kv.2 + jweightFields fs
end

/-- A parse continuation that cannot extend a preceding number literal. -/
def restGuard : List Char → Prop
  | [] => True
  | c :: _ => c.isDigit = false ∧ c ≠ '.' ∧ c ≠ 'e' ∧ c ≠ 'E'

/-- `v`'s printed form parses back to `v` at any adequate fuel, leaving
any number-safe continuation untouched. -/
def JPRT (v : JSVal) : Prop :=
  ∀ fuel rest, jweight v ≤ fuel → restGuard rest →
    jpValue fuel (jsonStringifyL v ++ rest) = some (v, rest)

theorem printable_toNat {c : Char} (h : printableAscii c = true) :
    32 ≤ c.toNat ∧ c.toNat ≤ 126 := by
  simp only [printableAscii, Bool.and_eq_true, decide_eq_true_eq] at h
  exact h

theorem digit_not_jsonWs {c : Char} (h : c.isDigit = true) :
    jsonWs c = false := by
  obtain ⟨h1, h2⟩ := digit_toNat h
  cases hws : jsonWs c
  · rfl
  · exfalso
    simp only [jsonWs, Bool.or_eq_true, decide_eq_true_eq] at hws
    casesm* _ ∨ _ <;>
      first
        | omega
        | (subst_vars; exact absurd h1 (by decide))

theorem skipWs_cons_of {c : Char} (t : List Char) (h : jsonWs c = false) :
    skipWs (c :: t) = c :: t := by
  rw [skipWs, List.dropWhile_cons_of_neg]
  simp [h]

theorem jsonStringifyArr_eq (xs : List JSVal) :
    jsonStringifyArr xs = xs.map jsonStringifyL := by
  induction xs with
  | nil => rfl
  | cons x xs ih => rw [jsonStringifyArr, ih, List.map_cons]

theorem jsonStringifyObj_eq (fs : List (String × JSVal))
    (h : ∀ kv ∈ fs, kv.2 ≠ JSVal.vundef) :
    jsonStringifyObj fs = fs.map
      (fun kv => jsonQuote kv.1.toList ++ ':' :: jsonStringifyL kv.2) := by
  induction fs with
  | nil => rfl
  | cons kv fs ih =>
    rcases kv with ⟨k, v⟩
    have hv := h (k, v) (List.mem_cons_self _ _)
    have hrest := ih (fun x hx => h x (List.mem_cons_of_mem _ hx))
    cases v with
    | vundef => exact absurd rfl hv
    | vstr s => rw [jsonStringifyObj, hrest, List.map_cons]; exact fun hco => nomatch hco
    | vnum n => rw [jsonStringifyObj, hrest, List.map_cons]; exact fun hco => nomatch hco
    | vbool b => rw [jsonStringifyObj, hrest, List.map_cons]; exact fun hco => nomatch hco
    | vnull => rw [jsonStringifyObj, hrest, List.map_cons]; exact fun hco => nomatch hco
    | varr xs => rw [jsonStringifyObj, hrest, List.map_cons]; exact fun hco => nomatch hco
    | vobj fs2 => rw [jsonStringifyObj, hrest, List.map_cons]; exact fun hco => nomatch hco

/-- No printed JSON value starts with whitespace. -/
theorem jsonPrint_skipWs (v : JSVal) (rest : List Char) :
    skipWs (jsonStringifyL v ++ rest) = jsonStringifyL v ++ rest := by
  cases v with
  | vstr s =>
    rw [jsonStringifyL, jsonQuote]
    exact skipWs_cons_of _ (by decide)
  | vnum n =>
    rw [jsonStringifyL]
    cases hrep : intReprL n with
    | nil => exact absurd hrep (intReprL_ne_nil n)
    | cons c t =>
      rw [List.cons_append]
      apply skipWs_cons_of
      have hc : c ∈ intReprL n := by
        rw [hrep]; exact List.mem_cons_self c t
      rcases intReprL_chars c hc with hd | hd
      · exact digit_not_jsonWs hd
      · subst hd; decide
  | vbool b =>
    cases b <;> rw [jsonStringifyL] <;> exact skipWs_cons_of _ (by decide)
  | vnull => rw [jsonStringifyL]; exact skipWs_cons_of _ (by decide)
  | vundef => rw [jsonStringifyL]; exact skipWs_cons_of _ (by decide)
  | varr xs => rw [jsonStringifyL]; exact skipWs_cons_of _ (by decide)
  | vobj fs => rw [jsonStringifyL]; exact skipWs_cons_of _ (by decide)

theorem stripWord_prepend (w rest : List Char) :
    stripWord w (w ++ rest) = some rest := by
  induction w with
  | nil => rfl
  | cons a w ih => rw [List.cons_append, stripWord, if_pos rfl, ih]

theorem takeDigits_append {ds : List Char} (rest : List Char)
    (hds : ∀ c ∈ ds, c.isDigit = true)
    (hrest : ∀ c, rest.head? = some c → c.isDigit = false) :
    takeDigits (ds ++ rest) = (ds, rest) := by
  induction ds with
  | nil =>
    cases rest with
    | nil => rfl
    | cons c r =>
      rw [List.nil_append, takeDigits, if_neg (by simp [hrest c rfl])]
  | cons d ds ih =>
    rw [List.cons_append, takeDigits,
      if_pos (hds d (List.mem_cons_self d ds)),
      ih (fun c hc => hds c (List.mem_cons_of_mem d hc))]

theorem jsonEscapeChar_printable {c : Char} (h : printableAscii c = true)
    (hq : c ≠ '"') (hb : c ≠ '\\') : jsonEscapeChar c = [c] := by
  obtain ⟨h1, h2⟩ := printable_toNat h
  rw [jsonEscapeChar, if_neg hq, if_neg hb,
    if_neg (show ¬ c = '\n' from fun he => absurd (he ▸ h1) (by decide)),
    if_neg (show ¬ c = '\r' from fun he => absurd (he ▸ h1) (by decide)),
    if_neg (show ¬ c = '\t' from fun he => absurd (he ▸ h1) (by decide)),
    if_neg (show ¬ c.toNat = 8 by omega),
    if_neg (show ¬ c.toNat = 12 by omega),
    if_neg (show ¬ c.toNat < 32 by omega)]

/-- The JSON string body printer and parser are inverse on printable
ASCII content. -/
theorem jpStringChars_rt {s : List Char}
    (h : ∀ c ∈ s, printableAscii c = true) (rest : List Char) :
    jpStringChars ((s.map jsonEscapeChar).flatten ++ '"' :: rest) =
      some (s, rest) := by
  induction s with
  | nil =>
    rw [List.map_nil, List.flatten_nil, List.nil_append,
      jpStringChars.eq_def]
    dsimp only
    rw [if_pos rfl]
  | cons c s ih =>
    have hc := h c (List.mem_cons_self c s)
    have hs := ih (fun x hx => h x (List.mem_cons_of_mem c hx))
    obtain ⟨h1, h2⟩ := printable_toNat hc
    rw [List.map_cons, List.flatten_cons, List.append_assoc]
    by_cases hq : c = '"'
    · subst hq
      rw [show jsonEscapeChar '"' = ['\\', '"'] from rfl]
      rw [show (['\\', '"'] : List Char) ++
        ((s.map jsonEscapeChar).flatten ++ '"' :: rest) =
        '\\' :: '"' :: ((s.map jsonEscapeChar).flatten ++ '"' :: rest)
        from rfl]
      rw [jpStringChars.eq_def]
      dsimp only
      rw [if_neg (by decide), if_pos rfl]
      rw [if_pos rfl, hs]
      rfl
    · by_cases hbs : c = '\\'
      · subst hbs
        rw [show jsonEscapeChar '\\' = ['\\', '\\'] from rfl]
        rw [show (['\\', '\\'] : List Char) ++
          ((s.map jsonEscapeChar).flatten ++ '"' :: rest) =
          '\\' :: '\\' :: ((s.map jsonEscapeChar).flatten ++ '"' :: rest)
          from rfl]
        rw [jpStringChars.eq_def]
        dsimp only
        rw [if_neg (by decide), if_pos rfl]
        rw [if_neg (by decide), if_pos rfl, hs]
        rfl
      · rw [jsonEscapeChar_printable hc hq hbs, List.singleton_append,
          jpStringChars.eq_def]
        dsimp only
        rw [if_neg hq, if_neg hbs,
          if_neg (show ¬ c.toNat < 32 by omega), hs]
        rfl

theorem digitsVal_natDigits (m : Nat) : digitsVal (natDigits m) = m := by
  rw [show digitsVal (natDigits m) =
    (natDigitsF (m + 1) m).foldl (fun a c => a * 10 + (c.toNat - 48)) 0
    from rfl]
  exact natDigitsF_foldl (Nat.lt_succ_self m)

theorem natDigits_digits (m : Nat) :
    ∀ c ∈ natDigits m, c.isDigit = true :=
  natDigitsF_digits (Nat.lt_succ_self m)

theorem restGuard_head_not_digit {rest : List Char} (hg : restGuard rest) :
    ∀ c, rest.head? = some c → c.isDigit = false := by
  intro c hc
  cases rest with
  | nil => exact absurd hc (by simp)
  | cons d t =>
    simp only [List.head?_cons, Option.some.injEq] at hc
    subst hc
    exact hg.1

theorem jpNumber_rt (n : Int) {rest : List Char} (hg : restGuard rest) :
    jpNumber (intReprL n ++ rest) = some (.vnum n, rest) := by
  have hafter : numTailStops rest = false := by
    cases rest with
    | nil => rfl
    | cons c t =>
      rw [numTailStops]
      simp only [Bool.or_eq_false_iff, decide_eq_false_iff_not]
      exact ⟨⟨hg.2.1, hg.2.2.1⟩, hg.2.2.2⟩
  by_cases hneg : n < 0
  · have hm : 1 ≤ n.natAbs := by omega
    cases hnd : natDigits n.natAbs with
    | nil => exact absurd hnd (natDigitsF_ne_nil (Nat.lt_succ_self _))
    | cons d ds =>
      have hds : ∀ c ∈ (d :: ds : List Char), c.isDigit = true := by
        rw [← hnd]; exact natDigits_digits _
      rw [show intReprL n = '-' :: natDigits n.natAbs from by
        rw [intReprL, if_pos hneg]]
      rw [hnd, List.cons_append, List.cons_append, jpNumber]
      dsimp only
      rw [if_pos rfl]
      dsimp only
      rw [show d :: (ds ++ rest) = (d :: ds) ++ rest from rfl,
        takeDigits_append rest hds (restGuard_head_not_digit hg)]
      dsimp only
      rw [if_neg ?lzneg]
      case lzneg =>
        rintro ⟨hlen, hhd⟩
        simp only [List.head?_cons, Option.some.injEq] at hhd
        subst hhd
        have := natDigitsF_head hm (Nat.lt_succ_self _) '0'
          (by rw [show natDigitsF (n.natAbs + 1) n.natAbs =
            natDigits n.natAbs from rfl, hnd]; rfl)
        revert this
        decide
      rw [hafter]
      rw [if_neg (show ¬ false = true from by decide)]
      rw [if_pos rfl]
      rw [← hnd, digitsVal_natDigits]
      have : -((n.natAbs : Nat) : Int) = n := by omega
      rw [this]
  · cases hnd : natDigits n.toNat with
    | nil => exact absurd hnd (natDigitsF_ne_nil (Nat.lt_succ_self _))
    | cons d ds =>
      have hds : ∀ c ∈ (d :: ds : List Char), c.isDigit = true := by
        rw [← hnd]; exact natDigits_digits _
      have hdd : d.isDigit = true := hds d (List.mem_cons_self d ds)
      rw [show intReprL n = natDigits n.toNat from by
        rw [intReprL, if_neg hneg]]
      rw [hnd, List.cons_append, jpNumber]
      dsimp only
      rw [if_neg (show ¬ d = '-' from digit_ne_char hdd (by decide))]
      dsimp only
      rw [show d :: (ds ++ rest) = (d :: ds) ++ rest from rfl,
        takeDigits_append rest hds (restGuard_head_not_digit hg)]
      dsimp only
      rw [if_neg ?lzpos]
      case lzpos =>
        rintro ⟨hlen, hhd⟩
        simp only [List.head?_cons, Option.some.injEq] at hhd
        subst hhd
        by_cases h0 : n.toNat = 0
        · rw [h0] at hnd
          have hsing : ('0' :: ds : List Char) = ['0'] := by
            rw [← hnd]; rfl
          simp only [List.cons.injEq, true_and] at hsing
          subst hsing
          simp at hlen
        · have := @natDigitsF_head (n.toNat + 1) n.toNat (by omega)
            (Nat.lt_succ_self _) '0'
            (by rw [show natDigitsF (n.toNat + 1) n.toNat =
              natDigits n.toNat from rfl, hnd]; rfl)
          revert this
          decide
      rw [hafter]
      rw [if_neg (show ¬ false = true from by decide)]
      rw [if_neg (show ¬ false = true from by decide)]
      rw [← hnd, digitsVal_natDigits]
      have : ((n.toNat : Nat) : Int) = n := by omega
      rw [this]

theorem jprt_bool (b : Bool) : JPRT (.vbool b) := by
  intro fuel rest hf hg
  rw [jweight] at hf
  cases fuel with
  | zero => omega
  | succ f =>
    cases b with
    | true =>
      rw [show jsonStringifyL (.vbool true) = ['t', 'r', 'u', 'e'] from by
        rw [jsonStringifyL]]
      simp only [List.cons_append, List.nil_append]
      rw [jpValue]
      rw [if_neg (by decide), if_neg (by decide), if_neg (by decide),
        if_neg (by decide), jpLit]
      have hsw : stripWord ['t', 'r', 'u', 'e']
          ('t' :: 'r' :: 'u' :: 'e' :: rest) = some rest :=
        stripWord_prepend ['t', 'r', 'u', 'e'] rest
      rw [hsw]
    | false =>
      rw [show jsonStringifyL (.vbool false) = ['f', 'a', 'l', 's', 'e']
        from by rw [jsonStringifyL]]
      simp only [List.cons_append, List.nil_append]
      rw [jpValue]
      rw [if_neg (by decide), if_neg (by decide), if_neg (by decide),
        if_neg (by decide), jpLit, stripWord, if_neg (by decide)]
      dsimp only
      have hsw : stripWord ['f', 'a', 'l', 's', 'e']
          ('f' :: 'a' :: 'l' :: 's' :: 'e' :: rest) = some rest :=
        stripWord_prepend ['f', 'a', 'l', 's', 'e'] rest
      rw [hsw]

theorem jprt_null : JPRT .vnull := by
  intro fuel rest hf hg
  rw [jweight] at hf
  cases fuel with
  | zero => omega
  | succ f =>
    rw [show jsonStringifyL .vnull = ['n', 'u', 'l', 'l'] from by
      rw [jsonStringifyL]]
    simp only [List.cons_append, List.nil_append]
    rw [jpValue]
    rw [if_neg (by decide), if_neg (by decide), if_neg (by decide),
      if_neg (by decide), jpLit, stripWord, if_neg (by decide)]
    dsimp only
    rw [stripWord, if_neg (by decide)]
    dsimp only
    have hsw : stripWord ['n', 'u', 'l', 'l']
        ('n' :: 'u' :: 'l' :: 'l' :: rest) = some rest :=
      stripWord_prepend ['n', 'u', 'l', 'l'] rest
    rw [hsw]

theorem jprt_str (s : String)
    (h : ∀ c ∈ s.toList, printableAscii c = true) : JPRT (.vstr s) := by
  intro fuel rest hf hg
  rw [jweight] at hf
  cases fuel with
  | zero => omega
  | succ f =>
    rw [show jsonStringifyL (.vstr s) ++ rest =
      '"' :: ((s.toList.map jsonEscapeChar).flatten ++ '"' :: rest) from by
      rw [show jsonStringifyL (.vstr s) = jsonQuote s.toList from by
        rw [jsonStringifyL]]
      rw [jsonQuote]
      simp]
    rw [jpValue]
    rw [if_pos rfl, jpStringChars_rt h rest]
    dsimp only [Option.map]
    rw [asString_toList]

theorem jprt_num (n : Int) : JPRT (.vnum n) := by
  intro fuel rest hf hg
  rw [jweight] at hf
  cases fuel with
  | zero => omega
  | succ f =>
    rw [show jsonStringifyL (.vnum n) = intReprL n from by
      rw [jsonStringifyL]]
    cases hrep : intReprL n with
    | nil => exact absurd hrep (intReprL_ne_nil n)
    | cons d t =>
      have hd : d.isDigit = true ∨ d = '-' := by
        have : d ∈ intReprL n := by
          rw [hrep]; exact List.mem_cons_self d t
        exact intReprL_chars d this
      rw [List.cons_append, jpValue]
      rw [if_neg (show ¬ d = '"' from by
          rcases hd with hd | hd
          · exact digit_ne_char hd (by decide)
          · subst hd; decide),
        if_neg (show ¬ d = '[' from by
          rcases hd with hd | hd
          · exact digit_ne_char hd (by decide)
          · subst hd; decide),
        if_neg (show ¬ d = '{' from by
          rcases hd with hd | hd
          · exact digit_ne_char hd (by decide)
          · subst hd; decide),
        if_pos (show (d = '-' || d.isDigit) = true from by
          rcases hd with hd | hd
          · simp [hd]
          · subst hd; decide)]
      rw [show d :: (t ++ rest) = (d :: t) ++ rest from rfl, ← hrep,
        jpNumber_rt n hg]

theorem intercalate_singleton (sep : List Char) (a : List Char) :
    List.intercalate sep [a] = a := by
  simp [List.intercalate]

theorem intercalate_cons_cons (sep a b : List Char) (l : List (List Char)) :
    List.intercalate sep (a :: b :: l) =
      a ++ sep ++ List.intercalate sep (b :: l) := by
  simp [List.intercalate, List.intersperse]

theorem jpElems_rt :
    ∀ (ys : List JSVal), ys ≠ [] → (∀ y ∈ ys, JPRT y) →
      ∀ (f : Nat) (acc : List JSVal) (rest : List Char),
        jweightList ys ≤ f →
        jpElems f (List.intercalate [','] (ys.map jsonStringifyL) ++
          ']' :: rest) acc = some (.varr (acc ++ ys), rest) := by
  intro ys
  induction ys with
  | nil => intro h; exact absurd rfl h
  | cons y ys ih =>
    intro _ hrt f acc rest hw
    rw [jweightList] at hw
    cases f with
    | zero =>
      exfalso
      omega
    | succ f =>
      rw [jpElems]
      cases ys with
      | nil =>
        rw [jweightList] at hw
        rw [List.map_cons, List.map_nil, intercalate_singleton]
        rw [jsonPrint_skipWs]
        rw [hrt y (List.mem_cons_self y []) f (']' :: rest) (by omega)
          ⟨by decide, by decide, by decide, by decide⟩]
        dsimp only
        rw [skipWs_cons_of rest (by decide)]
        rw [if_neg (show ¬ ((']' :: rest : List Char).head? = some ',') from
          by simp)]
        rw [if_pos (show ((']' :: rest : List Char).head? = some ']') from
          rfl)]
        rfl
      | cons z zs =>
        rw [List.map_cons, List.map_cons, intercalate_cons_cons]
        rw [show (jsonStringifyL y ++ [','] ++
            List.intercalate [',']
              (jsonStringifyL z :: zs.map jsonStringifyL)) ++
            ']' :: rest =
          jsonStringifyL y ++ ',' ::
            (List.intercalate [',']
              (jsonStringifyL z :: zs.map jsonStringifyL) ++
              ']' :: rest) from by simp]
        rw [jsonPrint_skipWs]
        rw [hrt y (List.mem_cons_self y _) f
          (',' :: (List.intercalate [',']
            (jsonStringifyL z :: zs.map jsonStringifyL) ++ ']' :: rest))
          (by omega) ⟨by decide, by decide, by decide, by decide⟩]
        dsimp only
        rw [skipWs_cons_of _ (by decide)]
        rw [if_pos (show ((',' :: (List.intercalate [',']
            (jsonStringifyL z :: zs.map jsonStringifyL) ++
            ']' :: rest) : List Char).head? = some ',') from rfl)]
        rw [List.tail_cons]
        have ih2 := ih (by simp)
          (fun x hx => hrt x (List.mem_cons_of_mem y hx)) f
          (acc ++ [y]) rest (by omega)
        rw [List.map_cons] at ih2
        rw [ih2]
        simp

theorem jpMembers_rt :
    ∀ (fs : List (String × JSVal)), fs ≠ [] →
      (∀ kv ∈ fs, ∀ c ∈ kv.1.toList, printableAscii c = true) →
      (∀ kv ∈ fs, JPRT kv.2) →
      ∀ (f : Nat) (acc : List (String × JSVal)) (rest : List Char),
        jweightFields fs ≤ f →
        jpMembers f (List.intercalate [','] (fs.map
            (fun kv => jsonQuote kv.1.toList ++ ':' :: jsonStringifyL kv.2))
          ++ '}' :: rest) acc = some (.vobj (acc ++ fs), rest) := by
  intro fs
  induction fs with
  | nil => intro h; exact absurd rfl h
  | cons kv fs ih =>
    rcases kv with ⟨k, v⟩
    intro _ hk hrt f acc rest hw
    rw [jweightFields] at hw
    dsimp only at hw
    have hkp : ∀ c ∈ k.toList, printableAscii c = true :=
      hk (k, v) (List.mem_cons_self _ _)
    have hvrt : JPRT v := hrt (k, v) (List.mem_cons_self _ _)
    cases f with
    | zero =>
      exfalso
      omega
    | succ f =>
      rw [jpMembers]
      cases fs with
      | nil =>
        rw [jweightFields] at hw
        rw [List.map_cons, List.map_nil, intercalate_singleton]
        rw [show ((fun (kv : String × JSVal) =>
            jsonQuote kv.1.toList ++ ':' :: jsonStringifyL kv.2) (k, v) ++
            '}' :: rest) =
          '"' :: ((k.toList.map jsonEscapeChar).flatten ++
            '"' :: ':' :: (jsonStringifyL v ++ '}' :: rest)) from by
          dsimp only
          rw [jsonQuote]
          simp]
        rw [skipWs_cons_of _ (by decide)]
        rw [if_pos (show (('"' :: ((k.toList.map jsonEscapeChar).flatten ++
            '"' :: ':' :: (jsonStringifyL v ++ '}' :: rest)) :
            List Char).head? = some '"') from rfl)]
        rw [List.tail_cons]
        rw [jpStringChars_rt hkp (':' :: (jsonStringifyL v ++ '}' :: rest))]
        dsimp only
        rw [skipWs_cons_of _ (by decide)]
        rw [if_pos (show ((':' :: (jsonStringifyL v ++ '}' :: rest) :
            List Char).head? = some ':') from rfl)]
        rw [List.tail_cons, jsonPrint_skipWs]
        rw [hvrt f ('}' :: rest) (by omega)
          ⟨by decide, by decide, by decide, by decide⟩]
        dsimp only
        rw [skipWs_cons_of _ (by decide)]
        rw [if_neg (show ¬ (('}' :: rest : List Char).head? = some ',') from
          by simp)]
        rw [if_pos (show (('}' :: rest : List Char).head? = some '}') from
          rfl)]
        rw [List.tail_cons, asString_toList]
      | cons kv2 fs2 =>
        rw [List.map_cons, List.map_cons, intercalate_cons_cons]
        rw [show (((fun (kv : String × JSVal) =>
            jsonQuote kv.1.toList ++ ':' :: jsonStringifyL kv.2) (k, v) ++
            [','] ++
            List.intercalate [','] ((fun (kv : String × JSVal) =>
              jsonQuote kv.1.toList ++ ':' :: jsonStringifyL kv.2) kv2 ::
              fs2.map (fun kv =>
                jsonQuote kv.1.toList ++ ':' :: jsonStringifyL kv.2))) ++
            '}' :: rest) =
          '"' :: ((k.toList.map jsonEscapeChar).flatten ++
            '"' :: ':' :: (jsonStringifyL v ++
              ',' :: (List.intercalate [','] ((fun (kv : String × JSVal) =>
                jsonQuote kv.1.toList ++ ':' :: jsonStringifyL kv.2) kv2 ::
                fs2.map (fun kv =>
                  jsonQuote kv.1.toList ++ ':' :: jsonStringifyL kv.2)) ++
                '}' :: rest))) from by
          dsimp only
          rw [jsonQuote]
          simp]
        rw [skipWs_cons_of _ (by decide)]
        rw [if_pos (show (('"' :: ((k.toList.map jsonEscapeChar).flatten ++
            '"' :: ':' :: (jsonStringifyL v ++
              ',' :: (List.intercalate [','] ((fun (kv : String × JSVal) =>
                jsonQuote kv.1.toList ++ ':' :: jsonStringifyL kv.2) kv2 ::
                fs2.map (fun kv =>
                  jsonQuote kv.1.toList ++ ':' :: jsonStringifyL kv.2)) ++
                '}' :: rest))) : List Char).head? = some '"') from rfl)]
        rw [List.tail_cons]
        rw [jpStringChars_rt hkp]
        dsimp only
        rw [skipWs_cons_of _ (by decide)]
        rw [if_pos (show ((':' :: (jsonStringifyL v ++
            ',' :: (List.intercalate [','] ((fun (kv : String × JSVal) =>
              jsonQuote kv.1.toList ++ ':' :: jsonStringifyL kv.2) kv2 ::
              fs2.map (fun kv =>
                jsonQuote kv.1.toList ++ ':' :: jsonStringifyL kv.2)) ++
              '}' :: rest)) : List Char).head? = some ':') from rfl)]
        rw [List.tail_cons, jsonPrint_skipWs]
        rw [hvrt f
          (',' :: (List.intercalate [','] ((fun (kv : String × JSVal) =>
            jsonQuote kv.1.toList ++ ':' :: jsonStringifyL kv.2) kv2 ::
            fs2.map (fun kv =>
              jsonQuote kv.1.toList ++ ':' :: jsonStringifyL kv.2)) ++
            '}' :: rest))
          (by omega)
          ⟨by decide, by decide, by decide, by decide⟩]
        dsimp only
        rw [skipWs_cons_of _ (by decide)]
        rw [if_pos (show ((',' :: (List.intercalate [',']
            ((fun (kv : String × JSVal) =>
              jsonQuote kv.1.toList ++ ':' :: jsonStringifyL kv.2) kv2 ::
              fs2.map (fun kv =>
                jsonQuote kv.1.toList ++ ':' :: jsonStringifyL kv.2)) ++
            '}' :: rest) : List Char).head? = some ',') from rfl)]
        rw [List.tail_cons, asString_toList]
        have ih2 := ih (by simp)
          (fun x hx => hk x (List.mem_cons_of_mem _ hx))
          (fun x hx => hrt x (List.mem_cons_of_mem _ hx)) f
          (acc ++ [(k, v)]) rest (by omega)
        rw [List.map_cons] at ih2
        rw [ih2]
        simp

theorem jsonSafe_ne_undef {v : JSVal} (h : JsonSafe v) : v ≠ .vundef := by
  cases h <;> exact fun hco => nomatch hco

/-- Every printed JSON value starts with a character that is not
whitespace and closes no bracket. -/
theorem printedHead (x : JSVal) :
    ∃ c t, jsonStringifyL x = c :: t ∧ jsonWs c = false ∧
      c ≠ ']' ∧ c ≠ '}' := by
  cases x with
  | vstr s =>
    refine ⟨'"', (s.toList.map jsonEscapeChar).flatten ++ ['"'], ?_,
      by decide, by decide, by decide⟩
    rw [jsonStringifyL, jsonQuote]
    simp
  | vnum n =>
    cases hrep : intReprL n with
    | nil => exact absurd hrep (intReprL_ne_nil n)
    | cons d t =>
      have hd : d.isDigit = true ∨ d = '-' := by
        have : d ∈ intReprL n := by
          rw [hrep]; exact List.mem_cons_self d t
        exact intReprL_chars d this
      refine ⟨d, t, by rw [jsonStringifyL, hrep], ?_, ?_, ?_⟩
      · rcases hd with hd | hd
        · exact digit_not_jsonWs hd
        · subst hd; decide
      · rcases hd with hd | hd
        · exact digit_ne_char hd (by decide)
        · subst hd; decide
      · rcases hd with hd | hd
        · exact digit_ne_char hd (by decide)
        · subst hd; decide
  | vbool b =>
    cases b
    · exact ⟨'f', ['a', 'l', 's', 'e'], by rw [jsonStringifyL], by decide,
        by decide, by decide⟩
    · exact ⟨'t', ['r', 'u', 'e'], by rw [jsonStringifyL], by decide,
        by decide, by decide⟩
  | vnull =>
    exact ⟨'n', ['u', 'l', 'l'], by rw [jsonStringifyL], by decide,
      by decide, by decide⟩
  | vundef =>
    exact ⟨'n', ['u', 'l', 'l'], by rw [jsonStringifyL], by decide,
      by decide, by decide⟩
  | varr xs =>
    exact ⟨'[', List.intercalate [','] (jsonStringifyArr xs) ++ [']'],
      by rw [jsonStringifyL]; simp, by decide, by decide, by decide⟩
  | vobj fs =>
    exact ⟨'{', List.intercalate [','] (jsonStringifyObj fs) ++ ['}'],
      by rw [jsonStringifyL]; simp, by decide, by decide, by decide⟩

theorem jsonSafe_rt {v : JSVal} (h : JsonSafe v) : JPRT v := by
  induction h with
  | bool b => exact jprt_bool b
  | num n => exact jprt_num n
  | null => exact jprt_null
  | str s hs => exact jprt_str s hs
  | arr xs hxs ih =>
    intro fuel rest hf hg
    rw [jweight] at hf
    cases fuel with
    | zero =>
      exfalso
      omega
    | succ f =>
      rw [show jsonStringifyL (.varr xs) =
        '[' :: List.intercalate [','] (jsonStringifyArr xs) ++ [']'] from by
        rw [jsonStringifyL]]
      rw [jsonStringifyArr_eq]
      cases xs with
      | nil =>
        rw [show ('[' :: List.intercalate [',']
            (([] : List JSVal).map jsonStringifyL) ++ [']']) ++ rest =
          '[' :: ']' :: rest from by simp [List.intercalate]]
        rw [jpValue]
        rw [if_neg (by decide), if_pos rfl]
        rw [skipWs_cons_of _ (by decide)]
        rw [if_pos (show ((']' :: rest : List Char).head? = some ']') from
          rfl)]
        rw [List.tail_cons]
      | cons x xs2 =>
        obtain ⟨c, t, hxp, hcw, hcne, _⟩ := printedHead x
        have hT : ∃ T, List.intercalate [',']
            ((x :: xs2).map jsonStringifyL) = jsonStringifyL x ++ T := by
          cases xs2 with
          | nil => exact ⟨[], by simp [List.intercalate]⟩
          | cons z zs =>
            refine ⟨[','] ++ List.intercalate [',']
              ((z :: zs).map jsonStringifyL), ?_⟩
            rw [List.map_cons, List.map_cons, intercalate_cons_cons,
              List.append_assoc]
        obtain ⟨T, hT⟩ := hT
        rw [show ('[' :: List.intercalate [',']
            ((x :: xs2).map jsonStringifyL) ++ [']']) ++ rest =
          '[' :: (List.intercalate [','] ((x :: xs2).map jsonStringifyL) ++
            ']' :: rest) from by simp]
        rw [jpValue]
        rw [if_neg (by decide), if_pos rfl]
        rw [hT, hxp]
        rw [show ((c :: t) ++ T) ++ ']' :: rest =
          c :: ((t ++ T) ++ ']' :: rest) from by simp]
        rw [skipWs_cons_of _ hcw]
        rw [if_neg (show ¬ ((c :: ((t ++ T) ++ ']' :: rest) :
            List Char).head? = some ']') from by simp [hcne])]
        rw [show c :: ((t ++ T) ++ ']' :: rest) =
          (jsonStringifyL x ++ T) ++ ']' :: rest from by rw [hxp]; simp]
        rw [← hT]
        rw [jpElems_rt (x :: xs2) (by simp) ih f [] rest (by omega)]
        rw [List.nil_append]
  | obj fs hk hv ih =>
    intro fuel rest hf hg
    rw [jweight] at hf
    cases fuel with
    | zero =>
      exfalso
      omega
    | succ f =>
      rw [show jsonStringifyL (.vobj fs) =
        '{' :: List.intercalate [','] (jsonStringifyObj fs) ++ ['}'] from by
        rw [jsonStringifyL]]
      rw [jsonStringifyObj_eq fs
        (fun kv hkv => jsonSafe_ne_undef (hv kv hkv))]
      cases fs with
      | nil =>
        rw [show ('{' :: List.intercalate [',']
            (([] : List (String × JSVal)).map (fun kv =>
              jsonQuote kv.1.toList ++ ':' :: jsonStringifyL kv.2)) ++
            ['}']) ++ rest =
          '{' :: '}' :: rest from by simp [List.intercalate]]
        rw [jpValue]
        rw [if_neg (by decide), if_neg (by decide), if_pos rfl]
        rw [skipWs_cons_of _ (by decide)]
        rw [if_pos (show (('}' :: rest : List Char).head? = some '}') from
          rfl)]
        rw [List.tail_cons]
      | cons kv fs2 =>
        rcases kv with ⟨k, v0⟩
        have hT : ∃ T, List.intercalate [',']
            (((k, v0) :: fs2).map (fun kv =>
              jsonQuote kv.1.toList ++ ':' :: jsonStringifyL kv.2)) =
            '"' :: ((k.toList.map jsonEscapeChar).flatten ++
              ('"' :: ':' :: jsonStringifyL v0) ++ T) := by
          cases fs2 with
          | nil =>
            refine ⟨[], ?_⟩
            rw [List.map_cons, List.map_nil, intercalate_singleton]
            dsimp only
            rw [jsonQuote]
            simp
          | cons kv2 fs3 =>
            refine ⟨[','] ++ List.intercalate [',']
              (((kv2 :: fs3)).map (fun kv =>
                jsonQuote kv.1.toList ++ ':' :: jsonStringifyL kv.2)), ?_⟩
            rw [List.map_cons, List.map_cons, intercalate_cons_cons]
            dsimp only
            rw [jsonQuote]
            simp
        obtain ⟨T, hT⟩ := hT
        rw [show ('{' :: List.intercalate [',']
            (((k, v0) :: fs2).map (fun kv =>
              jsonQuote kv.1.toList ++ ':' :: jsonStringifyL kv.2)) ++
            ['}']) ++ rest =
          '{' :: (List.intercalate [','] (((k, v0) :: fs2).map (fun kv =>
            jsonQuote kv.1.toList ++ ':' :: jsonStringifyL kv.2)) ++
            '}' :: rest) from by simp]
        rw [jpValue]
        rw [if_neg (by decide), if_neg (by decide), if_pos rfl]
        rw [hT]
        rw [show ('"' :: ((k.toList.map jsonEscapeChar).flatten ++
            ('"' :: ':' :: jsonStringifyL v0) ++ T)) ++ '}' :: rest =
          '"' :: (((k.toList.map jsonEscapeChar).flatten ++
            ('"' :: ':' :: jsonStringifyL v0) ++ T) ++ '}' :: rest)
          from by simp]
        rw [skipWs_cons_of _ (by decide)]
        rw [if_neg (show ¬ (('"' :: (((k.toList.map jsonEscapeChar).flatten
            ++ ('"' :: ':' :: jsonStringifyL v0) ++ T) ++ '}' :: rest) :
            List Char).head? = some '}') from by simp)]
        rw [show '"' :: (((k.toList.map jsonEscapeChar).flatten ++
            ('"' :: ':' :: jsonStringifyL v0) ++ T) ++ '}' :: rest) =
          ('"' :: ((k.toList.map jsonEscapeChar).flatten ++
            ('"' :: ':' :: jsonStringifyL v0) ++ T)) ++ '}' :: rest
          from by simp]
        rw [← hT]
        rw [jpMembers_rt ((k, v0) :: fs2) (by simp) hk ih f [] rest
          (by omega)]
        rw [List.nil_append]

theorem jwl_le (xs : List JSVal)
    (h : ∀ x ∈ xs, jweight x ≤ (jsonStringifyL x).length) : xs ≠ [] →
    jweightList xs ≤
      (List.intercalate [','] (xs.map jsonStringifyL)).length + 1 := by
  induction xs with
  | nil => intro hco; exact absurd rfl hco
  | cons x xs ih =>
    intro _
    have hx := h x (List.mem_cons_self x xs)
    rw [jweightList]
    cases xs with
    | nil =>
      rw [List.map_cons, List.map_nil, intercalate_singleton, jweightList]
      omega
    | cons z zs =>
      have ihz := ih (fun y hy => h y (List.mem_cons_of_mem x hy)) (by simp)
      rw [List.map_cons, List.map_cons, intercalate_cons_cons]
      rw [List.map_cons] at ihz
      simp only [List.length_append]
      simp only [List.length_cons, List.length_nil] at ihz ⊢
      omega

theorem jwf_le (fs : List (String × JSVal))
    (h : ∀ kv ∈ fs, jweight kv.2 ≤ (jsonStringifyL kv.2).length) :
    fs ≠ [] →
    jweightFields fs ≤ (List.intercalate [','] (fs.map
      (fun kv => jsonQuote kv.1.toList ++ ':' :: jsonStringifyL kv.2))
      ).length + 1 := by
  induction fs with
  | nil => intro hco; exact absurd rfl hco
  | cons kv fs ih =>
    intro _
    have hx := h kv (List.mem_cons_self kv fs)
    rw [jweightFields]
    cases fs with
    | nil =>
      rw [List.map_cons, List.map_nil, intercalate_singleton, jweightFields]
      simp only [List.length_append, List.length_cons]
      omega
    | cons kv2 fs2 =>
      have ihz := ih (fun y hy => h y (List.mem_cons_of_mem kv hy)) (by simp)
      rw [List.map_cons, List.map_cons, intercalate_cons_cons]
      rw [List.map_cons] at ihz
      simp only [List.length_append, List.length_cons, List.length_nil]
        at ihz ⊢
      omega

theorem jweight_le {v : JSVal} (h : JsonSafe v) :
    jweight v ≤ (jsonStringifyL v).length := by
  induction h with
  | bool b =>
    rw [jweight]
    cases b <;> rw [jsonStringifyL] <;> simp
  | num n =>
    rw [jweight, jsonStringifyL]
    have := intReprL_ne_nil n
    cases hrep : intReprL n with
    | nil => exact absurd hrep this
    | cons c t => simp
  | null =>
    rw [jweight, jsonStringifyL]
    simp
  | str s hs =>
    rw [jweight, jsonStringifyL, jsonQuote]
    simp
  | arr xs hxs ih =>
    rw [jweight, jsonStringifyL, jsonStringifyArr_eq]
    cases xs with
    | nil =>
      rw [jweightList]
      simp [List.intercalate]
    | cons x xs2 =>
      have := jwl_le (x :: xs2) ih (by simp)
      simp only [List.length_append, List.length_cons] at this ⊢
      omega
  | obj fs hk hv ih =>
    rw [jweight, jsonStringifyL,
      jsonStringifyObj_eq fs (fun kv hkv => jsonSafe_ne_undef (hv kv hkv))]
    cases fs with
    | nil =>
      rw [jweightFields]
      simp [List.intercalate]
    | cons kv fs2 =>
      have := jwf_le (kv :: fs2) ih (by simp)
      simp only [List.length_append, List.length_cons] at this ⊢
      omega

/-- `JSON.parse` inverts `JSON.stringify` on the safe value space. -/
theorem jsonParse_print {v : JSVal} (h : JsonSafe v) :
    jsonParse (jsonStringifyL v).asString = .ok v := by
  have hrt := jsonSafe_rt h ((jsonStringifyL v).length + 1) []
    (by have := jweight_le h; omega) trivial
  rw [List.append_nil] at hrt
  rw [jsonParse]
  rw [show ((jsonStringifyL v).asString).toList = jsonStringifyL v from rfl]
  have hsk := jsonPrint_skipWs v []
  rw [List.append_nil] at hsk
  rw [hsk]
  rw [show ((jsonStringifyL v).asString).length = (jsonStringifyL v).length
    from rfl]
  rw [hrt]
  rfl

theorem char_toNat_lt (c : Char) : c.toNat < 1114112 := by
  have h := c.valid
  simp only [UInt32.isValidChar, Nat.isValidChar] at h
  rcases h with h | ⟨_, h⟩
  · exact Nat.lt_trans h (by decide)
  · exact h

theorem utf8Bytes_lt256 (c : Char) : ∀ b ∈ utf8Bytes c, b < 256 := by
  have hv := char_toNat_lt c
  intro b hb
  rw [utf8Bytes] at hb
  split at hb
  · next h =>
    simp only [List.mem_singleton] at hb
    omega
  · split at hb
    · next h =>
      simp only [List.mem_cons, List.mem_singleton, List.not_mem_nil,
        or_false] at hb
      rcases hb with hb | hb <;> omega
    · split at hb
      · next h =>
        simp only [List.mem_cons, List.mem_singleton, List.not_mem_nil,
          or_false] at hb
        rcases hb with hb | hb | hb <;> omega
      · next h =>
        simp only [List.mem_cons, List.mem_singleton, List.not_mem_nil,
          or_false] at hb
        rcases hb with hb | hb | hb | hb <;> omega

theorem hexDigitUpper_unreserved {n : Nat} (h : n < 16) :
    isUnreservedURI (hexDigitUpper n) = true := by
  have hall : ∀ m < 16, isUnreservedURI (hexDigitUpper m) = true := by
    decide
  exact hall n h

/-- Every character `encodeURIComponent` emits is unreserved or `%`. -/
theorem encodeURIComponentL_chars {cs : List Char} :
    ∀ c ∈ encodeURIComponentL cs, isUnreservedURI c = true ∨ c = '%' := by
  induction cs with
  | nil => intro c hc; exact absurd hc (by simp [encodeURIComponentL])
  | cons x rest ih =>
    intro c hc
    rw [encodeURIComponentL_cons] at hc
    rcases List.mem_append.1 hc with hc | hc
    · by_cases hu : isUnreservedURI x = true
      · rw [if_pos hu] at hc
        simp only [List.mem_singleton] at hc
        subst hc
        exact Or.inl hu
      · rw [if_neg hu] at hc
        rcases List.mem_flatten.1 hc with ⟨piece, hp, hcp⟩
        rcases List.mem_map.1 hp with ⟨b, hbm, rfl⟩
        have hb := utf8Bytes_lt256 x b hbm
        rw [pctEncodeByte] at hcp
        simp only [List.mem_cons, List.mem_singleton, List.not_mem_nil,
          or_false] at hcp
        rcases hcp with hcp | hcp | hcp
        · exact Or.inr hcp
        · subst hcp
          exact Or.inl (hexDigitUpper_unreserved (by omega))
        · subst hcp
          exact Or.inl (hexDigitUpper_unreserved (by omega))
    · exact ih c hc

theorem mem_intercalate {sep : List Char} {l : List (List Char)} {c : Char}
    (h : c ∈ List.intercalate sep l) : c ∈ sep ∨ ∃ p ∈ l, c ∈ p := by
  induction l with
  | nil =>
    exfalso
    simp [List.intercalate] at h
  | cons a l ih =>
    cases l with
    | nil =>
      rw [intercalate_singleton] at h
      exact Or.inr ⟨a, List.mem_cons_self a [], h⟩
    | cons b l2 =>
      rw [intercalate_cons_cons] at h
      rcases List.mem_append.1 h with h1 | h1
      · rcases List.mem_append.1 h1 with h2 | h2
        · exact Or.inr ⟨a, List.mem_cons_self a _, h2⟩
        · exact Or.inl h2
      · rcases ih h1 with h2 | ⟨p, hp, hcp⟩
        · exact Or.inl h2
        · exact Or.inr ⟨p, List.mem_cons_of_mem a hp, hcp⟩

/-- Every character of a printed safe value is printable ASCII. -/
theorem printed_printable {v : JSVal} (h : JsonSafe v) :
    ∀ c ∈ jsonStringifyL v, printableAscii c = true := by
  induction h with
  | bool b =>
    intro c hc
    cases b <;> rw [jsonStringifyL] at hc <;>
      (simp only [List.mem_cons, List.not_mem_nil, or_false] at hc;
       casesm* _ ∨ _ <;> subst_vars <;> decide)
  | num n =>
    intro c hc
    rw [jsonStringifyL] at hc
    rcases intReprL_chars c hc with hd | hd
    · obtain ⟨h1, h2⟩ := digit_toNat hd
      simp only [printableAscii, Bool.and_eq_true, decide_eq_true_eq]
      omega
    · subst hd; decide
  | null =>
    intro c hc
    rw [jsonStringifyL] at hc
    simp only [List.mem_cons, List.not_mem_nil, or_false] at hc
    casesm* _ ∨ _ <;> subst_vars <;> decide
  | str s hs =>
    intro c hc
    rw [jsonStringifyL, jsonQuote] at hc
    simp only [List.mem_cons, List.mem_append, List.mem_singleton,
      List.not_mem_nil, or_false, or_assoc] at hc
    rcases hc with hc | hc | hc
    · subst hc; decide
    · rcases List.mem_flatten.1 hc with ⟨piece, hp, hcp⟩
      rcases List.mem_map.1 hp with ⟨x, hxm, rfl⟩
      have hx := hs x hxm
      by_cases hq : x = '"'
      · subst hq
        rw [show jsonEscapeChar '"' = ['\\', '"'] from rfl] at hcp
        simp only [List.mem_cons, List.not_mem_nil, or_false] at hcp
        casesm* _ ∨ _ <;> subst_vars <;> decide
      · by_cases hb : x = '\\'
        · subst hb
          rw [show jsonEscapeChar '\\' = ['\\', '\\'] from rfl] at hcp
          simp only [List.mem_cons, List.not_mem_nil, or_false] at hcp
          casesm* _ ∨ _ <;> subst_vars <;> decide
        · rw [jsonEscapeChar_printable hx hq hb] at hcp
          simp only [List.mem_singleton] at hcp
          subst hcp
          exact hx
    · subst hc; decide
  | arr xs hxs ih =>
    intro c hc
    rw [jsonStringifyL, jsonStringifyArr_eq] at hc
    simp only [List.mem_cons, List.mem_append, List.mem_singleton,
      List.not_mem_nil, or_false, or_assoc] at hc
    rcases hc with hc | hc | hc
    · subst hc; decide
    · rcases mem_intercalate hc with hc | ⟨p, hp, hcp⟩
      · simp only [List.mem_singleton] at hc
        subst hc; decide
      · rcases List.mem_map.1 hp with ⟨x, hxm, rfl⟩
        exact ih x hxm c hcp
    · subst hc; decide
  | obj fs hk hv ih =>
    intro c hc
    rw [jsonStringifyL, jsonStringifyObj_eq fs
      (fun kv hkv => jsonSafe_ne_undef (hv kv hkv))] at hc
    simp only [List.mem_cons, List.mem_append, List.mem_singleton,
      List.not_mem_nil, or_false, or_assoc] at hc
    rcases hc with hc | hc | hc
    · subst hc; decide
    · rcases mem_intercalate hc with hc | ⟨p, hp, hcp⟩
      · simp only [List.mem_singleton] at hc
        subst hc; decide
      · rcases List.mem_map.1 hp with ⟨kv, hkvm, rfl⟩
        simp only [List.mem_append, List.mem_cons] at hcp
        rcases hcp with hcp | hcp | hcp
        · rw [jsonQuote] at hcp
          simp only [List.mem_cons, List.mem_append, List.mem_singleton,
            List.not_mem_nil, or_false, or_assoc] at hcp
          rcases hcp with hcp | hcp | hcp
          · subst hcp; decide
          · rcases List.mem_flatten.1 hcp with ⟨piece, hp2, hcp2⟩
            rcases List.mem_map.1 hp2 with ⟨x, hxm, rfl⟩
            have hx := hk kv hkvm x hxm
            by_cases hq : x = '"'
            · subst hq
              rw [show jsonEscapeChar '"' = ['\\', '"'] from rfl] at hcp2
              simp only [List.mem_cons, List.not_mem_nil, or_false] at hcp2
              casesm* _ ∨ _ <;> subst_vars <;> decide
            · by_cases hb : x = '\\'
              · subst hb
                rw [show jsonEscapeChar '\\' = ['\\', '\\'] from rfl] at hcp2
                simp only [List.mem_cons, List.not_mem_nil, or_false] at hcp2
                casesm* _ ∨ _ <;> subst_vars <;> decide
              · rw [jsonEscapeChar_printable hx hq hb] at hcp2
                simp only [List.mem_singleton] at hcp2
                subst hcp2
                exact hx
          · subst hcp; decide
        · subst hcp; decide
        · exact ih kv hkvm c hcp
    · subst hc; decide

theorem strInert_props {s : String} {c : Char} {t : List Char}
    (hcs : s.toList = c :: t) (h : strInert s = true) :
    (∀ x ∈ c :: t, printableAscii x = true) ∧
    coercibleStart c = false ∧
    jsTrim (c :: t) ≠ ['t', 'r', 'u', 'e'] ∧
    jsTrim (c :: t) ≠ ['f', 'a', 'l', 's', 'e'] ∧
    jsTrim (c :: t) ≠ ['n', 'u', 'l', 'l'] := by
  rw [strInert, hcs] at h
  simp only [Bool.and_eq_true, List.all_eq_true, Bool.not_eq_true',
    decide_eq_false_iff_not] at h
  obtain ⟨h1, ⟨⟨⟨⟨ha, hb⟩, hc⟩, hd⟩, he⟩⟩ := h
  exact ⟨h1, ha, hb, hc, hd⟩

theorem coercibleStart_props {c : Char} (h : coercibleStart c = false) :
    c.isDigit = false ∧ c ≠ '-' ∧ c ≠ '+' ∧ jsWhitespace c = false := by
  simp only [coercibleStart, Bool.or_eq_false_iff,
    decide_eq_false_iff_not] at h
  exact ⟨h.1.1.1.1.1.1.1, h.1.1.1.1.1.1.2, h.1.1.1.1.1.2, h.1.1.1.2⟩

theorem string_of_toList_nil {s : String} (h : s.toList = []) : s = "" := by
  cases s with
  | mk data =>
    simp [String.toList] at h
    simp [h]

/-- `toValue` recovers exactly `decodedOf v` from the URI-encoded coerced
text of a preprocessed safe value. -/
theorem toValue_stage {v : JSVal} (h : SafeVal v) :
    toValue (some (encodeURIComponentL (jsToStringL (stage1 v)))) =
      .ok (decodedOf v) := by
  cases h with
  | bool b => cases b <;> rfl
  | null => rfl
  | num n => exact toValue_int n
  | str s hsi =>
    cases hcs : s.toList with
    | nil =>
      have hs0 : s = "" := string_of_toList_nil hcs
      subst hs0
      rfl
    | cons c t =>
      obtain ⟨hpr, hco, htr, hfa, hnu⟩ := strInert_props hcs hsi
      obtain ⟨hd, hm, hp, hw⟩ := coercibleStart_props hco
      rw [show jsToStringL (stage1 (.vstr s)) = s.toList from rfl, hcs]
      rw [toValue_keeps (fun x hx => printable_lt128 (hpr x hx))
        (fun he => hfa (by rw [he]; decide))
        (fun he => htr (by rw [he]; decide)) hd hm hp hw]
      rw [← hcs, asString_toList]
      rfl
  | arr xs hxs =>
    have hxp : jsonStringifyL (.varr xs) =
        '[' :: (List.intercalate [','] (jsonStringifyArr xs) ++ [']']) := by
      rw [jsonStringifyL, List.cons_append]
    have hpr := printed_printable (JsonSafe.arr xs hxs)
    rw [hxp] at hpr
    rw [show jsToStringL (stage1 (.varr xs)) = jsonStringifyL (.varr xs)
      from rfl]
    rw [hxp]
    rw [toValue_keeps (fun x hx => printable_lt128 (hpr x hx))
      (fun he => by injection he with h1 _; exact absurd h1 (by decide))
      (fun he => by injection he with h1 _; exact absurd h1 (by decide))
      (by decide) (by decide) (by decide) (by decide)]
    rw [← hxp]
    rfl
  | obj fs hk hv =>
    have hxp : jsonStringifyL (.vobj fs) =
        '{' :: (List.intercalate [','] (jsonStringifyObj fs) ++ ['}']) := by
      rw [jsonStringifyL, List.cons_append]
    have hpr := printed_printable (JsonSafe.obj fs hk hv)
    rw [hxp] at hpr
    rw [show jsToStringL (stage1 (.vobj fs)) = jsonStringifyL (.vobj fs)
      from rfl]
    rw [hxp]
    rw [toValue_keeps (fun x hx => printable_lt128 (hpr x hx))
      (fun he => by injection he with h1 _; exact absurd h1 (by decide))
      (fun he => by injection he with h1 _; exact absurd h1 (by decide))
      (by decide) (by decide) (by decide) (by decide)]
    rw [← hxp]
    rfl

theorem safeVal_ne_undef {v : JSVal} (h : SafeVal v) : v ≠ .vundef := by
  cases h <;> exact fun hco => nomatch hco

theorem stage1_scalarShape {v : JSVal} (h : SafeVal v) :
    scalarShape (stage1 v) = true := by
  cases h <;> rfl

/-- `encode` on entries it serialises through the generic branch is the
`&`-joined list of `k=v` pieces. -/
theorem encode_scalar (o : List (String × JSVal))
    (h : ∀ kv ∈ o, scalarShape kv.2 = true) :
    encode o = joinSep '&' (o.map pieceOf) := by
  rw [encode]
  set F := (fun (str : List Char) (kv : String × JSVal) =>
      match kv.2 with
      | JSVal.vundef => str
      | JSVal.varr xs =>
          xs.foldl
            (fun str item =>
              (if str = [] then str else str ++ ['&']) ++
                encodeURIComponentL kv.1.toList ++
                '=' :: encodeURIComponentL (jsToStringL item)) str
      | v =>
          (if str = [] then str else str ++ ['&']) ++
            encodeURIComponentL kv.1.toList ++
            '=' :: encodeURIComponentL (jsToStringL v)) with hFdef
  have hF : ∀ (acc : List Char) (kv : String × JSVal),
      scalarShape kv.2 = true →
      F acc kv = (if acc = [] then acc else acc ++ ['&']) ++ pieceOf kv := by
    intro acc kv hkv
    rw [hFdef]
    rcases kv with ⟨k, v⟩
    match v with
    | .vbool b => simp [pieceOf]
    | .vnum n => simp [pieceOf]
    | .vstr s => simp [pieceOf]
    | .vnull => simp [pieceOf]
    | .vobj fs => simp [pieceOf]
    | .vundef => simp [scalarShape] at hkv
    | .varr xs => simp [scalarShape] at hkv
  cases o with
  | nil => rfl
  | cons kv rest =>
    rw [List.foldl_cons,
      hF [] kv (h kv (List.mem_cons_self kv rest)), if_pos rfl,
      List.nil_append]
    rw [foldl_amp F (fun kv => scalarShape kv.2 = true) hF rest (pieceOf kv)
      (fun x hx => h x (List.mem_cons_of_mem kv hx))
      (by rcases kv with ⟨k, v⟩; exact piece_ne_nil k v)]
    rw [List.map_cons, joinSep_cons_flatten, List.map_map]
    rfl

theorem enc_ne_char {cs : List Char} {d : Char}
    (hd : isUnreservedURI d = false) (hp : d ≠ '%') :
    ∀ c ∈ encodeURIComponentL cs, c ≠ d := by
  intro c hc
  rcases encodeURIComponentL_chars c hc with h | h
  · exact unreserved_ne_of_not h hd
  · subst h
    exact fun he => hp he.symm

theorem safeKeyU_props {k : String} (h : safeKeyU k = true) :
    k ≠ "" ∧ ∀ c ∈ k.toList, isUnreservedURI c = true := by
  simp only [safeKeyU, Bool.and_eq_true, decide_eq_true_eq,
    List.all_eq_true] at h
  exact h

/-- The `&`-free `k=v` pieces of the staged entries decode back to the
`decodedOf` image of the original entries, in order. -/
theorem decodeQGo_stage :
    ∀ (o acc : List (String × JSVal)),
      (o.map Prod.fst).Nodup →
      (∀ kv ∈ o, safeKeyU kv.1 = true ∧ SafeVal kv.2) →
      (∀ kv ∈ o, kv.1 ∉ acc.map Prod.fst) →
      decodeQGo ((o.map (fun kv => (kv.1, stage1 kv.2))).map pieceOf) acc
        = .ok (acc ++ o.map (fun kv => (kv.1, decodedOf kv.2))) := by
  intro o
  induction o with
  | nil => intro acc _ _ _; simp [decodeQGo]
  | cons kv0 rest ih =>
    intro acc hnd hall hdisj
    rcases kv0 with ⟨k, v⟩
    obtain ⟨hk, hv⟩ := hall (k, v) (List.mem_cons_self _ _)
    obtain ⟨hkne, hku⟩ := safeKeyU_props hk
    have hkid : encodeURIComponentL k.toList = k.toList :=
      encodeURIComponentL_id hku
    have hsplit : splitOnChar '=' (pieceOf (k, stage1 v)) =
        [encodeURIComponentL k.toList,
          encodeURIComponentL (jsToStringL (stage1 v))] := by
      apply splitOnChar_pair
      · exact enc_ne_char (by decide) (by decide)
      · exact enc_ne_char (by decide) (by decide)
    rw [List.map_cons, List.map_cons]
    dsimp only
    rw [decodeQGo, if_neg (piece_ne_nil k (stage1 v)), hsplit]
    rw [show ([encodeURIComponentL k.toList,
        encodeURIComponentL (jsToStringL (stage1 v))].get? 1) =
      some (encodeURIComponentL (jsToStringL (stage1 v))) from rfl]
    rw [toValue_stage hv]
    rw [show ([encodeURIComponentL k.toList,
        encodeURIComponentL (jsToStringL (stage1 v))].head?.getD []) =
      encodeURIComponentL k.toList from rfl]
    rw [hkid, asString_toList]
    show decodeQGo ((rest.map (fun kv => (kv.1, stage1 kv.2))).map pieceOf)
        (insertOrConcat acc k (decodedOf v)) = _
    rw [@insertOrConcat_fresh acc k (decodedOf v)
      (hdisj (k, v) (List.mem_cons_self _ _))]
    simp only [List.map_cons, List.nodup_cons] at hnd
    have ihres := ih (acc ++ [(k, decodedOf v)]) hnd.2
      (fun kv hkv => hall kv (List.mem_cons_of_mem _ hkv)) ?fresh
    · rw [ihres]
      simp
    case fresh =>
      intro kv hkv
      simp only [List.map_append, List.mem_append]
      rintro (hin | hin)
      · exact hdisj kv (List.mem_cons_of_mem _ hkv) hin
      · simp only [List.map_cons, List.map_nil, List.mem_singleton] at hin
        apply hnd.1
        rw [← hin]
        exact List.mem_map.2 ⟨kv, hkv, rfl⟩

theorem filterMap_stage1 :
    ∀ (o : List (String × JSVal)), (∀ kv ∈ o, kv.2 ≠ JSVal.vundef) →
      (o.filterMap (fun kv =>
        match kv.2 with
        | JSVal.vundef => none
        | JSVal.varr xs =>
            some (kv.1, JSVal.vstr (jsonStringifyL (.varr xs)).asString)
        | JSVal.vobj fs =>
            some (kv.1, JSVal.vstr (jsonStringifyL (.vobj fs)).asString)
        | v => some (kv.1, v))) =
      o.map (fun kv => (kv.1, stage1 kv.2)) := by
  intro o
  induction o with
  | nil => intro _; rfl
  | cons kv rest ih =>
    intro hall
    have hv := hall kv (List.mem_cons_self kv rest)
    have hrest := ih (fun x hx => hall x (List.mem_cons_of_mem kv hx))
    rcases kv with ⟨k, v⟩
    match v with
    | .vbool b => simpa [List.filterMap_cons, stage1] using hrest
    | .vnum n => simpa [List.filterMap_cons, stage1] using hrest
    | .vstr s => simpa [List.filterMap_cons, stage1] using hrest
    | .vnull => simpa [List.filterMap_cons, stage1] using hrest
    | .varr xs => simpa [List.filterMap_cons, stage1] using hrest
    | .vobj fs => simpa [List.filterMap_cons, stage1] using hrest
    | .vundef => exact absurd rfl hv

theorem passEntry {v : JSVal} (k : String) (h : SafeVal v) :
    (match decodedOf v with
      | JSVal.vstr str =>
          (match jsonParse str with
            | .ok parsed => (k, parsed)
            | .error _ => (k, JSVal.vstr str))
      | w => (k, w)) = (k, v) := by
  cases h with
  | bool b => rfl
  | null => rfl
  | num n =>
    by_cases h0 : n = 0
    · subst h0
      rfl
    · have hd : decodedOf (.vnum n) = .vnum n := by
        rw [decodedOf, if_neg h0]
      rw [hd]
  | str s hsi =>
    rw [show decodedOf (.vstr s) = .vstr s from rfl]
    dsimp only
    cases hcs : s.toList with
    | nil =>
      have hs0 : s = "" := string_of_toList_nil hcs
      subst hs0
      rfl
    | cons c t =>
      obtain ⟨hpr, hco, htr, hfa, hnu⟩ := strInert_props hcs hsi
      rw [jsonParse_inert s hcs hco htr hfa hnu]
  | arr xs hxs =>
    rw [show decodedOf (.varr xs) =
      .vstr (jsonStringifyL (.varr xs)).asString from rfl]
    dsimp only
    rw [jsonParse_print (JsonSafe.arr xs hxs)]
  | obj fs hok hov =>
    rw [show decodedOf (.vobj fs) =
      .vstr (jsonStringifyL (.vobj fs)).asString from rfl]
    dsimp only
    rw [jsonParse_print (JsonSafe.obj fs hok hov)]

theorem jsonPass_stage :
    ∀ (o : List (String × JSVal)), (∀ kv ∈ o, SafeVal kv.2) →
      ((o.map (fun kv => (kv.1, decodedOf kv.2))).map
        (fun kv =>
          match kv.2 with
          | JSVal.vstr str =>
              (match jsonParse str with
                | .ok parsed => (kv.1, parsed)
                | .error _ => (kv.1, JSVal.vstr str))
          | v => (kv.1, v))) = o := by
  intro o
  induction o with
  | nil => intro _; rfl
  | cons kv rest ih =>
    intro hall
    have hv := hall kv (List.mem_cons_self kv rest)
    have hrest := ih (fun x hx => hall x (List.mem_cons_of_mem kv hx))
    rcases kv with ⟨k, v⟩
    rw [List.map_cons, List.map_cons]
    dsimp only
    rw [passEntry k hv, hrest]

/-- C3 (amended): the codec round-trip `parseSearch (stringifySearch o) = o`
holds on a fragment covering all the claimed value shapes — booleans, all
integers (`0` decodes to the string `"0"` by the leading-zero heuristic
but the `JSON.parse` pass restores the number), `null`, arrays and nested
objects of such values and printable-ASCII strings (restored from their
embedded-JSON text), and printable-ASCII strings that no heuristic can
touch (first character starts neither a number, whitespace nor a JSON
value; not a JSON keyword or `Infinity` modulo trailing whitespace) —
under duplicate-free nonempty unreserved-character keys (`decode` never
URI-decodes keys).  Outside the fragment the heuristics do change values:
see the counterexample, where the string `"0"` comes back as the number
`0`. -/
theorem c3_roundtrip_safe (o : List (String × JSVal)) (h : SafeSearch o) :
    parseSearch (stringifySearch o) = .ok o := by
  obtain ⟨hnd, hall⟩ := h
  cases o with
  | nil => rfl
  | cons kv0 rest0 =>
    have hfm : (kv0 :: rest0).filterMap
        (fun kv =>
          match kv.2 with
          | JSVal.vundef => none
          | JSVal.varr xs =>
              some (kv.1, JSVal.vstr (jsonStringifyL (.varr xs)).asString)
          | JSVal.vobj fs =>
              some (kv.1, JSVal.vstr (jsonStringifyL (.vobj fs)).asString)
          | v => some (kv.1, v)) =
        (kv0 :: rest0).map (fun kv => (kv.1, stage1 kv.2)) :=
      filterMap_stage1 _ (fun kv hkv => safeVal_ne_undef (hall kv hkv).2)
    have hscal : ∀ kv ∈ (kv0 :: rest0).map (fun kv => (kv.1, stage1 kv.2)),
        scalarShape kv.2 = true := by
      intro kv hkv
      rcases List.mem_map.1 hkv with ⟨x, hx, rfl⟩
      exact stage1_scalarShape (hall x hx).2
    have hJ : joinSep '&'
        (((kv0 :: rest0).map (fun kv => (kv.1, stage1 kv.2))).map pieceOf)
        ≠ [] := by
      rw [List.map_cons, List.map_cons, joinSep_cons_flatten]
      rcases kv0 with ⟨k, v⟩
      dsimp only
      simp [pieceOf]
    have hstr : stringifySearch (kv0 :: rest0) =
        ('?' :: joinSep '&' (((kv0 :: rest0).map
          (fun kv => (kv.1, stage1 kv.2))).map pieceOf)).asString := by
      rw [stringifySearch, hfm, encode_scalar _ hscal, if_neg hJ]
    have hamp : ∀ p ∈ ((kv0 :: rest0).map
        (fun kv => (kv.1, stage1 kv.2))).map pieceOf, ∀ c ∈ p, c ≠ '&' := by
      intro p hp c hc
      rcases List.mem_map.1 hp with ⟨kv, hkv, rfl⟩
      rw [pieceOf] at hc
      rcases List.mem_append.1 hc with hc | hc
      · exact enc_ne_char (by decide) (by decide) c hc
      · rcases List.mem_cons.1 hc with hc | hc
        · subst hc; decide
        · exact enc_ne_char (by decide) (by decide) c hc
    have hdec : decode (joinSep '&' (((kv0 :: rest0).map
        (fun kv => (kv.1, stage1 kv.2))).map pieceOf)) =
        .ok ([] ++ (kv0 :: rest0).map (fun kv => (kv.1, decodedOf kv.2)))
        := by
      rw [decode, splitOnChar_joinSep (by simp) hamp]
      exact decodeQGo_stage (kv0 :: rest0) [] hnd hall (by simp)
    rw [hstr, parseSearch_qmark, hdec]
    dsimp only
    rw [List.nil_append]
    rw [jsonPass_stage _ (fun kv hkv => (hall kv hkv).2)]

theorem c3_roundtrip_safe_witness :
    SafeSearch [("arr", JSVal.varr [JSVal.vnum 1, JSVal.vstr "Two",
        JSVal.vbool false, JSVal.vnull]),
      ("obj", JSVal.vobj [("x", JSVal.vnum 0), ("s", JSVal.vstr "A b")]),
      ("zero", JSVal.vnum 0), ("neg", JSVal.vnum (-5)),
      ("word", JSVal.vstr "Hello"), ("flag", JSVal.vbool true),
      ("empty", JSVal.vstr ""), ("nil", JSVal.vnull)] ∧
    parseSearch (stringifySearch [("arr", JSVal.varr [JSVal.vnum 1,
        JSVal.vstr "Two", JSVal.vbool false, JSVal.vnull]),
      ("obj", JSVal.vobj [("x", JSVal.vnum 0), ("s", JSVal.vstr "A b")]),
      ("zero", JSVal.vnum 0), ("neg", JSVal.vnum (-5)),
      ("word", JSVal.vstr "Hello"), ("flag", JSVal.vbool true),
      ("empty", JSVal.vstr ""), ("nil", JSVal.vnull)]) =
      .ok [("arr", JSVal.varr [JSVal.vnum 1, JSVal.vstr "Two",
        JSVal.vbool false, JSVal.vnull]),
      ("obj", JSVal.vobj [("x", JSVal.vnum 0), ("s", JSVal.vstr "A b")]),
      ("zero", JSVal.vnum 0), ("neg", JSVal.vnum (-5)),
      ("word", JSVal.vstr "Hello"), ("flag", JSVal.vbool true),
      ("empty", JSVal.vstr ""), ("nil", JSVal.vnull)] := by
  have hs : SafeSearch [("arr", JSVal.varr [JSVal.vnum 1, JSVal.vstr "Two",
        JSVal.vbool false, JSVal.vnull]),
      ("obj", JSVal.vobj [("x", JSVal.vnum 0), ("s", JSVal.vstr "A b")]),
      ("zero", JSVal.vnum 0), ("neg", JSVal.vnum (-5)),
      ("word", JSVal.vstr "Hello"), ("flag", JSVal.vbool true),
      ("empty", JSVal.vstr ""), ("nil", JSVal.vnull)] := by
    constructor
    · decide
    · intro kv hkv
      simp only [List.mem_cons, List.not_mem_nil, or_false] at hkv
      rcases hkv with rfl | rfl | rfl | rfl | rfl | rfl | rfl | rfl
      · refine ⟨by decide, SafeVal.arr _ ?_⟩
        intro x hx
        simp only [List.mem_cons, List.not_mem_nil, or_false] at hx
        rcases hx with rfl | rfl | rfl | rfl
        · exact JsonSafe.num 1
        · exact JsonSafe.str "Two" (by decide)
        · exact JsonSafe.bool false
        · exact JsonSafe.null
      · refine ⟨by decide, SafeVal.obj _ ?_ ?_⟩
        · intro kv2 hkv2
          simp only [List.mem_cons, List.not_mem_nil, or_false] at hkv2
          rcases hkv2 with rfl | rfl <;> decide
        · intro kv2 hkv2
          simp only [List.mem_cons, List.not_mem_nil, or_false] at hkv2
          rcases hkv2 with rfl | rfl
          · exact JsonSafe.num 0
          · exact JsonSafe.str "A b" (by decide)
      · exact ⟨by decide, SafeVal.num 0⟩
      · exact ⟨by decide, SafeVal.num (-5)⟩
      · exact ⟨by decide, SafeVal.str "Hello" (by decide)⟩
      · exact ⟨by decide, SafeVal.bool true⟩
      · exact ⟨by decide, SafeVal.str "" (by decide)⟩
      · exact ⟨by decide, SafeVal.null⟩
  exact ⟨hs, c3_roundtrip_safe _ hs⟩
